import Mathlib

/-!
# Verification of the juno StarkNet state-commitment core

This file is a shallow embedding, in Lean 4, of the height-251 binary
Merkle-Patricia trie of the `pkg/trie` package (source file `part_000`:
`Node`, `Trie`, `trieStorer`), together with the state-update pipeline of
`pkg/starknet` (`Synchronizer.updateState`, `updateNumericValueFromDB`),
and proofs of the specification's claims about them.

Modelling conventions:
* A `Felt` (field element modulo the StarkNet prime `p`) is a `Nat`;
  all arithmetic that the source performs modulo `p` is written `% p`.
* The Pedersen digest is a parameter `P : Nat → Nat → Nat` of every
  definition and theorem: the source imports it from a crypto package that
  is fixed by the StarkNet protocol and is not part of this repository.
  Where the source reduces its output into a felt we write `P a b % p`.
* The content-addressed store keeps its two keyspaces (tag `0x01`:
  hash ↦ serialized node, tag `0x00`: Pedersen digest ↦ pair of felts)
  as two association lists; JSON (de)serialization of nodes is assumed
  round-trip exact, so nodes are stored directly.
* Go `panic` sites and error returns are both modelled as `Except` errors,
  with distinct constructors so that "panics" are distinguishable.
* Loops are embedded as fuel-indexed structural recursions; the fuel is
  exactly the loop variant (`height - walked + 1` bounds the number of
  iterations, since `walked` strictly increases each iteration).
-/

namespace Juno

/-- The StarkNet prime `p = 2^251 + 17·2^192 + 1`. -/
def stp : Nat := 2 ^ 251 + 17 * 2 ^ 192 + 1

/-- Modelled from the spec: the `Path` (BitPath) type of the trie package is
not among the provided source files (only its use sites in `part_000` are).
Per the spec it is a bounded bit string, `(length, bytes)` with the bits
MSB-first; we represent the bit string of length `len` by its value `val`
(the big-endian integer of its bytes, `val < 2^len`). -/
structure Path where
  len : Nat
  val : Nat
  deriving Repr, DecidableEq

/-- Modelled from the spec: the empty path (`length 0`). -/
def EmptyPath : Path := ⟨0, 0⟩

/-- Modelled from the spec: `NewPath(length, bytes)` builds a path of the
given length from the big-endian bytes of a felt, keeping the low `length`
bits (the path area sits at the low end of the 32-byte buffer). -/
def NewPath (length : Nat) (bytesVal : Nat) : Path :=
  ⟨length, bytesVal % 2 ^ length⟩

namespace Path

/-- Modelled from the spec: `get(i)` returns the bit at position `i`
counted from the MSB of the path area. Only used for `i < len`. -/
def get (a : Path) (i : Nat) : Bool :=
  a.val.testBit (a.len - 1 - i)

/-- Modelled from the spec: `set(i)` sets the bit at position `i` (from the
MSB) to 1. The source only ever calls `Set(0)` on a freshly extended path
whose new MSB is 0. -/
def set (a : Path) (i : Nat) : Path :=
  ⟨a.len, a.val ||| 2 ^ (a.len - 1 - i)⟩

/-- Modelled from the spec: `walked(k)` is the suffix after skipping the
`k` leading bits. -/
def walked (a : Path) (k : Nat) : Path :=
  ⟨a.len - k, a.val % 2 ^ (a.len - k)⟩

/-- Modelled from the spec: `longestCommonPrefix` compares bit-by-bit up to
`min(len_self, len_other)`, returning the number of leading bits shared.
Structured as a one-bit peel; the fuel is `a.len`, which bounds the number
of comparisons. -/
def lcpGo : Nat → Path → Path → Nat
  | 0, _, _ => 0
  | fuel + 1, a, b =>
    if a.len = 0 ∨ b.len = 0 then 0
    else if a.get 0 = b.get 0 then lcpGo fuel (a.walked 1) (b.walked 1) + 1
    else 0

/-- Modelled from the spec: `longestCommonPrefix`. -/
def longestCommonPrefix (a b : Path) : Nat := lcpGo a.len a b

end Path

/-- The 251-bit (in general `h`-bit) path of a key: `NewPath(h, key.Bytes())`. -/
def pathOf (h k : Nat) : Path := NewPath h k

/-- `Node` from `part_000` line 12: a compressed edge node `(path, bottom)`.
`bottom` is a felt (`Nat`). A `nil` Go node pointer is `Option.none` at use
sites. -/
structure TrieNode where
  path : Path
  bottom : Nat
  deriving Repr, DecidableEq

/-- `Node.Hash` from `part_000` line 17 (for a non-nil node):
`bottom` when the path is empty, else `P(bottom, path) + len` in the field. -/
def nodeHash (P : Nat → Nat → Nat) (n : TrieNode) : Nat :=
  if n.path.len = 0 then n.bottom
  else (P n.bottom n.path.val + n.path.len) % stp

/-- `Node.Hash` including the nil case (`Felt0`). -/
def nodeHashO (P : Nat → Nat → Nat) : Option TrieNode → Nat
  | none => 0
  | some n => nodeHash P n

/-- The two keyspaces of the `trieStorer` (`part_000` line 474): tag `0x01`
maps a node hash to the serialized node, tag `0x00` maps a Pedersen digest
to the concatenation of its two 32-byte arguments. Written entries are
consed in front; lookup returns the most recent write. -/
structure Store where
  hmap : List (Nat × TrieNode)
  pmap : List (Nat × (Nat × Nat))
  deriving Repr, DecidableEq

def emptyStore : Store := ⟨[], []⟩

/-- Error kinds of the trie package: `ErrNotFound`, `ErrInvalidValue`
(`part_000` line 70), the traversal `panic` on an empty node, and the
`errors.New("trying to delete unexistent key")` of `Delete`. -/
inductive TrieErr where
  | notFound
  | invalidValue
  | emptyNodePanic
  | deleteAbsent
  deriving Repr, DecidableEq

/-- `trieStorer.retrieveByP` (`part_000` line 478): look up the two felts
whose Pedersen digest is `key`; `ErrNotFound` if absent. (The 64-byte
length check of the source cannot fail in this model because pairs are
stored as pairs.) -/
def retrieveByP (s : Store) (key : Nat) : Except TrieErr (Nat × Nat) :=
  match s.pmap.lookup key with
  | none => .error .notFound
  | some ab => .ok ab

/-- `trieStorer.retrieveByH` (`part_000` line 494): look up a node by its
hash; `ErrNotFound` if absent. JSON round-trip is exact. -/
def retrieveByH (s : Store) (key : Nat) : Except TrieErr TrieNode :=
  match s.hmap.lookup key with
  | none => .error .notFound
  | some n => .ok n

/-- `trieStorer.storeByP` (`part_000` line 507). -/
def storeByP (s : Store) (key a b : Nat) : Store :=
  { s with pmap := (key, (a, b)) :: s.pmap }

/-- `trieStorer.storeByH` (`part_000` line 515). -/
def storeByH (s : Store) (key : Nat) (n : TrieNode) : Store :=
  { s with hmap := (key, n) :: s.hmap }

/-- `Trie` from `part_000` line 75: root node (or nil), storer, height. -/
structure Trie where
  root : Option TrieNode
  store : Store
  height : Nat
  deriving Repr, DecidableEq

/-- `Trie.computeH` (`part_000` line 453): hash the node, store it under
its hash, return the hash. -/
def computeH (P : Nat → Nat → Nat) (s : Store) (n : TrieNode) : Nat × Store :=
  let h := nodeHash P n
  (h, storeByH s h n)

/-- `Trie.computeP` (`part_000` line 464): Pedersen-hash the two felts,
store the pair under the digest, return the digest. -/
def computeP (P : Nat → Nat → Nat) (s : Store) (a b : Nat) : Nat × Store :=
  let d := P a b % stp
  (d, storeByP s d a b)

/-- `NewTrie` (`part_000` line 81): with a nil root hash, an empty trie;
otherwise load the root node from the store by its hash. -/
def NewTrie (s : Store) (rootHash : Option Nat) (height : Nat) :
    Except TrieErr Trie :=
  match rootHash with
  | none => .ok ⟨none, s, height⟩
  | some rh =>
    match retrieveByH s rh with
    | .error e => .error e
    | .ok root => .ok ⟨some root, s, height⟩

/-- `Trie.RootHash` (`part_000` line 93). -/
def Trie.rootHash (P : Nat → Nat → Nat) (t : Trie) : Nat :=
  match t.root with
  | none => 0
  | some n => nodeHash P n

/-- The loop body of `Trie.Get` (`part_000` lines 110-162), fuel-indexed.
One iteration consumes one fuel unit; `walked` strictly increases each
iteration, so `height - walked + 1` units suffice and the fuel-exhausted
branch is unreachable from `Trie.get` (it conservatively answers like the
`walked == height` exit). -/
def getGo (s : Store) (path : Path) (height : Nat) :
    Nat → Nat → TrieNode → Except TrieErr (Option Nat)
  | 0, _, curr => .ok (some curr.bottom)
  | fuel + 1, walked, curr =>
    if walked < height then
      if curr.path.len = 0 then
        if curr.bottom = 0 then .error .emptyNodePanic
        else
          match retrieveByP s curr.bottom with
          | .error e => .error e
          | .ok (leftH, rightH) =>
            let next := if path.get walked then rightH else leftH
            match retrieveByH s next with
            | .error e => .error e
            | .ok n => getGo s path height fuel (walked + 1) n
      else if curr.path.longestCommonPrefix (path.walked walked) =
          curr.path.len then
        getGo s path height fuel (walked + curr.path.len)
          ⟨EmptyPath, curr.bottom⟩
      else .ok none
    else .ok (some curr.bottom)

/-- `Trie.Get` (`part_000` line 101). (`Get` never hashes, so it does not
depend on the Pedersen digest.) -/
def Trie.get (t : Trie) (key : Nat) :
    Except TrieErr (Option Nat) :=
  match t.root with
  | none => .ok none
  | some root => getGo t.store (pathOf t.height key) t.height
      (t.height + 1) 0 root

/-- The sibling table of `Put`/`Delete`: position ↦ recorded sibling hash. -/
def Sib := Nat → Option Nat

def Sib.empty : Sib := fun _ => none

def Sib.update (sb : Sib) (i : Nat) (v : Nat) : Sib :=
  fun j => if j = i then some v else sb j

/-- Phase 1 of `Trie.Put` (`part_000` lines 171-250): descend recording
siblings; stops at the height, at a nil node, or at a diverging edge
(recording the node one step into the edge). Fuel-indexed as in `getGo`;
the fuel-exhausted branch is unreachable from `Trie.put`. -/
def putGo (P : Nat → Nat → Nat) (s : Store) (path : Path) (height : Nat) :
    Nat → Nat → Option TrieNode → Sib → Except TrieErr Sib
  | 0, _, _, sib => .ok sib
  | fuel + 1, walked, curr, sib =>
    match curr with
    | none => .ok sib
    | some c =>
      if walked < height then
        if c.path.len = 0 then
          if c.bottom = 0 then .error .emptyNodePanic
          else
            match retrieveByP s c.bottom with
            | .error e => .error e
            | .ok (leftH, rightH) =>
              let next := if path.get walked then rightH else leftH
              let sibling := if path.get walked then leftH else rightH
              let sib' := sib.update walked sibling
              match retrieveByH s next with
              | .error e => .error e
              | .ok n =>
                putGo P s path height fuel (walked + 1) (some n) sib'
        else
          let lcp := c.path.longestCommonPrefix (path.walked walked)
          if lcp = 0 then
            .ok (sib.update walked (nodeHash P ⟨c.path.walked 1, c.bottom⟩))
          else
            putGo P s path height fuel (walked + lcp)
              (some ⟨c.path.walked lcp, c.bottom⟩) sib
      else .ok sib

/-- Phase 2 of `Trie.Put` (`part_000` lines 252-287): rebuild bottom-up
from the new leaf. `buildLoop P path sib j curr s` performs the iterations
`i = j-1, …, 0` of the reverse walk; `Trie.put` calls it with `j = height`.
At a recorded sibling a binary node is formed (and its Pedersen pair
persisted); otherwise the path is extended by one bit on the high side,
set when the key's bit is 1. Every node is persisted under its hash. -/
def buildLoop (P : Nat → Nat → Nat) (path : Path) (sib : Sib) :
    Nat → TrieNode → Store → TrieNode × Store
  | 0, curr, s => (curr, s)
  | j + 1, curr, s =>
    match sib j with
    | some sibling =>
      let currH := nodeHash P curr
      let (left, right) :=
        if path.get j then (sibling, currH) else (currH, sibling)
      let (bottom, s1) := computeP P s left right
      let curr' : TrieNode := ⟨EmptyPath, bottom⟩
      let (_, s2) := computeH P s1 curr'
      buildLoop P path sib j curr' s2
    | none =>
      let edgePath0 := NewPath (curr.path.len + 1) curr.path.val
      let edgePath := if path.get j then edgePath0.set 0 else edgePath0
      let curr' : TrieNode := ⟨edgePath, curr.bottom⟩
      let (_, s1) := computeH P s curr'
      buildLoop P path sib j curr' s1

/-- `Trie.Put` (`part_000` line 167). -/
def Trie.put (P : Nat → Nat → Nat) (t : Trie) (key value : Nat) :
    Except TrieErr Trie :=
  let path := pathOf t.height key
  match putGo P t.store path t.height (t.height + 1) 0 t.root Sib.empty with
  | .error e => .error e
  | .ok sib =>
    let leaf : TrieNode := ⟨EmptyPath, value⟩
    let (_, s1) := computeH P t.store leaf
    let (root', s2) := buildLoop P path sib t.height leaf s1
    .ok ⟨some root', s2, t.height⟩

/-- Phase 1 of `Trie.Delete` (`part_000` lines 298-377): like `putGo` but
returning the final `curr` as well; on a diverging edge the sibling is
recorded and `curr` becomes nil (the loop then exits). -/
def delGo (P : Nat → Nat → Nat) (s : Store) (path : Path) (height : Nat) :
    Nat → Nat → Option TrieNode → Sib →
    Except TrieErr (Option TrieNode × Sib)
  | 0, _, curr, sib => .ok (curr, sib)
  | fuel + 1, walked, curr, sib =>
    match curr with
    | none => .ok (none, sib)
    | some c =>
      if walked < height then
        if c.path.len = 0 then
          if c.bottom = 0 then .error .emptyNodePanic
          else
            match retrieveByP s c.bottom with
            | .error e => .error e
            | .ok (leftH, rightH) =>
              let next := if path.get walked then rightH else leftH
              let sibling := if path.get walked then leftH else rightH
              let sib' := sib.update walked sibling
              match retrieveByH s next with
              | .error e => .error e
              | .ok n =>
                delGo P s path height fuel (walked + 1) (some n) sib'
        else
          let lcp := c.path.longestCommonPrefix (path.walked walked)
          if lcp = 0 then
            .ok (none,
              sib.update walked (nodeHash P ⟨c.path.walked 1, c.bottom⟩))
          else
            delGo P s path height fuel (walked + lcp)
              (some ⟨c.path.walked lcp, c.bottom⟩) sib
      else .ok (some c, sib)

/-- The ascent of `Trie.Delete` (`part_000` lines 398-446): rebuild from
nil; at the first recorded sibling the sibling node is loaded from the
store and one bit (the complement of the deleted key's bit) is prepended
to its path; later siblings combine as binary nodes; with no sibling and a
current node the path is extended along the key's own bit. -/
def delBuild (P : Nat → Nat → Nat) (path : Path) (sib : Sib) :
    Nat → Option TrieNode → Store → Except TrieErr (Option TrieNode × Store)
  | 0, curr, s => .ok (curr, s)
  | j + 1, curr, s =>
    match sib j with
    | some siblingH =>
      match curr with
      | none =>
        match retrieveByH s siblingH with
        | .error e => .error e
        | .ok sn =>
          let edgePath0 := NewPath (sn.path.len + 1) sn.path.val
          let edgePath := if path.get j then edgePath0 else edgePath0.set 0
          let curr' : TrieNode := ⟨edgePath, sn.bottom⟩
          let (_, s1) := computeH P s curr'
          delBuild P path sib j (some curr') s1
      | some c =>
        let currH := nodeHash P c
        let (left, right) :=
          if path.get j then (siblingH, currH) else (currH, siblingH)
        let (bottom, s1) := computeP P s left right
        let curr' : TrieNode := ⟨EmptyPath, bottom⟩
        let (_, s2) := computeH P s1 curr'
        delBuild P path sib j (some curr') s2
    | none =>
      match curr with
      | some c =>
        let edgePath0 := NewPath (c.path.len + 1) c.path.val
        let edgePath := if path.get j then edgePath0.set 0 else edgePath0
        let curr' : TrieNode := ⟨edgePath, c.bottom⟩
        let (_, s1) := computeH P s curr'
        delBuild P path sib j (some curr') s1
      | none => delBuild P path sib j none s

/-- `Trie.Delete` (`part_000` line 294). -/
def Trie.delete (P : Nat → Nat → Nat) (t : Trie) (key : Nat) :
    Except TrieErr Trie :=
  let path := pathOf t.height key
  match delGo P t.store path t.height (t.height + 1) 0 t.root Sib.empty with
  | .error e => .error e
  | .ok (curr, sib) =>
    match curr with
    | none => .error .deleteAbsent
    | some _ =>
      match delBuild P path sib t.height none t.store with
      | .error e => .error e
      | .ok (root', s') => .ok ⟨root', s', t.height⟩

/-- An empty trie over an empty store. -/
def emptyTrie (height : Nat) : Trie := ⟨none, emptyStore, height⟩

/-- Fold a list of `(key, value)` pairs through `Trie.put`. -/
def putList (P : Nat → Nat → Nat) : List (Nat × Nat) → Trie →
    Except TrieErr Trie
  | [], t => .ok t
  | (k, v) :: rest, t =>
    match t.put P k v with
    | .error e => .error e
    | .ok t' => putList P rest t'

/-- The loop of `Trie.Get` with the trie state threaded through explicitly:
each iteration receives the store and passes on the store left by its
retrievals, and the final trie (root, store, height) is returned beside the
result. This mirrors that the Go method has the receiver and its storer in
scope and could in principle write through them; the frame claim is that it
never does. -/
def getGoSt (path : Path) (height : Nat) :
    Nat → Nat → TrieNode → Store → Except TrieErr (Option Nat) × Store
  | 0, _, curr, s => (.ok (some curr.bottom), s)
  | fuel + 1, walked, curr, s =>
    if walked < height then
      if curr.path.len = 0 then
        if curr.bottom = 0 then (.error .emptyNodePanic, s)
        else
          match retrieveByP s curr.bottom with
          | .error e => (.error e, s)
          | .ok (leftH, rightH) =>
            let next := if path.get walked then rightH else leftH
            match retrieveByH s next with
            | .error e => (.error e, s)
            | .ok n => getGoSt path height fuel (walked + 1) n s
      else if curr.path.longestCommonPrefix (path.walked walked) =
          curr.path.len then
        getGoSt path height fuel (walked + curr.path.len)
          ⟨EmptyPath, curr.bottom⟩ s
      else (.ok none, s)
    else (.ok (some curr.bottom), s)

/-- `Trie.Get` returning the post-call trie state beside the result. -/
def Trie.getSt (t : Trie) (key : Nat) :
    Except TrieErr (Option Nat) × Trie :=
  match t.root with
  | none => (.ok none, t)
  | some root =>
    let (r, s') := getGoSt (pathOf t.height key) t.height
      (t.height + 1) 0 root t.store
    (r, ⟨t.root, s', t.height⟩)

/-! ## The canonical map semantics

The pure counterpart of the trie: a finite map from `h`-bit paths to
values, represented as an association list with pairwise-distinct keys,
and the canonical compressed tree it determines. The put/delete/get
operations of the source are proved below to refine `minsert`, `merase`
and `List.lookup` on this map, with the root hash given by `canH`. -/

/-- Insert-or-replace in an association list. -/
def minsert (k v : Nat) : List (Nat × Nat) → List (Nat × Nat)
  | [] => [(k, v)]
  | (a, b) :: rest =>
    if a = k then (k, v) :: rest else (a, b) :: minsert k v rest

/-- Remove a key from an association list. -/
def merase (k : Nat) : List (Nat × Nat) → List (Nat × Nat)
  | [] => []
  | (a, b) :: rest => if a = k then rest else (a, b) :: merase k rest

/-- Split an `h`-bit map into the two `h-1`-bit halves: keys with leading
bit 0 (values `< 2^(h-1)`) and keys with leading bit 1, re-keyed. -/
def msplit (h : Nat) : List (Nat × Nat) → List (Nat × Nat) × List (Nat × Nat)
  | [] => ([], [])
  | (k, v) :: rest =>
    let (m0, m1) := msplit h rest
    if k < 2 ^ (h - 1) then ((k, v) :: m0, m1)
    else (m0, (k - 2 ^ (h - 1), v) :: m1)

/-- The canonical node of a nonempty `h`-bit map: edge length, edge bits,
and bottom felt. The edge is the longest common prefix of all keys; at its
end sits a leaf (at height 0) or a binary node whose bottom is the Pedersen
digest of the two child hashes. -/
def cpv (P : Nat → Nat → Nat) : (h : Nat) → List (Nat × Nat) → Nat × Nat × Nat
  | 0, m => (0, 0, ((m.head?).map Prod.snd).getD 0)
  | h + 1, m =>
    if (msplit (h + 1) m).2.isEmpty then
      ((cpv P h (msplit (h + 1) m).1).1 + 1,
       (cpv P h (msplit (h + 1) m).1).2.1,
       (cpv P h (msplit (h + 1) m).1).2.2)
    else if (msplit (h + 1) m).1.isEmpty then
      ((cpv P h (msplit (h + 1) m).2).1 + 1,
       2 ^ (cpv P h (msplit (h + 1) m).2).1 +
         (cpv P h (msplit (h + 1) m).2).2.1,
       (cpv P h (msplit (h + 1) m).2).2.2)
    else
      (0, 0,
       P (nodeHash P ⟨⟨(cpv P h (msplit (h + 1) m).1).1,
            (cpv P h (msplit (h + 1) m).1).2.1⟩,
            (cpv P h (msplit (h + 1) m).1).2.2⟩)
         (nodeHash P ⟨⟨(cpv P h (msplit (h + 1) m).2).1,
            (cpv P h (msplit (h + 1) m).2).2.1⟩,
            (cpv P h (msplit (h + 1) m).2).2.2⟩) % stp)

/-- The canonical top node of a nonempty map. -/
def canNode (P : Nat → Nat → Nat) (h : Nat) (m : List (Nat × Nat)) : TrieNode :=
  ⟨⟨(cpv P h m).1, (cpv P h m).2.1⟩, (cpv P h m).2.2⟩

/-- The hash of the canonical top node of a nonempty map. -/
def canH (P : Nat → Nat → Nat) (h : Nat) (m : List (Nat × Nat)) : Nat :=
  nodeHash P (canNode P h m)

/-- The canonical root hash of a (possibly empty) map. -/
def canRoot (P : Nat → Nat → Nat) (h : Nat) (m : List (Nat × Nat)) : Nat :=
  if m.isEmpty then 0 else canH P h m

/-- The keys of an association-list map. -/
def mkeys (m : List (Nat × Nat)) : List Nat := m.map Prod.fst

/-- Well-formedness of an `h`-bit map: pairwise-distinct keys, all `< 2^h`. -/
def MapWF (h : Nat) (m : List (Nat × Nat)) : Prop :=
  (mkeys m).Nodup ∧ ∀ e ∈ m, e.1 < 2 ^ h

/-- The residual map at depth `i` along the path of key `k`: the entries
whose first `i` path bits agree with `k`'s, re-keyed to the remaining
`h - i` bits. -/
def mres (h k : Nat) (m : List (Nat × Nat)) : Nat → List (Nat × Nat)
  | 0 => m
  | i + 1 =>
    if k.testBit (h - 1 - i) then (msplit (h - i) (mres h k m i)).2
    else (msplit (h - i) (mres h k m i)).1

/-- The sibling subtree map at depth `i` along the path of `k`: the half of
the residual at depth `i` on the side `k` does not take. -/
def mopp (h k : Nat) (m : List (Nat × Nat)) (i : Nat) : List (Nat × Nat) :=
  if k.testBit (h - 1 - i) then (msplit (h - i) (mres h k m i)).1
  else (msplit (h - i) (mres h k m i)).2

/-- The canonical sibling-hash table that phase 1 of `Put`/`Delete` records
while descending along the path of `k` through the canonical trie of `m`. -/
def sibSpec (P : Nat → Nat → Nat) (h k : Nat) (m : List (Nat × Nat)) :
    Nat → Option Nat := fun i =>
  if h ≤ i then none
  else if (mopp h k m i).isEmpty then none
  else some (canH P (h - i - 1) (mopp h k m i))

/-- The store covers the canonical trie of the `h`-bit map `m`: the
canonical top node of every nonempty (sub)map is present in the node
keyspace under its hash, and every binary bottom is present in the
Pedersen keyspace with the two child hashes as its preimage. (Since the
recursion descends one level per step, this in particular provides every
partial-edge node, which `Put` persists while rebuilding.) -/
def Covers (P : Nat → Nat → Nat) (s : Store) : Nat → List (Nat × Nat) → Prop
  | 0, m => m ≠ [] →
      (nodeHash P (canNode P 0 m), canNode P 0 m) ∈ s.hmap
  | h + 1, m => m ≠ [] →
      (nodeHash P (canNode P (h + 1) m), canNode P (h + 1) m) ∈ s.hmap ∧
      (if (msplit (h + 1) m).2.isEmpty then
        Covers P s h (msplit (h + 1) m).1
       else if (msplit (h + 1) m).1.isEmpty then
        Covers P s h (msplit (h + 1) m).2
       else
        ((cpv P (h + 1) m).2.2,
          (canH P h (msplit (h + 1) m).1, canH P h (msplit (h + 1) m).2))
            ∈ s.pmap ∧
          Covers P s h (msplit (h + 1) m).1 ∧
          Covers P s h (msplit (h + 1) m).2)

/-- Entry-wise inclusion of stores (writes only ever add entries). -/
def Store.le (s s' : Store) : Prop :=
  s.hmap ⊆ s'.hmap ∧ s.pmap ⊆ s'.pmap

/-- The node keyspace is functional: entries sharing a key carry the same
node. This is the collision-freedom of the node hash on the nodes this run
actually persisted; it is decidable on a concrete run. -/
def Store.hfun (s : Store) : Prop :=
  s.hmap.Pairwise (fun a b => a.1 = b.1 → a.2 = b.2)

/-- The Pedersen keyspace is functional: entries sharing a digest carry
the same argument pair (collision-freedom of `P` on the pairs this run
hashed). -/
def Store.pfun (s : Store) : Prop :=
  s.pmap.Pairwise (fun a b => a.1 = b.1 → a.2 = b.2)

/-- No stored Pedersen digest is zero (`P` never produced `0 mod p` during
this run); this keeps the empty-node panic branch unreachable. -/
def Store.pnz (s : Store) : Prop := ∀ e ∈ s.pmap, e.1 ≠ 0

/-- All collision-freedom side conditions together. -/
def Store.ok (s : Store) : Prop := s.hfun ∧ s.pfun ∧ s.pnz

instance (s : Store) : Decidable s.hfun := by
  unfold Store.hfun; infer_instance

instance (s : Store) : Decidable s.pfun := by
  unfold Store.pfun; infer_instance

instance (s : Store) : Decidable s.pnz := by
  unfold Store.pnz; infer_instance

instance (s : Store) : Decidable s.ok := by
  unfold Store.ok; infer_instance

instance (s s' : Store) : Decidable (s.le s') :=
  decidable_of_iff ((∀ a ∈ s.hmap, a ∈ s'.hmap) ∧ ∀ a ∈ s.pmap, a ∈ s'.pmap)
    ⟨fun h => ⟨fun _ ha => h.1 _ ha, fun _ ha => h.2 _ ha⟩,
     fun h => ⟨fun _ ha => h.1 ha, fun _ ha => h.2 ha⟩⟩

instance (h : Nat) (m : List (Nat × Nat)) : Decidable (MapWF h m) := by
  unfold MapWF mkeys; infer_instance

/-- The represented-map invariant: the in-memory root is the canonical top
node of `m` (nil for the empty map) and the store covers the canonical
trie of `m`. -/
def Rep (P : Nat → Nat → Nat) (t : Trie) (m : List (Nat × Nat)) : Prop :=
  t.root = (if m.isEmpty then none else some (canNode P t.height m)) ∧
    Covers P t.store t.height m

/-- Fold a list of `(key, value)` pairs into a map, reducing each key to
its `h`-bit path as `Put` does. -/
def mfold (h : Nat) (l : List (Nat × Nat)) : List (Nat × Nat) :=
  l.foldl (fun m e => minsert (e.1 % 2 ^ h) e.2 m) []

/-! ## Basic lemmas: functional lookups, paths, bits -/

theorem pairwise_functional_eq {β : Type} {L : List (Nat × β)}
    (hfun : L.Pairwise (fun a b => a.1 = b.1 → a.2 = b.2))
    {k : Nat} {x y : β} (hx : (k, x) ∈ L) (hy : (k, y) ∈ L) : x = y := by
  induction L with
  | nil => cases hx
  | cons e tl ih =>
    obtain ⟨e1, e2⟩ := e
    rcases List.pairwise_cons.mp hfun with ⟨he, htl⟩
    rcases List.mem_cons.mp hx with hx1 | hx1
    · rcases List.mem_cons.mp hy with hy1 | hy1
      · exact (congrArg Prod.snd hx1).trans (congrArg Prod.snd hy1).symm
      · have h2 : e2 = y := by
          have := he _ hy1 (congrArg Prod.fst hx1).symm
          simpa using this
        exact (congrArg Prod.snd hx1).trans h2
    · rcases List.mem_cons.mp hy with hy1 | hy1
      · have h2 : e2 = x := by
          have := he _ hx1 (congrArg Prod.fst hy1).symm
          simpa using this
        exact h2.symm.trans (congrArg Prod.snd hy1).symm
      · exact ih htl hx1 hy1

theorem lookup_eq_of_functional {β : Type} {l L : List (Nat × β)}
    (hsub : l ⊆ L)
    (hfun : L.Pairwise (fun a b => a.1 = b.1 → a.2 = b.2))
    {k : Nat} {x : β} (hmem : (k, x) ∈ l) : l.lookup k = some x := by
  induction l with
  | nil => cases hmem
  | cons e tl ih =>
    obtain ⟨e1, e2⟩ := e
    by_cases hk : e1 = k
    · have hmem1 : (k, e2) ∈ L := by
        have := hsub (List.mem_cons_self _ tl)
        simpa [hk] using this
      have : e2 = x := pairwise_functional_eq hfun hmem1 (hsub hmem)
      simp [List.lookup, hk, this]
    · have hmem1 : (k, x) ∈ tl := by
        rcases List.mem_cons.mp hmem with h1 | h1
        · exact absurd (congrArg Prod.fst h1.symm) hk
        · exact h1
      have hne : (k == e1) = false := by
        simp [Ne.symm hk]
      simp only [List.lookup, hne]
      exact ih (fun a ha => hsub (List.mem_cons_of_mem _ ha)) hmem1

theorem retrieveByH_of_mem {P : Nat → Nat → Nat} {s S : Store}
    (hsub : s.hmap ⊆ S.hmap) (hfun : S.hfun) {n : TrieNode}
    (hmem : (nodeHash P n, n) ∈ s.hmap) :
    retrieveByH s (nodeHash P n) = .ok n := by
  unfold retrieveByH
  rw [lookup_eq_of_functional hsub hfun hmem]

theorem retrieveByP_of_mem {s S : Store}
    (hsub : s.pmap ⊆ S.pmap) (hfun : S.pfun) {k : Nat} {ab : Nat × Nat}
    (hmem : (k, ab) ∈ s.pmap) :
    retrieveByP s k = .ok ab := by
  unfold retrieveByP
  rw [lookup_eq_of_functional hsub hfun hmem]

theorem Store.le_refl (s : Store) : s.le s := ⟨fun _ h => h, fun _ h => h⟩

theorem Store.le_trans {a b c : Store} (h1 : a.le b) (h2 : b.le c) :
    a.le c :=
  ⟨fun _ h => h2.1 (h1.1 h), fun _ h => h2.2 (h1.2 h)⟩

theorem storeByH_le (s : Store) (k : Nat) (n : TrieNode) :
    s.le (storeByH s k n) :=
  ⟨fun _ h => List.mem_cons_of_mem _ h, fun _ h => h⟩

theorem storeByP_le (s : Store) (k a b : Nat) :
    s.le (storeByP s k a b) :=
  ⟨fun _ h => h, fun _ h => List.mem_cons_of_mem _ h⟩

/-! ### Path lemmas -/

theorem pathOf_len (h k : Nat) : (pathOf h k).len = h := rfl

theorem pathOf_val (h k : Nat) : (pathOf h k).val = k % 2 ^ h := rfl

theorem Path.walked_len (a : Path) (j : Nat) : (a.walked j).len = a.len - j :=
  rfl

theorem Path.walked_val (a : Path) (j : Nat) :
    (a.walked j).val = a.val % 2 ^ (a.len - j) := rfl

theorem Path.get_eq (a : Path) (i : Nat) :
    a.get i = a.val.testBit (a.len - 1 - i) := rfl

theorem pathOf_get (h k i : Nat) :
    (pathOf h k).get i = (k % 2 ^ h).testBit (h - 1 - i) := rfl

theorem pathOf_get_lt {h k : Nat} (i : Nat) (hk : k < 2 ^ h) :
    (pathOf h k).get i = k.testBit (h - 1 - i) := by
  rw [pathOf_get, Nat.mod_eq_of_lt hk]

/-- The bit read at position `w` of a key path equals the bit the residual
path exposes first. -/
theorem pathOf_walked_get {h k w : Nat} (hw : w < h) (hk : k < 2 ^ h) :
    ((pathOf h k).walked w).get 0 = k.testBit (h - 1 - w) := by
  have h1 : ((pathOf h k).walked w).get 0 =
      ((k % 2 ^ h) % 2 ^ (h - w)).testBit (h - w - 1) := rfl
  have heq : h - w - 1 = h - 1 - w := by omega
  rw [h1, Nat.mod_eq_of_lt hk, Nat.testBit_mod_two_pow, heq]
  simp [show h - 1 - w < h - w by omega]

/-! ### Longest common prefix -/

theorem Path.lcpGo_len_zero {a b : Path} (h : a.len = 0) :
    ∀ fuel, lcpGo fuel a b = 0 := by
  intro fuel
  cases fuel with
  | zero => rfl
  | succ n => unfold lcpGo; simp [h]

theorem Path.lcpGo_fuel : ∀ (fuel fuel' : Nat) (a b : Path),
    a.len ≤ fuel → a.len ≤ fuel' → lcpGo fuel a b = lcpGo fuel' a b := by
  intro fuel
  induction fuel with
  | zero =>
    intro fuel' a b ha _
    have h0 : a.len = 0 := Nat.le_zero.mp ha
    rw [lcpGo_len_zero h0, lcpGo_len_zero h0]
  | succ n ih =>
    intro fuel' a b ha hb
    cases fuel' with
    | zero =>
      have h0 : a.len = 0 := Nat.le_zero.mp hb
      rw [lcpGo_len_zero h0, lcpGo_len_zero h0]
    | succ n' =>
      unfold lcpGo
      by_cases h0 : a.len = 0 ∨ b.len = 0
      · simp [h0]
      · push_neg at h0
        simp only [h0.1, h0.2, or_self, if_false]
        by_cases heq : a.get 0 = b.get 0
        · simp only [heq, if_true]
          have hw : (a.walked 1).len ≤ n := by
            rw [Path.walked_len]; omega
          have hw' : (a.walked 1).len ≤ n' := by
            rw [Path.walked_len]; omega
          rw [ih n' (a.walked 1) (b.walked 1) hw hw']
        · simp [heq]

theorem Path.lcp_zero_left {a b : Path} (h : a.len = 0) :
    a.longestCommonPrefix b = 0 :=
  lcpGo_len_zero h a.len

theorem Path.lcp_zero_of_ne {a b : Path} (ha : a.len ≠ 0) (hb : b.len ≠ 0)
    (hne : a.get 0 ≠ b.get 0) : a.longestCommonPrefix b = 0 := by
  unfold longestCommonPrefix
  obtain ⟨n, hn⟩ : ∃ n, a.len = n + 1 := ⟨a.len - 1, by omega⟩
  rw [hn]
  unfold lcpGo
  simp [ha, hb, hne]

theorem Path.lcp_succ {a b : Path} (ha : a.len ≠ 0) (hb : b.len ≠ 0)
    (heq : a.get 0 = b.get 0) :
    a.longestCommonPrefix b =
      (a.walked 1).longestCommonPrefix (b.walked 1) + 1 := by
  unfold longestCommonPrefix
  obtain ⟨n, hn⟩ : ∃ n, a.len = n + 1 := ⟨a.len - 1, by omega⟩
  rw [hn]
  show lcpGo (n + 1) a b = lcpGo (a.walked 1).len (a.walked 1) (b.walked 1) + 1
  conv_lhs => rw [lcpGo]
  rw [if_neg (by simp [ha, hb]), if_pos heq]
  have hf : lcpGo n (a.walked 1) (b.walked 1) =
      lcpGo (a.walked 1).len (a.walked 1) (b.walked 1) := by
    refine lcpGo_fuel n (a.walked 1).len (a.walked 1) (b.walked 1) ?_ ?_
    · rw [Path.walked_len]; omega
    · exact Nat.le_refl _
  rw [hf]

theorem Path.lcpGo_le_right : ∀ (fuel : Nat) (a b : Path),
    lcpGo fuel a b ≤ b.len := by
  intro fuel
  induction fuel with
  | zero => intro a b; simp [lcpGo]
  | succ n ih =>
    intro a b
    unfold lcpGo
    by_cases h0 : a.len = 0 ∨ b.len = 0
    · simp [h0]
    · push_neg at h0
      simp only [h0.1, h0.2, or_self, if_false]
      by_cases heq : a.get 0 = b.get 0
      · simp only [heq, if_true]
        have := ih (a.walked 1) (b.walked 1)
        rw [Path.walked_len] at this
        omega
      · simp [heq]

theorem Path.lcp_le_right (a b : Path) : a.longestCommonPrefix b ≤ b.len :=
  Path.lcpGo_le_right a.len a b

theorem Path.lcpGo_le_fuel : ∀ (fuel : Nat) (a b : Path),
    lcpGo fuel a b ≤ fuel := by
  intro fuel
  induction fuel with
  | zero => intro a b; simp [lcpGo]
  | succ n ih =>
    intro a b
    unfold lcpGo
    by_cases h0 : a.len = 0 ∨ b.len = 0
    · simp [h0]
    · push_neg at h0
      simp only [h0.1, h0.2, or_self, if_false]
      by_cases heq : a.get 0 = b.get 0
      · simp only [heq, if_true]
        have := ih (a.walked 1) (b.walked 1)
        omega
      · simp [heq]

theorem Path.lcp_le_left (a b : Path) : a.longestCommonPrefix b ≤ a.len :=
  Path.lcpGo_le_fuel a.len a b

/-! ### Bit-boundary helpers -/

theorem testBit_false_iff_lt {x n : Nat} (hx : x < 2 ^ (n + 1)) :
    x.testBit n = false ↔ x < 2 ^ n := by
  rw [Nat.testBit_to_div_mod]
  have hp : 0 < 2 ^ n := Nat.pos_pow_of_pos n (by norm_num)
  have h2 : x / 2 ^ n < 2 := by
    apply Nat.div_lt_of_lt_mul
    have h3 : 2 ^ n * 2 = 2 ^ (n + 1) := by rw [pow_succ]
    omega
  constructor
  · intro h
    simp only [decide_eq_false_iff_not] at h
    by_contra hc
    have : 1 ≤ x / 2 ^ n := (Nat.one_le_div_iff hp).mpr (by omega)
    omega
  · intro h
    have hd : x / 2 ^ n = 0 := Nat.div_eq_of_lt h
    simp [hd]

theorem testBit_true_iff_ge {x n : Nat} (hx : x < 2 ^ (n + 1)) :
    x.testBit n = true ↔ 2 ^ n ≤ x := by
  constructor
  · intro h
    by_contra hc
    have := (testBit_false_iff_lt hx).mpr (by omega)
    rw [h] at this
    cases this
  · intro h
    rcases Bool.eq_false_or_eq_true (x.testBit n) with hb | hb
    · exact hb
    · have := (testBit_false_iff_lt hx).mp hb
      omega

theorem two_pow_split (n : Nat) (hn : 0 < n) : 2 ^ n = 2 ^ (n - 1) * 2 := by
  conv_lhs => rw [show n = n - 1 + 1 by omega]
  rw [pow_succ]

theorem mod_pow_pred_of_ge {x n : Nat} (hn : 0 < n) (hx2 : x < 2 ^ n)
    (hx1 : 2 ^ (n - 1) ≤ x) : x % 2 ^ (n - 1) = x - 2 ^ (n - 1) := by
  have h2 := two_pow_split n hn
  rw [Nat.mod_eq_sub_mod hx1, Nat.mod_eq_of_lt (by omega)]

theorem mod_mod_pow {x a b : Nat} (hab : a ≤ b) :
    x % 2 ^ b % 2 ^ a = x % 2 ^ a :=
  Nat.mod_mod_of_dvd x (pow_dvd_pow 2 hab)

theorem testBit_mod_pow {x a b : Nat} (hab : a < b) :
    (x % 2 ^ b).testBit a = x.testBit a := by
  rw [Nat.testBit_mod_two_pow]
  simp [hab]

/-! ### msplit lemmas -/

theorem msplit_fst_mem {h : Nat} {m : List (Nat × Nat)} {e : Nat × Nat} :
    e ∈ (msplit h m).1 ↔ e ∈ m ∧ e.1 < 2 ^ (h - 1) := by
  induction m with
  | nil => simp [msplit]
  | cons a tl ih =>
    unfold msplit
    by_cases hc : a.1 < 2 ^ (h - 1)
    · simp only [hc, if_true]
      constructor
      · intro hmem
        rcases List.mem_cons.mp hmem with h1 | h1
        · exact ⟨by simp [h1], h1 ▸ hc⟩
        · have := ih.mp h1
          exact ⟨List.mem_cons_of_mem _ this.1, this.2⟩
      · intro ⟨hmem, hlt⟩
        rcases List.mem_cons.mp hmem with h1 | h1
        · exact h1 ▸ List.mem_cons_self _ _
        · exact List.mem_cons_of_mem _ (ih.mpr ⟨h1, hlt⟩)
    · simp only [hc, if_false]
      constructor
      · intro hmem
        have := ih.mp hmem
        exact ⟨List.mem_cons_of_mem _ this.1, this.2⟩
      · intro ⟨hmem, hlt⟩
        rcases List.mem_cons.mp hmem with h1 | h1
        · exact absurd (h1 ▸ hlt) hc
        · exact ih.mpr ⟨h1, hlt⟩

theorem msplit_snd_mem {h : Nat} {m : List (Nat × Nat)} {x v : Nat} :
    (x, v) ∈ (msplit h m).2 ↔ (x + 2 ^ (h - 1), v) ∈ m := by
  induction m with
  | nil => simp [msplit]
  | cons a tl ih =>
    unfold msplit
    by_cases hc : a.1 < 2 ^ (h - 1)
    · simp only [hc, if_true]
      constructor
      · intro hmem
        exact List.mem_cons_of_mem _ (ih.mp hmem)
      · intro hmem
        rcases List.mem_cons.mp hmem with h1 | h1
        · have : a.1 = x + 2 ^ (h - 1) := congrArg Prod.fst h1.symm
          omega
        · exact ih.mpr h1
    · simp only [hc, if_false]
      constructor
      · intro hmem
        rcases List.mem_cons.mp hmem with h1 | h1
        · have hx : x = a.1 - 2 ^ (h - 1) := congrArg Prod.fst h1
          have hv : v = a.2 := congrArg Prod.snd h1
          refine List.mem_cons.mpr (Or.inl ?_)
          have ha : x + 2 ^ (h - 1) = a.1 := by omega
          rw [hv]
          exact Prod.ext ha rfl
        · exact List.mem_cons_of_mem _ (ih.mp h1)
      · intro hmem
        rcases List.mem_cons.mp hmem with h1 | h1
        · have hx : x + 2 ^ (h - 1) = a.1 := congrArg Prod.fst h1
          have hv : v = a.2 := congrArg Prod.snd h1
          refine List.mem_cons.mpr (Or.inl ?_)
          have hxa : x = a.1 - 2 ^ (h - 1) := by omega
          exact Prod.ext hxa hv
        · exact List.mem_cons_of_mem _ (ih.mpr h1)

theorem msplit_ne_nil {h : Nat} {m : List (Nat × Nat)} (hm : m ≠ []) :
    (msplit h m).1 ≠ [] ∨ (msplit h m).2 ≠ [] := by
  cases m with
  | nil => exact absurd rfl hm
  | cons a tl =>
    by_cases hc : a.1 < 2 ^ (h - 1)
    · left
      have : a ∈ (msplit h (a :: tl)).1 :=
        msplit_fst_mem.mpr ⟨List.mem_cons_self _ _, hc⟩
      exact List.ne_nil_of_mem this
    · right
      have hmem : (a.1 - 2 ^ (h - 1), a.2) ∈ (msplit h (a :: tl)).2 := by
        refine msplit_snd_mem.mpr ?_
        have hk : a.1 - 2 ^ (h - 1) + 2 ^ (h - 1) = a.1 := by omega
        rw [hk]
        exact List.mem_cons_self _ _
      exact List.ne_nil_of_mem hmem

theorem msplit_lookup_fst {h : Nat} {m : List (Nat × Nat)} {x : Nat}
    (hx : x < 2 ^ (h - 1)) :
    (msplit h m).1.lookup x = m.lookup x := by
  induction m with
  | nil => simp [msplit]
  | cons a tl ih =>
    unfold msplit
    by_cases hc : a.1 < 2 ^ (h - 1)
    · simp only [hc, if_true]
      by_cases hk : x = a.1
      · simp [List.lookup, hk]
      · have : (x == a.1) = false := by simp [hk]
        simp [List.lookup, this, ih]
    · simp only [hc, if_false]
      have hk : x ≠ a.1 := by omega
      have : (x == a.1) = false := by simp [hk]
      simp [List.lookup, this, ih]

theorem msplit_lookup_snd {h : Nat} {m : List (Nat × Nat)} {x : Nat}
    (hb : ∀ e ∈ m, e.1 < 2 ^ h)
    (hx1 : 2 ^ (h - 1) ≤ x) :
    (msplit h m).2.lookup (x - 2 ^ (h - 1)) = m.lookup x := by
  induction m with
  | nil => simp [msplit]
  | cons a tl ih =>
    have hb' : ∀ e ∈ tl, e.1 < 2 ^ h := fun e he => hb e (List.mem_cons_of_mem _ he)
    unfold msplit
    by_cases hc : a.1 < 2 ^ (h - 1)
    · simp only [hc, if_true]
      have hk : x ≠ a.1 := by omega
      have : (x == a.1) = false := by simp [hk]
      simp [List.lookup, this, ih hb']
    · simp only [hc, if_false]
      by_cases hk : x = a.1
      · have : (x - 2 ^ (h - 1) == a.1 - 2 ^ (h - 1)) = true := by
          simp [hk]
        simp [List.lookup, this, hk]
      · have h1 : (x - 2 ^ (h - 1) == a.1 - 2 ^ (h - 1)) = false := by
          simp only [beq_eq_false_iff_ne, ne_eq]
          omega
        have h2 : (x == a.1) = false := by simp [hk]
        simp [List.lookup, h1, h2, ih hb']

theorem msplit_fst_bound {h : Nat} {m : List (Nat × Nat)} :
    ∀ e ∈ (msplit h m).1, e.1 < 2 ^ (h - 1) :=
  fun _ he => (msplit_fst_mem.mp he).2

theorem msplit_snd_bound {h : Nat} {m : List (Nat × Nat)}
    (hb : ∀ e ∈ m, e.1 < 2 ^ h) (hh : 0 < h) :
    ∀ e ∈ (msplit h m).2, e.1 < 2 ^ (h - 1) := by
  intro e he
  obtain ⟨x, v⟩ := e
  have := msplit_snd_mem.mp he
  have hb1 := hb _ this
  simp only at hb1
  have h2 := two_pow_split h hh
  simp only
  omega

theorem msplit_fst_sub {h : Nat} {m : List (Nat × Nat)} :
    (msplit h m).1 ⊆ m := fun _ he => (msplit_fst_mem.mp he).1

theorem msplit_fst_keys_nodup {h : Nat} {m : List (Nat × Nat)}
    (hn : (mkeys m).Nodup) : (mkeys (msplit h m).1).Nodup := by
  induction m with
  | nil => simp [msplit, mkeys]
  | cons a tl ih =>
    simp only [mkeys, List.map_cons, List.nodup_cons] at hn
    unfold msplit
    by_cases hc : a.1 < 2 ^ (h - 1)
    · simp only [hc, if_true]
      simp only [mkeys, List.map_cons, List.nodup_cons]
      refine ⟨?_, ih hn.2⟩
      intro hmem
      rcases List.mem_map.mp hmem with ⟨e, he, hke⟩
      exact hn.1 (List.mem_map.mpr ⟨e, msplit_fst_sub he, hke⟩)
    · simp only [hc, if_false]
      exact ih hn.2

theorem msplit_snd_keys_nodup {h : Nat} {m : List (Nat × Nat)}
    (hn : (mkeys m).Nodup) : (mkeys (msplit h m).2).Nodup := by
  induction m with
  | nil => simp [msplit, mkeys]
  | cons a tl ih =>
    simp only [mkeys, List.map_cons, List.nodup_cons] at hn
    unfold msplit
    by_cases hc : a.1 < 2 ^ (h - 1)
    · simp only [hc, if_true]
      exact ih hn.2
    · simp only [hc, if_false]
      simp only [mkeys, List.map_cons, List.nodup_cons]
      refine ⟨?_, ih hn.2⟩
      intro hmem
      rcases List.mem_map.mp hmem with ⟨e, he, hke⟩
      obtain ⟨x, v⟩ := e
      have hm := msplit_snd_mem.mp he
      refine hn.1 (List.mem_map.mpr ⟨(x + 2 ^ (h - 1), v), hm, ?_⟩)
      simp only at hke ⊢
      omega

/-! ### minsert / merase basics -/

theorem lookup_eq_none_of_not_mem_keys {m : List (Nat × Nat)} {k : Nat}
    (h : k ∉ mkeys m) : m.lookup k = none := by
  induction m with
  | nil => rfl
  | cons a tl ih =>
    simp only [mkeys, List.map_cons, List.mem_cons, not_or] at h
    have : (k == a.1) = false := by simp [Ne.symm, h.1]
    simp only [List.lookup, this]
    exact ih h.2

theorem minsert_lookup_self (k v : Nat) (m : List (Nat × Nat)) :
    (minsert k v m).lookup k = some v := by
  induction m with
  | nil => simp [minsert, List.lookup]
  | cons a tl ih =>
    obtain ⟨a1, a2⟩ := a
    unfold minsert
    by_cases hc : a1 = k
    · simp [hc, List.lookup]
    · have : (k == a1) = false := by simp [Ne.symm hc]
      simp [hc, List.lookup, this, ih]

theorem minsert_lookup_ne {k x v : Nat} (m : List (Nat × Nat)) (hx : x ≠ k) :
    (minsert k v m).lookup x = m.lookup x := by
  have hxk : (x == k) = false := by simp [hx]
  induction m with
  | nil => simp [minsert, List.lookup, hxk]
  | cons a tl ih =>
    obtain ⟨a1, a2⟩ := a
    unfold minsert
    by_cases hc : a1 = k
    · have h1 : (x == k) = false := by simp [hx]
      have h2 : (x == a1) = false := by simp [hc, hx]
      simp [hc, List.lookup, h1, h2]
    · by_cases hxa : x = a1
      · simp [hc, List.lookup, hxa]
      · have h2 : (x == a1) = false := by simp [hxa]
        simp [hc, List.lookup, h2, ih]

theorem mem_minsert {k v : Nat} {m : List (Nat × Nat)} {e : Nat × Nat}
    (he : e ∈ minsert k v m) : e = (k, v) ∨ e ∈ m := by
  induction m with
  | nil => simpa [minsert] using he
  | cons a tl ih =>
    obtain ⟨a1, a2⟩ := a
    unfold minsert at he
    by_cases hc : a1 = k
    · simp only [hc, if_true] at he
      rcases List.mem_cons.mp he with h1 | h1
      · exact Or.inl h1
      · exact Or.inr (List.mem_cons_of_mem _ h1)
    · simp only [hc, if_false] at he
      rcases List.mem_cons.mp he with h1 | h1
      · exact Or.inr (h1 ▸ List.mem_cons_self _ _)
      · rcases ih h1 with h2 | h2
        · exact Or.inl h2
        · exact Or.inr (List.mem_cons_of_mem _ h2)

theorem minsert_bound {B k v : Nat} {m : List (Nat × Nat)}
    (hb : ∀ e ∈ m, e.1 < B) (hk : k < B) :
    ∀ e ∈ minsert k v m, e.1 < B := by
  intro e he
  rcases mem_minsert he with h1 | h1
  · rw [h1]; exact hk
  · exact hb e h1

theorem minsert_keys_nodup {k v : Nat} {m : List (Nat × Nat)}
    (hn : (mkeys m).Nodup) : (mkeys (minsert k v m)).Nodup := by
  induction m with
  | nil => simp [minsert, mkeys]
  | cons a tl ih =>
    obtain ⟨a1, a2⟩ := a
    simp only [mkeys, List.map_cons, List.nodup_cons] at hn
    unfold minsert
    by_cases hc : a1 = k
    · simp only [hc, if_true, mkeys, List.map_cons, List.nodup_cons]
      exact ⟨hc ▸ hn.1, hn.2⟩
    · simp only [hc, if_false, mkeys, List.map_cons, List.nodup_cons]
      refine ⟨?_, ih hn.2⟩
      intro hmem
      rcases List.mem_map.mp hmem with ⟨e, he, hke⟩
      rcases mem_minsert he with h1 | h1
      · rw [h1] at hke
        exact hc hke.symm
      · exact hn.1 (List.mem_map.mpr ⟨e, h1, hke⟩)

theorem minsert_ne_nil (k v : Nat) (m : List (Nat × Nat)) :
    minsert k v m ≠ [] := by
  cases m with
  | nil => simp [minsert]
  | cons a tl =>
    obtain ⟨a1, a2⟩ := a
    unfold minsert
    by_cases hc : a1 = k <;> simp [hc]

theorem merase_sublist (k : Nat) (m : List (Nat × Nat)) :
    (merase k m).Sublist m := by
  induction m with
  | nil => simp [merase]
  | cons a tl ih =>
    obtain ⟨a1, a2⟩ := a
    unfold merase
    by_cases hc : a1 = k
    · simp only [hc, if_true]
      exact List.sublist_cons_of_sublist _ (List.Sublist.refl tl)
    · simp only [hc, if_false]
      exact List.Sublist.cons₂ _ ih

theorem merase_bound {B k : Nat} {m : List (Nat × Nat)}
    (hb : ∀ e ∈ m, e.1 < B) : ∀ e ∈ merase k m, e.1 < B :=
  fun e he => hb e ((merase_sublist k m).subset he)

theorem merase_keys_nodup {k : Nat} {m : List (Nat × Nat)}
    (hn : (mkeys m).Nodup) : (mkeys (merase k m)).Nodup :=
  ((merase_sublist k m).map Prod.fst).nodup hn

theorem merase_lookup_self {k : Nat} {m : List (Nat × Nat)}
    (hn : (mkeys m).Nodup) : (merase k m).lookup k = none := by
  induction m with
  | nil => rfl
  | cons a tl ih =>
    obtain ⟨a1, a2⟩ := a
    simp only [mkeys, List.map_cons, List.nodup_cons] at hn
    unfold merase
    by_cases hc : a1 = k
    · simp only [hc, if_true]
      refine lookup_eq_none_of_not_mem_keys ?_
      rw [← hc]
      exact hn.1
    · have h2 : (k == a1) = false := by simp [Ne.symm hc]
      simp only [hc, if_false, List.lookup, h2]
      exact ih hn.2

theorem merase_lookup_ne {k x : Nat} (m : List (Nat × Nat)) (hx : x ≠ k) :
    (merase k m).lookup x = m.lookup x := by
  induction m with
  | nil => rfl
  | cons a tl ih =>
    obtain ⟨a1, a2⟩ := a
    unfold merase
    by_cases hc : a1 = k
    · have h2 : (x == a1) = false := by simp [hc, hx]
      have h3 : (x == k) = false := by simp [hx]
      simp [hc, List.lookup, h2, h3]
    · by_cases hxa : x = a1
      · simp [hc, List.lookup, hxa]
      · have h2 : (x == a1) = false := by simp [hxa]
        simp [hc, List.lookup, h2, ih]

/-! ### msplit commutation with minsert / merase -/

theorem msplit_nil (h : Nat) : msplit h [] = ([], []) := rfl

theorem msplit_cons (h a1 a2 : Nat) (tl : List (Nat × Nat)) :
    msplit h ((a1, a2) :: tl) =
      if a1 < 2 ^ (h - 1) then
        ((a1, a2) :: (msplit h tl).1, (msplit h tl).2)
      else ((msplit h tl).1, (a1 - 2 ^ (h - 1), a2) :: (msplit h tl).2) := by
  rcases hsp : msplit h tl with ⟨m0, m1⟩
  conv_lhs => unfold msplit
  rw [hsp]

theorem minsert_nil (k v : Nat) : minsert k v [] = [(k, v)] := rfl

theorem minsert_cons (k v a1 a2 : Nat) (tl : List (Nat × Nat)) :
    minsert k v ((a1, a2) :: tl) =
      if a1 = k then (k, v) :: tl else (a1, a2) :: minsert k v tl := rfl

theorem merase_nil (k : Nat) : merase k [] = [] := rfl

theorem merase_cons (k a1 a2 : Nat) (tl : List (Nat × Nat)) :
    merase k ((a1, a2) :: tl) =
      if a1 = k then tl else (a1, a2) :: merase k tl := rfl

theorem msplit_minsert_lt {h k v : Nat} {m : List (Nat × Nat)}
    (hk : k < 2 ^ (h - 1)) :
    msplit h (minsert k v m) =
      (minsert k v (msplit h m).1, (msplit h m).2) := by
  induction m with
  | nil => simp [minsert_nil, msplit_nil, msplit_cons, hk]
  | cons a tl ih =>
    obtain ⟨a1, a2⟩ := a
    rw [minsert_cons]
    by_cases hc : a1 = k
    · subst hc
      rw [if_pos rfl, msplit_cons, if_pos hk, msplit_cons, if_pos hk,
        minsert_cons, if_pos rfl]
    · rw [if_neg hc, msplit_cons]
      by_cases ha : a1 < 2 ^ (h - 1)
      · rw [if_pos ha, ih, msplit_cons, if_pos ha, minsert_cons, if_neg hc]
      · rw [if_neg ha, ih, msplit_cons, if_neg ha]

theorem msplit_minsert_ge {h k v : Nat} {m : List (Nat × Nat)}
    (hh : 0 < h) (hk2 : k < 2 ^ h) (hk1 : 2 ^ (h - 1) ≤ k)
    (hb : ∀ e ∈ m, e.1 < 2 ^ h) :
    msplit h (minsert k v m) =
      ((msplit h m).1, minsert (k - 2 ^ (h - 1)) v (msplit h m).2) := by
  induction m with
  | nil =>
    simp [minsert_nil, msplit_nil, msplit_cons,
      show ¬ k < 2 ^ (h - 1) by omega]
  | cons a tl ih =>
    obtain ⟨a1, a2⟩ := a
    have hb' : ∀ e ∈ tl, e.1 < 2 ^ h :=
      fun e he => hb e (List.mem_cons_of_mem _ he)
    have hba : a1 < 2 ^ h := hb _ (List.mem_cons_self _ _)
    rw [minsert_cons]
    by_cases hc : a1 = k
    · subst hc
      have hna : ¬ a1 < 2 ^ (h - 1) := by omega
      rw [if_pos rfl, msplit_cons, if_neg hna, msplit_cons, if_neg hna,
        minsert_cons, if_pos rfl]
    · rw [if_neg hc, msplit_cons]
      by_cases ha : a1 < 2 ^ (h - 1)
      · rw [if_pos ha, ih hb', msplit_cons, if_pos ha]
      · have hne : ¬ a1 - 2 ^ (h - 1) = k - 2 ^ (h - 1) := by omega
        rw [if_neg ha, ih hb', msplit_cons, if_neg ha, minsert_cons,
          if_neg hne]

theorem msplit_merase_lt {h k : Nat} {m : List (Nat × Nat)}
    (hk : k < 2 ^ (h - 1)) :
    msplit h (merase k m) =
      (merase k (msplit h m).1, (msplit h m).2) := by
  induction m with
  | nil => simp [merase_nil, msplit_nil]
  | cons a tl ih =>
    obtain ⟨a1, a2⟩ := a
    rw [merase_cons]
    by_cases hc : a1 = k
    · subst hc
      rw [if_pos rfl, msplit_cons, if_pos hk, merase_cons, if_pos rfl]
    · rw [if_neg hc, msplit_cons]
      by_cases ha : a1 < 2 ^ (h - 1)
      · rw [if_pos ha, ih, msplit_cons, if_pos ha, merase_cons, if_neg hc]
      · rw [if_neg ha, ih, msplit_cons, if_neg ha]

theorem msplit_merase_ge {h k : Nat} {m : List (Nat × Nat)}
    (hh : 0 < h) (hk1 : 2 ^ (h - 1) ≤ k)
    (hb : ∀ e ∈ m, e.1 < 2 ^ h) :
    msplit h (merase k m) =
      ((msplit h m).1, merase (k - 2 ^ (h - 1)) (msplit h m).2) := by
  induction m with
  | nil => simp [merase_nil, msplit_nil]
  | cons a tl ih =>
    obtain ⟨a1, a2⟩ := a
    have hb' : ∀ e ∈ tl, e.1 < 2 ^ h :=
      fun e he => hb e (List.mem_cons_of_mem _ he)
    have hba : a1 < 2 ^ h := hb _ (List.mem_cons_self _ _)
    rw [merase_cons]
    by_cases hc : a1 = k
    · subst hc
      have hna : ¬ a1 < 2 ^ (h - 1) := by omega
      rw [if_pos rfl, msplit_cons, if_neg hna, merase_cons, if_pos rfl]
    · rw [if_neg hc, msplit_cons]
      by_cases ha : a1 < 2 ^ (h - 1)
      · rw [if_pos ha, ih hb', msplit_cons, if_pos ha]
      · have hne : ¬ a1 - 2 ^ (h - 1) = k - 2 ^ (h - 1) := by omega
        rw [if_neg ha, ih hb', msplit_cons, if_neg ha, merase_cons,
          if_neg hne]

/-! ### mres / mopp lemmas -/

theorem mres_zero (h k : Nat) (m : List (Nat × Nat)) : mres h k m 0 = m := rfl

theorem mres_succ (h k i : Nat) (m : List (Nat × Nat)) :
    mres h k m (i + 1) =
      if k.testBit (h - 1 - i) then (msplit (h - i) (mres h k m i)).2
      else (msplit (h - i) (mres h k m i)).1 := rfl

theorem mres_bound {h k : Nat} {m : List (Nat × Nat)}
    (hb : ∀ e ∈ m, e.1 < 2 ^ h) :
    ∀ i, i ≤ h → ∀ e ∈ mres h k m i, e.1 < 2 ^ (h - i) := by
  intro i
  induction i with
  | zero => intro _ e he; simpa using hb e he
  | succ n ih =>
    intro hn e he
    have hre := ih (by omega)
    rw [mres_succ] at he
    have hh : 0 < h - n := by omega
    have hstep : h - n - 1 = h - (n + 1) := by omega
    by_cases hbit : k.testBit (h - 1 - n)
    · rw [if_pos hbit] at he
      have := msplit_snd_bound hre hh e he
      rwa [hstep] at this
    · rw [if_neg hbit] at he
      have := msplit_fst_bound e he
      rwa [hstep] at this

theorem mres_nodup {h k : Nat} {m : List (Nat × Nat)}
    (hn : (mkeys m).Nodup) :
    ∀ i, (mkeys (mres h k m i)).Nodup := by
  intro i
  induction i with
  | zero => exact hn
  | succ n ih =>
    rw [mres_succ]
    by_cases hbit : k.testBit (h - 1 - n)
    · rw [if_pos hbit]; exact msplit_snd_keys_nodup ih
    · rw [if_neg hbit]; exact msplit_fst_keys_nodup ih

theorem mres_empty_succ {h k i : Nat} {m : List (Nat × Nat)}
    (he : mres h k m i = []) : mres h k m (i + 1) = [] := by
  rw [mres_succ, he]
  by_cases hbit : k.testBit (h - 1 - i) <;> simp [hbit, msplit_nil]

theorem mres_empty_le {h k : Nat} {m : List (Nat × Nat)} {i j : Nat}
    (hij : i ≤ j) (he : mres h k m i = []) : mres h k m j = [] := by
  obtain ⟨d, rfl⟩ : ∃ d, j = i + d := ⟨j - i, by omega⟩
  induction d with
  | zero => exact he
  | succ n ih =>
    have : i + (n + 1) = (i + n) + 1 := by omega
    rw [this]
    exact mres_empty_succ (ih (by omega))

theorem mres_lookup_self {h k : Nat} {m : List (Nat × Nat)}
    (hk : k < 2 ^ h) (hb : ∀ e ∈ m, e.1 < 2 ^ h) :
    ∀ i, i ≤ h →
      (mres h k m i).lookup (k % 2 ^ (h - i)) = m.lookup k := by
  intro i
  induction i with
  | zero =>
    intro _
    rw [mres_zero]
    simp [Nat.mod_eq_of_lt hk]
  | succ n ih =>
    intro hn
    have hih := ih (by omega)
    have hre := mres_bound (k := k) hb n (by omega)
    have hh : 0 < h - n := by omega
    have hxlt : k % 2 ^ (h - n) < 2 ^ (h - n) :=
      Nat.mod_lt _ (Nat.pos_pow_of_pos _ (by norm_num))
    have hbit_eq : (k % 2 ^ (h - n)).testBit (h - n - 1) =
        k.testBit (h - n - 1) := testBit_mod_pow (by omega)
    have hidx : h - 1 - n = h - n - 1 := by omega
    have hmm : k % 2 ^ (h - n) % 2 ^ (h - n - 1) = k % 2 ^ (h - n - 1) :=
      mod_mod_pow (by omega)
    have hstep : h - (n + 1) = h - n - 1 := by omega
    rw [mres_succ, hidx]
    by_cases hbit : k.testBit (h - n - 1)
    · rw [if_pos hbit]
      have hge : 2 ^ (h - n - 1) ≤ k % 2 ^ (h - n) := by
        have hlt2 : k % 2 ^ (h - n) < 2 ^ (h - n - 1 + 1) := by
          have he : h - n - 1 + 1 = h - n := by omega
          rw [he]
          exact hxlt
        exact (testBit_true_iff_ge hlt2).mp (by rw [hbit_eq]; exact hbit)
      have := msplit_lookup_snd (x := k % 2 ^ (h - n)) hre hge
      rw [hstep]
      have hsub : k % 2 ^ (h - n) - 2 ^ (h - n - 1) = k % 2 ^ (h - n - 1) := by
        have := mod_pow_pred_of_ge hh hxlt hge
        rw [← this, hmm]
      rw [← hsub]
      rw [this, hih]
    · rw [if_neg hbit]
      have hlt : k % 2 ^ (h - n) < 2 ^ (h - n - 1) := by
        have hlt2 : k % 2 ^ (h - n) < 2 ^ (h - n - 1 + 1) := by
          have he : h - n - 1 + 1 = h - n := by omega
          rw [he]
          exact hxlt
        refine (testBit_false_iff_lt hlt2).mp ?_
        rw [hbit_eq]
        simp [hbit]
      have := msplit_lookup_fst (m := mres h k m n) hlt
      rw [hstep]
      have hsub : k % 2 ^ (h - n) = k % 2 ^ (h - n - 1) := by
        rw [← hmm, Nat.mod_eq_of_lt hlt]
      rw [← hsub, this, hih]

/-- A key is present in `m` iff its residual survives to full depth. -/
theorem mres_full_of_some {h k : Nat} {m : List (Nat × Nat)} {v : Nat}
    (hk : k < 2 ^ h) (hb : ∀ e ∈ m, e.1 < 2 ^ h)
    (hn : (mkeys m).Nodup) (hl : m.lookup k = some v) :
    mres h k m h = [(0, v)] := by
  have h1 := mres_lookup_self hk hb h (Nat.le_refl h)
  rw [Nat.sub_self] at h1
  have h2 : k % 2 ^ 0 = 0 := by rw [pow_zero]; omega
  rw [h2, hl] at h1
  have hbd := mres_bound (k := k) hb h (Nat.le_refl h)
  rw [Nat.sub_self] at hbd
  have hnd := mres_nodup (h := h) (k := k) hn h
  match hm : mres h k m h with
  | [] => rw [hm] at h1; cases h1
  | [(k0, v0)] =>
    have hmem : (k0, v0) ∈ mres h k m h := by
      rw [hm]; exact List.mem_cons_self _ _
    have hk00 : k0 = 0 := by
      have := hbd _ hmem
      simp only [pow_zero] at this
      omega
    rw [hm, hk00] at h1
    simp only [List.lookup, beq_self_eq_true] at h1
    have hv : v0 = v := by simpa using h1
    rw [hk00, hv]
  | (k0, v0) :: (k1, v1) :: rest =>
    have hb0 : k0 = 0 := by
      have := hbd (k0, v0) (by rw [hm]; exact List.mem_cons_self _ _)
      simp only [pow_zero] at this
      omega
    have hb1 : k1 = 0 := by
      have := hbd (k1, v1)
        (by rw [hm]; exact List.mem_cons_of_mem _ (List.mem_cons_self _ _))
      simp only [pow_zero] at this
      omega
    rw [hm] at hnd
    simp [mkeys, hb0, hb1] at hnd

theorem mres_full_of_none {h k : Nat} {m : List (Nat × Nat)}
    (hk : k < 2 ^ h) (hb : ∀ e ∈ m, e.1 < 2 ^ h)
    (hl : m.lookup k = none) :
    mres h k m h = [] := by
  have h1 := mres_lookup_self hk hb h (Nat.le_refl h)
  rw [Nat.sub_self] at h1
  have h2 : k % 2 ^ 0 = 0 := by rw [pow_zero]; omega
  rw [h2, hl] at h1
  have hbd := mres_bound (k := k) hb h (Nat.le_refl h)
  rw [Nat.sub_self] at hbd
  match hm : mres h k m h with
  | [] => rfl
  | (k0, v0) :: rest =>
    have hk00 : k0 = 0 := by
      have := hbd (k0, v0) (by rw [hm]; exact List.mem_cons_self _ _)
      simp only [pow_zero] at this
      omega
    rw [hm, hk00] at h1
    simp [List.lookup] at h1

/-- Inserting the traversal key only changes the residual on the key's own
side: the residual of the inserted map is the insert of the residual. -/
theorem mres_minsert {h k v : Nat} {m : List (Nat × Nat)}
    (hk : k < 2 ^ h) (hb : ∀ e ∈ m, e.1 < 2 ^ h) :
    ∀ i, i ≤ h →
      mres h k (minsert k v m) i =
        minsert (k % 2 ^ (h - i)) v (mres h k m i) := by
  intro i
  induction i with
  | zero =>
    intro _
    rw [mres_zero, mres_zero, Nat.sub_zero, Nat.mod_eq_of_lt hk]
  | succ n ih =>
    intro hn
    have hih := ih (by omega)
    have hre := mres_bound (k := k) hb n (by omega)
    have hxlt : k % 2 ^ (h - n) < 2 ^ (h - n) :=
      Nat.mod_lt _ (Nat.pos_pow_of_pos _ (by norm_num))
    have hbit_eq : (k % 2 ^ (h - n)).testBit (h - n - 1) =
        k.testBit (h - n - 1) := testBit_mod_pow (by omega)
    have hidx : h - 1 - n = h - n - 1 := by omega
    have hmm : k % 2 ^ (h - n) % 2 ^ (h - n - 1) = k % 2 ^ (h - n - 1) :=
      mod_mod_pow (by omega)
    have hstep : h - (n + 1) = h - n - 1 := by omega
    have hlt2 : k % 2 ^ (h - n) < 2 ^ (h - n - 1 + 1) := by
      have he : h - n - 1 + 1 = h - n := by omega
      rw [he]
      exact hxlt
    rw [mres_succ, mres_succ, hidx, hih]
    by_cases hbit : k.testBit (h - n - 1)
    · rw [if_pos hbit, if_pos hbit]
      have hge : 2 ^ (h - n - 1) ≤ k % 2 ^ (h - n) :=
        (testBit_true_iff_ge hlt2).mp (by rw [hbit_eq]; exact hbit)
      have hcomm := msplit_minsert_ge (h := h - n) (v := v)
        (by omega) hxlt (by rw [show h - n - 1 = h - n - 1 from rfl] at hge; exact hge) hre
      rw [hcomm]
      have hsub : k % 2 ^ (h - n) - 2 ^ (h - n - 1) = k % 2 ^ (h - n - 1) := by
        have := mod_pow_pred_of_ge (by omega) hxlt hge
        rw [← this, hmm]
      rw [hsub, hstep]
    · rw [if_neg hbit, if_neg hbit]
      have hlt : k % 2 ^ (h - n) < 2 ^ (h - n - 1) := by
        refine (testBit_false_iff_lt hlt2).mp ?_
        rw [hbit_eq]
        simp [hbit]
      have hcomm := msplit_minsert_lt (h := h - n) (v := v) (m := mres h k m n) hlt
      rw [hcomm]
      have hsub : k % 2 ^ (h - n) = k % 2 ^ (h - n - 1) := by
        rw [← hmm, Nat.mod_eq_of_lt hlt]
      rw [hstep, ← hsub]

/-- Inserting the traversal key leaves every sibling subtree unchanged. -/
theorem mopp_minsert {h k v : Nat} {m : List (Nat × Nat)}
    (hk : k < 2 ^ h) (hb : ∀ e ∈ m, e.1 < 2 ^ h) :
    ∀ i, i < h → mopp h k (minsert k v m) i = mopp h k m i := by
  intro i hi
  have hih := mres_minsert (v := v) hk hb i (by omega)
  have hre := mres_bound (k := k) hb i (by omega)
  have hxlt : k % 2 ^ (h - i) < 2 ^ (h - i) :=
    Nat.mod_lt _ (Nat.pos_pow_of_pos _ (by norm_num))
  have hbit_eq : (k % 2 ^ (h - i)).testBit (h - i - 1) =
      k.testBit (h - i - 1) := testBit_mod_pow (by omega)
  have hidx : h - 1 - i = h - i - 1 := by omega
  have hlt2 : k % 2 ^ (h - i) < 2 ^ (h - i - 1 + 1) := by
    have he : h - i - 1 + 1 = h - i := by omega
    rw [he]
    exact hxlt
  unfold mopp
  rw [hih, hidx]
  by_cases hbit : k.testBit (h - i - 1)
  · rw [if_pos hbit, if_pos hbit]
    have hge : 2 ^ (h - i - 1) ≤ k % 2 ^ (h - i) :=
      (testBit_true_iff_ge hlt2).mp (by rw [hbit_eq]; exact hbit)
    rw [msplit_minsert_ge (by omega) hxlt hge hre]
  · rw [if_neg hbit, if_neg hbit]
    have hlt : k % 2 ^ (h - i) < 2 ^ (h - i - 1) := by
      refine (testBit_false_iff_lt hlt2).mp ?_
      rw [hbit_eq]
      simp [hbit]
    rw [msplit_minsert_lt hlt]

/-- Deleting the traversal key only changes the residual on the key's own
side. -/
theorem mres_merase {h k : Nat} {m : List (Nat × Nat)}
    (hk : k < 2 ^ h) (hb : ∀ e ∈ m, e.1 < 2 ^ h) :
    ∀ i, i ≤ h →
      mres h k (merase k m) i =
        merase (k % 2 ^ (h - i)) (mres h k m i) := by
  intro i
  induction i with
  | zero =>
    intro _
    rw [mres_zero, mres_zero, Nat.sub_zero, Nat.mod_eq_of_lt hk]
  | succ n ih =>
    intro hn
    have hih := ih (by omega)
    have hre := mres_bound (k := k) hb n (by omega)
    have hxlt : k % 2 ^ (h - n) < 2 ^ (h - n) :=
      Nat.mod_lt _ (Nat.pos_pow_of_pos _ (by norm_num))
    have hbit_eq : (k % 2 ^ (h - n)).testBit (h - n - 1) =
        k.testBit (h - n - 1) := testBit_mod_pow (by omega)
    have hidx : h - 1 - n = h - n - 1 := by omega
    have hmm : k % 2 ^ (h - n) % 2 ^ (h - n - 1) = k % 2 ^ (h - n - 1) :=
      mod_mod_pow (by omega)
    have hstep : h - (n + 1) = h - n - 1 := by omega
    have hlt2 : k % 2 ^ (h - n) < 2 ^ (h - n - 1 + 1) := by
      have he : h - n - 1 + 1 = h - n := by omega
      rw [he]
      exact hxlt
    rw [mres_succ, mres_succ, hidx, hih]
    by_cases hbit : k.testBit (h - n - 1)
    · rw [if_pos hbit, if_pos hbit]
      have hge : 2 ^ (h - n - 1) ≤ k % 2 ^ (h - n) :=
        (testBit_true_iff_ge hlt2).mp (by rw [hbit_eq]; exact hbit)
      rw [msplit_merase_ge (by omega) hge hre]
      have hsub : k % 2 ^ (h - n) - 2 ^ (h - n - 1) = k % 2 ^ (h - n - 1) := by
        have := mod_pow_pred_of_ge (by omega) hxlt hge
        rw [← this, hmm]
      rw [hsub, hstep]
    · rw [if_neg hbit, if_neg hbit]
      have hlt : k % 2 ^ (h - n) < 2 ^ (h - n - 1) := by
        refine (testBit_false_iff_lt hlt2).mp ?_
        rw [hbit_eq]
        simp [hbit]
      rw [msplit_merase_lt hlt]
      have hsub : k % 2 ^ (h - n) = k % 2 ^ (h - n - 1) := by
        rw [← hmm, Nat.mod_eq_of_lt hlt]
      rw [hstep, ← hsub]

/-- Deleting the traversal key leaves every sibling subtree unchanged. -/
theorem mopp_merase {h k : Nat} {m : List (Nat × Nat)}
    (hk : k < 2 ^ h) (hb : ∀ e ∈ m, e.1 < 2 ^ h) :
    ∀ i, i < h → mopp h k (merase k m) i = mopp h k m i := by
  intro i hi
  have hih := mres_merase hk hb i (by omega)
  have hre := mres_bound (k := k) hb i (by omega)
  have hxlt : k % 2 ^ (h - i) < 2 ^ (h - i) :=
    Nat.mod_lt _ (Nat.pos_pow_of_pos _ (by norm_num))
  have hbit_eq : (k % 2 ^ (h - i)).testBit (h - i - 1) =
      k.testBit (h - i - 1) := testBit_mod_pow (by omega)
  have hidx : h - 1 - i = h - i - 1 := by omega
  have hlt2 : k % 2 ^ (h - i) < 2 ^ (h - i - 1 + 1) := by
    have he : h - i - 1 + 1 = h - i := by omega
    rw [he]
    exact hxlt
  unfold mopp
  rw [hih, hidx]
  by_cases hbit : k.testBit (h - i - 1)
  · rw [if_pos hbit, if_pos hbit]
    have hge : 2 ^ (h - i - 1) ≤ k % 2 ^ (h - i) :=
      (testBit_true_iff_ge hlt2).mp (by rw [hbit_eq]; exact hbit)
    rw [msplit_merase_ge (by omega) hge hre]
  · rw [if_neg hbit, if_neg hbit]
    have hlt : k % 2 ^ (h - i) < 2 ^ (h - i - 1) := by
      refine (testBit_false_iff_lt hlt2).mp ?_
      rw [hbit_eq]
      simp [hbit]
    rw [msplit_merase_lt hlt]

/-! ### Canonical-node lemmas -/

theorem cpv_zero (P : Nat → Nat → Nat) (m : List (Nat × Nat)) :
    cpv P 0 m = (0, 0, ((m.head?).map Prod.snd).getD 0) := rfl

theorem cpv_one0 {P : Nat → Nat → Nat} {h : Nat} {m : List (Nat × Nat)}
    (h1 : (msplit (h + 1) m).2 = []) :
    cpv P (h + 1) m =
      ((cpv P h (msplit (h + 1) m).1).1 + 1,
       (cpv P h (msplit (h + 1) m).1).2.1,
       (cpv P h (msplit (h + 1) m).1).2.2) := by
  conv_lhs => unfold cpv
  rw [if_pos (by simp [h1])]

theorem cpv_one1 {P : Nat → Nat → Nat} {h : Nat} {m : List (Nat × Nat)}
    (h1 : (msplit (h + 1) m).2 ≠ []) (h0 : (msplit (h + 1) m).1 = []) :
    cpv P (h + 1) m =
      ((cpv P h (msplit (h + 1) m).2).1 + 1,
       2 ^ (cpv P h (msplit (h + 1) m).2).1 +
         (cpv P h (msplit (h + 1) m).2).2.1,
       (cpv P h (msplit (h + 1) m).2).2.2) := by
  conv_lhs => unfold cpv
  rw [if_neg (by simp [h1]), if_pos (by simp [h0])]

theorem cpv_bin {P : Nat → Nat → Nat} {h : Nat} {m : List (Nat × Nat)}
    (h0 : (msplit (h + 1) m).1 ≠ []) (h1 : (msplit (h + 1) m).2 ≠ []) :
    cpv P (h + 1) m =
      (0, 0,
       P (canH P h (msplit (h + 1) m).1)
         (canH P h (msplit (h + 1) m).2) % stp) := by
  unfold cpv
  rw [if_neg (by simp [h1]), if_neg (by simp [h0])]
  rfl

theorem cpv_bounds (P : Nat → Nat → Nat) :
    ∀ (h : Nat) (m : List (Nat × Nat)),
      (cpv P h m).1 ≤ h ∧ (cpv P h m).2.1 < 2 ^ (cpv P h m).1 := by
  intro h
  induction h with
  | zero => intro m; simp [cpv_zero]
  | succ n ih =>
    intro m
    by_cases h1 : (msplit (n + 1) m).2 = []
    · rw [cpv_one0 h1]
      have := ih (msplit (n + 1) m).1
      constructor
      · simp only
        omega
      · simp only [pow_succ]
        have h2 : (0:Nat) < 2 ^ (cpv P n (msplit (n + 1) m).1).1 :=
          Nat.pos_pow_of_pos _ (by norm_num)
        omega
    · by_cases h0 : (msplit (n + 1) m).1 = []
      · rw [cpv_one1 h1 h0]
        have := ih (msplit (n + 1) m).2
        constructor
        · simp only
          omega
        · simp only [pow_succ]
          have h2 : (0:Nat) < 2 ^ (cpv P n (msplit (n + 1) m).2).1 :=
            Nat.pos_pow_of_pos _ (by norm_num)
          omega
      · rw [cpv_bin h0 h1]
        simp

theorem canH_def (P : Nat → Nat → Nat) (h : Nat) (m : List (Nat × Nat)) :
    canH P h m =
      if (cpv P h m).1 = 0 then (cpv P h m).2.2
      else (P (cpv P h m).2.2 (cpv P h m).2.1 + (cpv P h m).1) % stp := rfl

theorem canNode_len (P : Nat → Nat → Nat) (h : Nat) (m : List (Nat × Nat)) :
    (canNode P h m).path.len = (cpv P h m).1 := rfl

theorem canNode_val (P : Nat → Nat → Nat) (h : Nat) (m : List (Nat × Nat)) :
    (canNode P h m).path.val = (cpv P h m).2.1 := rfl

theorem canNode_bottom (P : Nat → Nat → Nat) (h : Nat) (m : List (Nat × Nat)) :
    (canNode P h m).bottom = (cpv P h m).2.2 := rfl

theorem canH_eq_nodeHash (P : Nat → Nat → Nat) (h : Nat)
    (m : List (Nat × Nat)) : canH P h m = nodeHash P (canNode P h m) := rfl

/-! ### Covers lemmas -/

theorem Covers_nil (P : Nat → Nat → Nat) (s : Store) :
    ∀ h, Covers P s h [] := by
  intro h
  cases h <;> · intro hm; exact absurd rfl hm

theorem Covers_mem {P : Nat → Nat → Nat} {s : Store} {h : Nat}
    {m : List (Nat × Nat)} (hc : Covers P s h m) (hm : m ≠ []) :
    (nodeHash P (canNode P h m), canNode P h m) ∈ s.hmap := by
  cases h with
  | zero => exact hc hm
  | succ n => exact (hc hm).1

theorem Covers_fst {P : Nat → Nat → Nat} {s : Store} {h : Nat}
    {m : List (Nat × Nat)} (hc : Covers P s (h + 1) m) :
    Covers P s h (msplit (h + 1) m).1 := by
  by_cases hm : m = []
  · subst hm
    rw [msplit_nil]
    exact Covers_nil P s h
  · have h2 := (hc hm).2
    by_cases h1 : (msplit (h + 1) m).2 = []
    · rwa [if_pos (by simp [h1])] at h2
    · by_cases h0 : (msplit (h + 1) m).1 = []
      · rw [h0]
        exact Covers_nil P s h
      · rw [if_neg (by simp [h1]), if_neg (by simp [h0])] at h2
        exact h2.2.1

theorem Covers_snd {P : Nat → Nat → Nat} {s : Store} {h : Nat}
    {m : List (Nat × Nat)} (hc : Covers P s (h + 1) m) :
    Covers P s h (msplit (h + 1) m).2 := by
  by_cases hm : m = []
  · subst hm
    rw [msplit_nil]
    exact Covers_nil P s h
  · have h2 := (hc hm).2
    by_cases h1 : (msplit (h + 1) m).2 = []
    · rw [h1]
      exact Covers_nil P s h
    · by_cases h0 : (msplit (h + 1) m).1 = []
      · rwa [if_neg (by simp [h1]), if_pos (by simp [h0])] at h2
      · rw [if_neg (by simp [h1]), if_neg (by simp [h0])] at h2
        exact h2.2.2

theorem Covers_pmem {P : Nat → Nat → Nat} {s : Store} {h : Nat}
    {m : List (Nat × Nat)} (hc : Covers P s (h + 1) m) (hm : m ≠ [])
    (h0 : (msplit (h + 1) m).1 ≠ []) (h1 : (msplit (h + 1) m).2 ≠ []) :
    ((cpv P (h + 1) m).2.2,
      (canH P h (msplit (h + 1) m).1, canH P h (msplit (h + 1) m).2))
        ∈ s.pmap := by
  have h2 := (hc hm).2
  rw [if_neg (by simp [h1]), if_neg (by simp [h0])] at h2
  exact h2.1

theorem Covers_mono {P : Nat → Nat → Nat} {s s' : Store} (hle : s.le s') :
    ∀ (h : Nat) (m : List (Nat × Nat)), Covers P s h m → Covers P s' h m := by
  intro h
  induction h with
  | zero =>
    intro m hc hm
    exact hle.1 (hc hm)
  | succ n ih =>
    intro m hc hm
    refine ⟨hle.1 (hc hm).1, ?_⟩
    have h2 := (hc hm).2
    by_cases h1 : (msplit (n + 1) m).2 = []
    · rw [if_pos (by simp [h1])] at h2 ⊢
      exact ih _ h2
    · by_cases h0 : (msplit (n + 1) m).1 = []
      · rw [if_neg (by simp [h1]), if_pos (by simp [h0])] at h2 ⊢
        exact ih _ h2
      · rw [if_neg (by simp [h1]), if_neg (by simp [h0])] at h2 ⊢
        exact ⟨hle.2 h2.1, ih _ h2.2.1, ih _ h2.2.2⟩

theorem Covers_mres {P : Nat → Nat → Nat} {s : Store} {h k : Nat}
    {m : List (Nat × Nat)} (hc : Covers P s h m) :
    ∀ i, i ≤ h → Covers P s (h - i) (mres h k m i) := by
  intro i
  induction i with
  | zero => intro _; simpa [mres_zero] using hc
  | succ n ih =>
    intro hn
    have hprev := ih (by omega)
    have hsplit : h - n = (h - (n + 1)) + 1 := by omega
    rw [hsplit] at hprev
    rw [mres_succ]
    have hidx : h - n = h - (n + 1) + 1 := by omega
    by_cases hbit : k.testBit (h - 1 - n)
    · rw [if_pos hbit, hidx]
      exact Covers_snd hprev
    · rw [if_neg hbit, hidx]
      exact Covers_fst hprev

theorem Covers_mopp {P : Nat → Nat → Nat} {s : Store} {h k : Nat}
    {m : List (Nat × Nat)} (hc : Covers P s h m) :
    ∀ i, i < h → Covers P s (h - i - 1) (mopp h k m i) := by
  intro i hi
  have hprev := Covers_mres (k := k) hc i (by omega)
  have hsplit : h - i = (h - i - 1) + 1 := by omega
  rw [hsplit] at hprev
  unfold mopp
  by_cases hbit : k.testBit (h - 1 - i)
  · rw [if_pos hbit]
    have h2 := Covers_fst hprev
    rwa [← hsplit] at h2
  · rw [if_neg hbit]
    have h2 := Covers_snd hprev
    rwa [← hsplit] at h2

/-! ### Edge structure of canonical nodes -/

theorem Path.walked_walked (a : Path) (i j : Nat) :
    (a.walked i).walked j = a.walked (i + j) := by
  obtain ⟨l, v⟩ := a
  show Path.mk (l - i - j) (v % 2 ^ (l - i) % 2 ^ (l - i - j)) =
    Path.mk (l - (i + j)) (v % 2 ^ (l - (i + j)))
  have h1 : l - i - j = l - (i + j) := by omega
  rw [h1, mod_mod_pow (by omega)]

theorem edge_walked_one (d b bot : Nat) :
    (⟨Path.mk d b, bot⟩ : TrieNode).path.walked 1 =
      Path.mk (d - 1) (b % 2 ^ (d - 1)) := rfl

/-- A canonical node with a nonempty edge sits over a one-sided split; its
leading edge bit names the occupied side, and walking one bit down yields
the canonical node of that side. -/
theorem cpv_edge_step {P : Nat → Nat → Nat} {n : Nat} {r : List (Nat × Nat)}
    (hn : 0 < n) (hr : r ≠ []) (hd : 1 ≤ (cpv P n r).1) :
    ((msplit n r).2 = [] ∧ (msplit n r).1 ≠ [] ∧
      (cpv P n r).2.1.testBit ((cpv P n r).1 - 1) = false ∧
      cpv P (n - 1) (msplit n r).1 =
        ((cpv P n r).1 - 1, (cpv P n r).2.1 % 2 ^ ((cpv P n r).1 - 1),
         (cpv P n r).2.2)) ∨
    ((msplit n r).1 = [] ∧ (msplit n r).2 ≠ [] ∧
      (cpv P n r).2.1.testBit ((cpv P n r).1 - 1) = true ∧
      cpv P (n - 1) (msplit n r).2 =
        ((cpv P n r).1 - 1, (cpv P n r).2.1 % 2 ^ ((cpv P n r).1 - 1),
         (cpv P n r).2.2)) := by
  obtain ⟨n', rfl⟩ : ∃ n', n = n' + 1 := ⟨n - 1, by omega⟩
  by_cases h1 : (msplit (n' + 1) r).2 = []
  · left
    have h0 : (msplit (n' + 1) r).1 ≠ [] := by
      rcases msplit_ne_nil (h := n' + 1) hr with hc | hc
      · exact hc
      · exact absurd h1 hc
    have hcv := cpv_one0 (P := P) h1
    have hbd := cpv_bounds P n' (msplit (n' + 1) r).1
    refine ⟨h1, h0, ?_, ?_⟩
    · rw [hcv]
      simp only [Nat.add_sub_cancel]
      refine (testBit_false_iff_lt ?_).mpr hbd.2
      exact lt_trans hbd.2 (by
        have := Nat.pos_pow_of_pos (cpv P n' (msplit (n' + 1) r).1).1 (show 0 < 2 by norm_num)
        omega)
    · rw [hcv]
      simp only [Nat.add_sub_cancel]
      rw [Nat.mod_eq_of_lt hbd.2]
  · right
    by_cases h0 : (msplit (n' + 1) r).1 = []
    · have hcv := cpv_one1 (P := P) h1 h0
      have hbd := cpv_bounds P n' (msplit (n' + 1) r).2
      refine ⟨h0, h1, ?_, ?_⟩
      · rw [hcv]
        simp only [Nat.add_sub_cancel]
        refine (testBit_true_iff_ge ?_).mpr (by omega)
        have h2 : (0:Nat) < 2 ^ (cpv P n' (msplit (n' + 1) r).2).1 :=
          Nat.pos_pow_of_pos _ (by norm_num)
        rw [pow_succ]
        omega
      · rw [hcv]
        simp only [Nat.add_sub_cancel]
        rw [Nat.add_mod_left, Nat.mod_eq_of_lt hbd.2]
    · have hcv := cpv_bin (P := P) h0 h1
      rw [hcv] at hd
      simp at hd

/-- The first bit of a nonempty canonical edge, as `Path.get 0`. -/
theorem canNode_get_zero (P : Nat → Nat → Nat) (n : Nat)
    (r : List (Nat × Nat)) :
    (canNode P n r).path.get 0 =
      (cpv P n r).2.1.testBit ((cpv P n r).1 - 1) := rfl

/-- Walking `j` matched bits of a canonical edge: the residual map stays
whole (one-sided descents), no siblings appear, and the canonical data
loses `j` leading edge bits. -/
theorem edge_walk {P : Nat → Nat → Nat} {s : Store} {h k : Nat}
    {m : List (Nat × Nat)} (hk : k < 2 ^ h) :
    ∀ (j w : Nat), w + j ≤ h →
      mres h k m w ≠ [] →
      Covers P s (h - w) (mres h k m w) →
      j ≤ (cpv P (h - w) (mres h k m w)).1 →
      j ≤ Path.longestCommonPrefix
          ⟨(cpv P (h - w) (mres h k m w)).1,
           (cpv P (h - w) (mres h k m w)).2.1⟩
          ((pathOf h k).walked w) →
      mres h k m (w + j) ≠ [] ∧
      Covers P s (h - (w + j)) (mres h k m (w + j)) ∧
      cpv P (h - (w + j)) (mres h k m (w + j)) =
        ((cpv P (h - w) (mres h k m w)).1 - j,
         (cpv P (h - w) (mres h k m w)).2.1 %
           2 ^ ((cpv P (h - w) (mres h k m w)).1 - j),
         (cpv P (h - w) (mres h k m w)).2.2) ∧
      (∀ i, w ≤ i → i < w + j → mopp h k m i = []) := by
  intro j
  induction j with
  | zero =>
    intro w hwj hne hcov _ _
    have hbd := cpv_bounds P (h - w) (mres h k m w)
    refine ⟨hne, hcov, ?_, ?_⟩
    · rw [Nat.add_zero, Nat.sub_zero, Nat.mod_eq_of_lt hbd.2]
    · intro i h1 h2
      omega
  | succ j ih =>
    intro w hwj hne hcov hdle hlcp
    rcases hdbb : cpv P (h - w) (mres h k m w) with ⟨d, bb⟩
    rcases hdbb2 : bb with ⟨b, bot⟩
    rw [hdbb2] at hdbb
    rw [hdbb] at hdle hlcp
    simp only at hdle hlcp
    have hwlt : w < h := by omega
    have hn : 0 < h - w := by omega
    have hd1 : 1 ≤ d := by omega
    have hstep := cpv_edge_step (P := P) hn hne (by rw [hdbb]; simpa using hd1)
    rw [hdbb] at hstep
    simp only at hstep
    have hklen : ((pathOf h k).walked w).len = h - w := by
      rw [Path.walked_len, pathOf_len]
    have hbitk : ((pathOf h k).walked w).get 0 = k.testBit (h - 1 - w) :=
      pathOf_walked_get hwlt hk
    have hbits : (Path.mk d b).get 0 = ((pathOf h k).walked w).get 0 := by
      by_contra hc
      have h0 := Path.lcp_zero_of_ne (a := ⟨d, b⟩) (b := (pathOf h k).walked w)
        (by simpa using (by omega : d ≠ 0)) (by rw [hklen]; omega) hc
      omega
    have hgz : (Path.mk d b).get 0 = b.testBit (d - 1) := rfl
    have hlcp_succ := Path.lcp_succ (a := ⟨d, b⟩) (b := (pathOf h k).walked w)
      (by simpa using (by omega : d ≠ 0)) (by rw [hklen]; omega) hbits
    have hwalk1 : (Path.mk d b).walked 1 = Path.mk (d - 1) (b % 2 ^ (d - 1)) :=
      rfl
    have hwalkk : ((pathOf h k).walked w).walked 1 = (pathOf h k).walked (w + 1) :=
      Path.walked_walked _ w 1
    have hsucc : h - w = (h - (w + 1)) + 1 := by omega
    rcases hstep with ⟨hs2, hs1, hbite, hcpv1⟩ | ⟨hs1, hs2, hbite, hcpv1⟩
    · -- occupied side is the 0 side; the key takes it too
      have hbitk0 : k.testBit (h - 1 - w) = false := by
        rw [← hbitk, ← hbits, hgz, hbite]
      have hres1 : mres h k m (w + 1) = (msplit (h - w) (mres h k m w)).1 := by
        rw [mres_succ, hbitk0]
        simp
      have hopp : mopp h k m w = (msplit (h - w) (mres h k m w)).2 := by
        unfold mopp
        rw [hbitk0]
        simp
      have hne1 : mres h k m (w + 1) ≠ [] := by rw [hres1]; exact hs1
      have hcov1 : Covers P s (h - (w + 1)) (mres h k m (w + 1)) := by
        rw [hres1]
        rw [hsucc] at hcov
        have hcf := Covers_fst hcov
        rwa [← hsucc] at hcf
      have hcpv1' : cpv P (h - (w + 1)) (mres h k m (w + 1)) =
          (d - 1, b % 2 ^ (d - 1), bot) := by
        rw [hres1]
        have : h - w - 1 = h - (w + 1) := by omega
        rw [← this]
        exact hcpv1
      have hlcp1 : j ≤ Path.longestCommonPrefix
          ⟨(cpv P (h - (w + 1)) (mres h k m (w + 1))).1,
           (cpv P (h - (w + 1)) (mres h k m (w + 1))).2.1⟩
          ((pathOf h k).walked (w + 1)) := by
        rw [hcpv1']
        simp only
        rw [← hwalkk, ← hwalk1]
        omega
      have hdle1 : j ≤ (cpv P (h - (w + 1)) (mres h k m (w + 1))).1 := by
        rw [hcpv1']
        simp only
        omega
      obtain ⟨r1, r2, r3, r4⟩ := ih (w + 1) (by omega) hne1 hcov1 hdle1 hlcp1
      have hadd : w + 1 + j = w + (j + 1) := by omega
      rw [hadd] at r1 r2 r3 r4
      refine ⟨r1, r2, ?_, ?_⟩
      · rw [r3, hcpv1']
        dsimp only
        rw [show d - 1 - j = d - (j + 1) by omega]
        rw [mod_mod_pow (show d - (j + 1) ≤ d - 1 by omega)]
      · intro i hi1 hi2
        by_cases hiw : i = w
        · rw [hiw, hopp]
          exact hs2
        · exact r4 i (by omega) hi2
    · -- occupied side is the 1 side
      have hbitk1 : k.testBit (h - 1 - w) = true := by
        rw [← hbitk, ← hbits, hgz, hbite]
      have hres1 : mres h k m (w + 1) = (msplit (h - w) (mres h k m w)).2 := by
        rw [mres_succ, hbitk1]
        simp
      have hopp : mopp h k m w = (msplit (h - w) (mres h k m w)).1 := by
        unfold mopp
        rw [hbitk1]
        simp
      have hne1 : mres h k m (w + 1) ≠ [] := by rw [hres1]; exact hs2
      have hcov1 : Covers P s (h - (w + 1)) (mres h k m (w + 1)) := by
        rw [hres1]
        rw [hsucc] at hcov
        have hcf := Covers_snd hcov
        rwa [← hsucc] at hcf
      have hcpv1' : cpv P (h - (w + 1)) (mres h k m (w + 1)) =
          (d - 1, b % 2 ^ (d - 1), bot) := by
        rw [hres1]
        have : h - w - 1 = h - (w + 1) := by omega
        rw [← this]
        exact hcpv1
      have hlcp1 : j ≤ Path.longestCommonPrefix
          ⟨(cpv P (h - (w + 1)) (mres h k m (w + 1))).1,
           (cpv P (h - (w + 1)) (mres h k m (w + 1))).2.1⟩
          ((pathOf h k).walked (w + 1)) := by
        rw [hcpv1']
        simp only
        rw [← hwalkk, ← hwalk1]
        omega
      have hdle1 : j ≤ (cpv P (h - (w + 1)) (mres h k m (w + 1))).1 := by
        rw [hcpv1']
        simp only
        omega
      obtain ⟨r1, r2, r3, r4⟩ := ih (w + 1) (by omega) hne1 hcov1 hdle1 hlcp1
      have hadd : w + 1 + j = w + (j + 1) := by omega
      rw [hadd] at r1 r2 r3 r4
      refine ⟨r1, r2, ?_, ?_⟩
      · rw [r3, hcpv1']
        dsimp only
        rw [show d - 1 - j = d - (j + 1) by omega]
        rw [mod_mod_pow (show d - (j + 1) ≤ d - 1 by omega)]
      · intro i hi1 hi2
        by_cases hiw : i = w
        · rw [hiw, hopp]
          exact hs1
        · exact r4 i (by omega) hi2

theorem mopp_of_mres_empty {h k i : Nat} {m : List (Nat × Nat)}
    (he : mres h k m i = []) : mopp h k m i = [] := by
  unfold mopp
  rw [he, msplit_nil]
  by_cases hbit : k.testBit (h - 1 - i) <;> simp [hbit]

/-- Phase 1 of `Put` on a canonical trie records exactly the canonical
sibling hashes along the key's path. -/
theorem putGo_spec {P : Nat → Nat → Nat} {s S : Store} {h k : Nat}
    {m : List (Nat × Nat)} (hk : k < 2 ^ h)
    (hfS : S.hfun) (hpS : S.pfun) (hnz : S.pnz) (hsub : s.le S) :
    ∀ (fuel w : Nat) (sib0 : Sib),
      w ≤ h → h - w < fuel →
      mres h k m w ≠ [] →
      Covers P s (h - w) (mres h k m w) →
      (∀ i, w ≤ i → sib0 i = none) →
      ∃ sibR, putGo P s (pathOf h k) h fuel w
          (some (canNode P (h - w) (mres h k m w))) sib0 = .ok sibR ∧
        ∀ i, i < h → sibR i = if i < w then sib0 i else sibSpec P h k m i := by
  intro fuel
  induction fuel with
  | zero =>
    intro w sib0 _ hfw _ _ _
    omega
  | succ fuel ih =>
    intro w sib0 hw hfw hne hcov hs0
    by_cases hwh : w < h
    · rcases hdbb : cpv P (h - w) (mres h k m w) with ⟨d, b, bot⟩
      have hcn : canNode P (h - w) (mres h k m w) = ⟨⟨d, b⟩, bot⟩ := by
        unfold canNode
        rw [hdbb]
      have hn1 : h - w = (h - (w + 1)) + 1 := by omega
      have hbitk : (pathOf h k).get w = k.testBit (h - 1 - w) :=
        pathOf_get_lt w hk
      by_cases hd0 : d = 0
      · -- binary node: both halves nonempty
        subst hd0
        have hns : ¬ ((msplit (h - w) (mres h k m w)).1 = [] ∧
            (msplit (h - w) (mres h k m w)).2 = []) := by
          intro ⟨ha, hb2⟩
          rcases msplit_ne_nil (h := h - w) hne with hc | hc
          · exact hc ha
          · exact hc hb2
        have h0 : (msplit (h - w) (mres h k m w)).1 ≠ [] := by
          intro hc
          have hcv := cpv_one1 (P := P) (h := h - (w + 1))
            (m := mres h k m w)
            (by
              intro hc2
              rw [← hn1] at hc2
              exact hns ⟨hc, hc2⟩)
            (by rw [← hn1]; exact hc)
          rw [← hn1, hdbb] at hcv
          simp at hcv
        have h1 : (msplit (h - w) (mres h k m w)).2 ≠ [] := by
          intro hc
          have hcv := cpv_one0 (P := P) (h := h - (w + 1))
            (m := mres h k m w) (by rw [← hn1]; exact hc)
          rw [← hn1, hdbb] at hcv
          simp at hcv
        have hcovS : Covers P s ((h - (w + 1)) + 1) (mres h k m w) := by
          rw [← hn1]
          exact hcov
        have hpmem := Covers_pmem hcovS hne
          (by rw [← hn1]; exact h0) (by rw [← hn1]; exact h1)
        rw [← hn1, hdbb] at hpmem
        simp only at hpmem
        have hbotnz : bot ≠ 0 := by
          intro hc
          exact hnz _ (hsub.2 hpmem) (by simpa using hc)
        have hretP : retrieveByP s bot =
            .ok (canH P (h - (w + 1)) (msplit (h - w) (mres h k m w)).1,
                 canH P (h - (w + 1)) (msplit (h - w) (mres h k m w)).2) := by
          exact retrieveByP_of_mem hsub.2 hpS hpmem
        have hcov0 : Covers P s (h - (w + 1)) (msplit (h - w) (mres h k m w)).1 := by
          have := Covers_fst hcovS
          rwa [← hn1] at this
        have hcov1 : Covers P s (h - (w + 1)) (msplit (h - w) (mres h k m w)).2 := by
          have := Covers_snd hcovS
          rwa [← hn1] at this
        have hretH0 : retrieveByH s
            (canH P (h - (w + 1)) (msplit (h - w) (mres h k m w)).1) =
            .ok (canNode P (h - (w + 1)) (msplit (h - w) (mres h k m w)).1) := by
          rw [canH_eq_nodeHash]
          exact retrieveByH_of_mem hsub.1 hfS (Covers_mem hcov0 h0)
        have hretH1 : retrieveByH s
            (canH P (h - (w + 1)) (msplit (h - w) (mres h k m w)).2) =
            .ok (canNode P (h - (w + 1)) (msplit (h - w) (mres h k m w)).2) := by
          rw [canH_eq_nodeHash]
          exact retrieveByH_of_mem hsub.1 hfS (Covers_mem hcov1 h1)
        by_cases hbit : k.testBit (h - 1 - w)
        · -- key goes right (side 1); sibling is side 0
          have hres1 : mres h k m (w + 1) = (msplit (h - w) (mres h k m w)).2 := by
            rw [mres_succ, if_pos hbit]
          have hopp : mopp h k m w = (msplit (h - w) (mres h k m w)).1 := by
            unfold mopp
            rw [if_pos hbit]
          have hgetk : (pathOf h k).get w = true := by rw [hbitk]; exact hbit
          have heq : putGo P s (pathOf h k) h (fuel + 1) w
              (some ⟨⟨0, b⟩, bot⟩) sib0 =
              putGo P s (pathOf h k) h fuel (w + 1)
                (some (canNode P (h - (w + 1)) (mres h k m (w + 1))))
                (sib0.update w
                  (canH P (h - (w + 1)) (msplit (h - w) (mres h k m w)).1)) := by
            simp only [putGo]
            rw [if_pos hwh]
            try dsimp only
            try rw [if_pos rfl]
            rw [if_neg hbotnz, hretP]
            try dsimp only
            try rw [if_pos hgetk, if_pos hgetk]
            rw [hretH1]
            try dsimp only
            try rw [hres1]
            try rw [if_pos trivial]
          rw [hcn, heq]
          have hsib' : ∀ i, w + 1 ≤ i →
              (sib0.update w
                (canH P (h - (w + 1)) (msplit (h - w) (mres h k m w)).1)) i
                = none := by
            intro i hi
            unfold Sib.update
            rw [if_neg (by omega)]
            exact hs0 i (by omega)
          obtain ⟨sibR, heq2, hprops⟩ := ih (w + 1)
            (sib0.update w
              (canH P (h - (w + 1)) (msplit (h - w) (mres h k m w)).1))
            (by omega) (by omega) (by rw [hres1]; exact h1)
            (by rw [hres1]; exact hcov1) hsib'
          refine ⟨sibR, heq2, ?_⟩
          intro i hih2
          rw [hprops i hih2]
          by_cases hiw : i < w
          · rw [if_pos (by omega), if_pos hiw]
            unfold Sib.update
            rw [if_neg (by omega)]
          · by_cases hieq : i = w
            · subst hieq
              rw [if_pos (by omega), if_neg (by omega)]
              unfold Sib.update
              rw [if_pos rfl]
              unfold sibSpec
              rw [if_neg (by omega), hopp, if_neg (by simp [h0]),
                show h - i - 1 = h - (i + 1) by omega]
            · rw [if_neg (by omega), if_neg (by omega)]
        · -- key goes left (side 0); sibling is side 1
          have hres1 : mres h k m (w + 1) = (msplit (h - w) (mres h k m w)).1 := by
            rw [mres_succ, if_neg hbit]
          have hopp : mopp h k m w = (msplit (h - w) (mres h k m w)).2 := by
            unfold mopp
            rw [if_neg hbit]
          have hgetk : ¬ ((pathOf h k).get w = true) := by
            rw [hbitk]
            simp [hbit]
          have heq : putGo P s (pathOf h k) h (fuel + 1) w
              (some ⟨⟨0, b⟩, bot⟩) sib0 =
              putGo P s (pathOf h k) h fuel (w + 1)
                (some (canNode P (h - (w + 1)) (mres h k m (w + 1))))
                (sib0.update w
                  (canH P (h - (w + 1)) (msplit (h - w) (mres h k m w)).2)) := by
            simp only [putGo]
            rw [if_pos hwh]
            try dsimp only
            try rw [if_pos rfl]
            rw [if_neg hbotnz, hretP]
            try dsimp only
            try rw [if_neg hgetk, if_neg hgetk]
            rw [hretH0]
            try dsimp only
            try rw [hres1]
            try rw [if_pos trivial]
          rw [hcn, heq]
          have hsib' : ∀ i, w + 1 ≤ i →
              (sib0.update w
                (canH P (h - (w + 1)) (msplit (h - w) (mres h k m w)).2)) i
                = none := by
            intro i hi
            unfold Sib.update
            rw [if_neg (by omega)]
            exact hs0 i (by omega)
          obtain ⟨sibR, heq2, hprops⟩ := ih (w + 1)
            (sib0.update w
              (canH P (h - (w + 1)) (msplit (h - w) (mres h k m w)).2))
            (by omega) (by omega) (by rw [hres1]; exact h0)
            (by rw [hres1]; exact hcov0) hsib'
          refine ⟨sibR, heq2, ?_⟩
          intro i hih2
          rw [hprops i hih2]
          by_cases hiw : i < w
          · rw [if_pos (by omega), if_pos hiw]
            unfold Sib.update
            rw [if_neg (by omega)]
          · by_cases hieq : i = w
            · subst hieq
              rw [if_pos (by omega), if_neg (by omega)]
              unfold Sib.update
              rw [if_pos rfl]
              unfold sibSpec
              rw [if_neg (by omega), hopp, if_neg (by simp [h1]),
                show h - i - 1 = h - (i + 1) by omega]
            · rw [if_neg (by omega), if_neg (by omega)]
      · -- edge node
        have hd1 : 1 ≤ d := by omega
        have hklen : ((pathOf h k).walked w).len = h - w := by
          rw [Path.walked_len, pathOf_len]
        by_cases hL : Path.longestCommonPrefix ⟨d, b⟩ ((pathOf h k).walked w) = 0
        · -- divergence at the edge head
          have hbits : (Path.mk d b).get 0 ≠ ((pathOf h k).walked w).get 0 := by
            intro hc
            have := Path.lcp_succ (a := ⟨d, b⟩) (b := (pathOf h k).walked w)
              (by simpa using hd0) (by rw [hklen]; omega) hc
            omega
          have hstep := cpv_edge_step (P := P) (n := h - w)
            (r := mres h k m w) (by omega) hne (by rw [hdbb]; simpa using hd1)
          rw [hdbb] at hstep
          simp only at hstep
          have hgz : (Path.mk d b).get 0 = b.testBit (d - 1) := rfl
          have hbk : ((pathOf h k).walked w).get 0 = k.testBit (h - 1 - w) :=
            pathOf_walked_get hwh hk
          -- the key bit is the complement of the edge bit
          rcases hstep with ⟨hs2, hs1, hbite, hcpv1⟩ | ⟨hs1, hs2, hbite, hcpv1⟩
          · -- occupied side is 0; key bit must be 1
            have hbitk1 : k.testBit (h - 1 - w) = true := by
              rcases Bool.eq_false_or_eq_true (k.testBit (h - 1 - w)) with hb1 | hb1
              · exact hb1
              · exact absurd (by rw [hgz, hbite, hbk, hb1]) hbits
            have hres1 : mres h k m (w + 1) = [] := by
              rw [mres_succ, if_pos hbitk1, hs2]
            have hopp : mopp h k m w = (msplit (h - w) (mres h k m w)).1 := by
              unfold mopp
              rw [if_pos hbitk1]
            have hcann : canNode P (h - w - 1) (mopp h k m w) =
                ⟨⟨d - 1, b % 2 ^ (d - 1)⟩, bot⟩ := by
              unfold canNode
              rw [hopp, hcpv1]
            have heq : putGo P s (pathOf h k) h (fuel + 1) w
                (some ⟨⟨d, b⟩, bot⟩) sib0 =
                .ok (sib0.update w
                  (nodeHash P ⟨(⟨⟨d, b⟩, bot⟩ : TrieNode).path.walked 1, bot⟩)) := by
              simp only [putGo]
              rw [if_pos hwh]
              try dsimp only
              try rw [if_neg hd0]
              rw [if_pos hL]
            rw [hcn, heq]
            refine ⟨_, rfl, ?_⟩
            intro i hih2
            by_cases hiw : i < w
            · rw [if_pos hiw]
              unfold Sib.update
              rw [if_neg (by omega)]
            · rw [if_neg hiw]
              by_cases hieq : i = w
              · subst hieq
                unfold Sib.update
                rw [if_pos rfl]
                unfold sibSpec
                rw [if_neg (by omega), if_neg (by simp [hopp ▸ hs1])]
                rw [edge_walked_one]
                rw [show h - i - 1 = h - i - 1 from rfl]
                rw [canH_eq_nodeHash, hcann]
              · unfold Sib.update
                rw [if_neg (by omega), hs0 i (by omega)]
                unfold sibSpec
                rw [if_neg (by omega)]
                have hie : mres h k m i = [] :=
                  mres_empty_le (by omega) hres1
                rw [if_pos (by simp [mopp_of_mres_empty hie])]
          · -- occupied side is 1; key bit must be 0
            have hbitk1 : k.testBit (h - 1 - w) = false := by
              rcases Bool.eq_false_or_eq_true (k.testBit (h - 1 - w)) with hb1 | hb1
              · exact absurd (by rw [hgz, hbite, hbk, hb1]) hbits
              · exact hb1
            have hres1 : mres h k m (w + 1) = [] := by
              rw [mres_succ, if_neg (by simp [hbitk1]), hs1]
            have hopp : mopp h k m w = (msplit (h - w) (mres h k m w)).2 := by
              unfold mopp
              rw [if_neg (by simp [hbitk1])]
            have hcann : canNode P (h - w - 1) (mopp h k m w) =
                ⟨⟨d - 1, b % 2 ^ (d - 1)⟩, bot⟩ := by
              unfold canNode
              rw [hopp, hcpv1]
            have heq : putGo P s (pathOf h k) h (fuel + 1) w
                (some ⟨⟨d, b⟩, bot⟩) sib0 =
                .ok (sib0.update w
                  (nodeHash P ⟨(⟨⟨d, b⟩, bot⟩ : TrieNode).path.walked 1, bot⟩)) := by
              simp only [putGo]
              rw [if_pos hwh]
              try dsimp only
              try rw [if_neg hd0]
              rw [if_pos hL]
            rw [hcn, heq]
            refine ⟨_, rfl, ?_⟩
            intro i hih2
            by_cases hiw : i < w
            · rw [if_pos hiw]
              unfold Sib.update
              rw [if_neg (by omega)]
            · rw [if_neg hiw]
              by_cases hieq : i = w
              · subst hieq
                unfold Sib.update
                rw [if_pos rfl]
                unfold sibSpec
                rw [if_neg (by omega), if_neg (by simp [hopp ▸ hs2])]
                rw [edge_walked_one]
                rw [canH_eq_nodeHash, hcann]
              · unfold Sib.update
                rw [if_neg (by omega), hs0 i (by omega)]
                unfold sibSpec
                rw [if_neg (by omega)]
                have hie : mres h k m i = [] :=
                  mres_empty_le (by omega) hres1
                rw [if_pos (by simp [mopp_of_mres_empty hie])]
        · -- the edge matches for L ≥ 1 bits; jump down the edge
          have hL1 : 1 ≤ Path.longestCommonPrefix ⟨d, b⟩ ((pathOf h k).walked w) := by
            omega
          have hLd : Path.longestCommonPrefix ⟨d, b⟩ ((pathOf h k).walked w) ≤ d :=
            Path.lcp_le_left _ _
          have hLk : Path.longestCommonPrefix ⟨d, b⟩ ((pathOf h k).walked w) ≤ h - w := by
            have := Path.lcp_le_right (⟨d, b⟩ : Path) ((pathOf h k).walked w)
            rwa [hklen] at this
          have h4 : Path.longestCommonPrefix ⟨d, b⟩ ((pathOf h k).walked w) ≤
              (cpv P (h - w) (mres h k m w)).1 := by
            rw [hdbb]
            exact hLd
          have h5 : Path.longestCommonPrefix ⟨d, b⟩ ((pathOf h k).walked w) ≤
              Path.longestCommonPrefix
                ⟨(cpv P (h - w) (mres h k m w)).1,
                 (cpv P (h - w) (mres h k m w)).2.1⟩
                ((pathOf h k).walked w) := by
            rw [hdbb]
          obtain ⟨r1, r2, r3, r4⟩ := edge_walk (s := s) (m := m) hk
            (Path.longestCommonPrefix ⟨d, b⟩ ((pathOf h k).walked w)) w
            (by omega) hne hcov h4 h5
          have hcann : canNode P
              (h - (w + Path.longestCommonPrefix ⟨d, b⟩ ((pathOf h k).walked w)))
              (mres h k m (w + Path.longestCommonPrefix ⟨d, b⟩ ((pathOf h k).walked w))) =
              ⟨⟨d - Path.longestCommonPrefix ⟨d, b⟩ ((pathOf h k).walked w),
                b % 2 ^ (d - Path.longestCommonPrefix ⟨d, b⟩ ((pathOf h k).walked w))⟩,
               bot⟩ := by
            unfold canNode
            rw [r3, hdbb]
          have heq : putGo P s (pathOf h k) h (fuel + 1) w
              (some ⟨⟨d, b⟩, bot⟩) sib0 =
              putGo P s (pathOf h k) h fuel
                (w + Path.longestCommonPrefix ⟨d, b⟩ ((pathOf h k).walked w))
                (some (canNode P
                  (h - (w + Path.longestCommonPrefix ⟨d, b⟩ ((pathOf h k).walked w)))
                  (mres h k m
                    (w + Path.longestCommonPrefix ⟨d, b⟩ ((pathOf h k).walked w)))))
                sib0 := by
            simp only [putGo]
            rw [if_pos hwh]
            try dsimp only
            try rw [if_neg hd0]
            rw [if_neg hL, hcann]
            try rfl
          rw [hcn, heq]
          obtain ⟨sibR, heq2, hprops⟩ := ih
            (w + Path.longestCommonPrefix ⟨d, b⟩ ((pathOf h k).walked w)) sib0
            (by omega) (by omega) r1 r2 (fun i hi => hs0 i (by omega))
          refine ⟨sibR, heq2, ?_⟩
          intro i hih2
          rw [hprops i hih2]
          by_cases hiw : i < w
          · rw [if_pos (by omega), if_pos hiw]
          · rw [if_neg hiw]
            by_cases hiL : i < w + Path.longestCommonPrefix ⟨d, b⟩ ((pathOf h k).walked w)
            · rw [if_pos hiL, hs0 i (by omega)]
              unfold sibSpec
              rw [if_neg (by omega), if_pos (by simp [r4 i (by omega) hiL])]
            · rw [if_neg hiL]
    · -- walked = height: the loop exits immediately
      have hwe : w = h := by omega
      refine ⟨sib0, ?_, ?_⟩
      · simp only [putGo]
        rw [if_neg hwh]
      · intro i hih2
        rw [if_pos (by omega)]

theorem lor_two_pow_of_lt {b d : Nat} (hb : b < 2 ^ d) :
    b ||| 2 ^ d = 2 ^ d + b := by
  apply Nat.eq_of_testBit_eq
  intro i
  rw [Nat.testBit_lor]
  by_cases hi : i = d
  · subst hi
    rw [Nat.testBit_two_pow_add_eq, Nat.testBit_lt_two_pow hb,
      Nat.testBit_two_pow_self]
    rfl
  · rcases Nat.lt_or_ge i d with hlt | hge
    · rw [Nat.testBit_two_pow_add_gt hlt,
        Nat.testBit_two_pow_of_ne (fun he => hi he.symm)]
      simp
    · have hdi : 2 ^ d ≤ 2 ^ i := Nat.pow_le_pow_right (by norm_num) hge
      have h1 : 2 ^ d + b < 2 ^ i := by
        have h2 : 2 ^ d + b < 2 ^ (d + 1) := by
          rw [pow_succ]
          omega
        exact lt_of_lt_of_le h2
          (Nat.pow_le_pow_right (by norm_num) (by omega))
      rw [Nat.testBit_lt_two_pow h1, Nat.testBit_lt_two_pow (by omega),
        Nat.testBit_two_pow_of_ne (fun he => hi he.symm)]
      rfl

/-- Phase 2 of `Put` rebuilds the canonical trie of the map from the node
at depth `j` and the recorded sibling hashes, persisting every rebuilt
node; it returns the canonical top node, and the grown store covers the
whole canonical trie. -/
theorem buildLoop_spec {P : Nat → Nat → Nat} {h k : Nat}
    {m : List (Nat × Nat)} (hk : k < 2 ^ h) :
    ∀ (j : Nat) (s : Store) (sib : Sib), j ≤ h →
      mres h k m j ≠ [] →
      Covers P s (h - j) (mres h k m j) →
      (∀ i, i < j → sib i = sibSpec P h k m i) →
      (∀ i, i < j → mopp h k m i ≠ [] →
        Covers P s (h - i - 1) (mopp h k m i)) →
      ∃ s', buildLoop P (pathOf h k) sib j
          (canNode P (h - j) (mres h k m j)) s = (canNode P h m, s') ∧
        s.le s' ∧ Covers P s' h m := by
  intro j
  induction j with
  | zero =>
    intro s sib _ _ hcov _ _
    exact ⟨s, rfl, Store.le_refl s, hcov⟩
  | succ j ih =>
    intro s sib hj hne hcov hsib hmop
    have hjh : j < h := by omega
    have hn1 : h - j = (h - (j + 1)) + 1 := by omega
    have hβ : (pathOf h k).get j = k.testBit (h - 1 - j) :=
      pathOf_get_lt j hk
    have hrj : mres h k m j ≠ [] := fun hc => hne (mres_empty_succ hc)
    by_cases hopp : mopp h k m j = []
    · -- no recorded sibling: extend the edge by one bit
      have hsj : sib j = none := by
        rw [hsib j (by omega)]
        unfold sibSpec
        rw [if_neg (by omega), if_pos (by simp [hopp])]
      rcases hdbb : cpv P (h - (j + 1)) (mres h k m (j + 1)) with ⟨d0, b0, bot0⟩
      have hcn' : canNode P (h - (j + 1)) (mres h k m (j + 1)) =
          ⟨⟨d0, b0⟩, bot0⟩ := by
        unfold canNode
        rw [hdbb]
      have hb0 : b0 < 2 ^ d0 := by
        have hcb := (cpv_bounds P (h - (j + 1)) (mres h k m (j + 1))).2
        rw [hdbb] at hcb
        exact hcb
      have hb0' : b0 < 2 ^ (d0 + 1) :=
        lt_of_lt_of_le hb0 (Nat.pow_le_pow_right (by norm_num) (by omega))
      have hnp : NewPath (d0 + 1) b0 = ⟨d0 + 1, b0⟩ := by
        unfold NewPath
        rw [Nat.mod_eq_of_lt hb0']
      by_cases hbit : k.testBit (h - 1 - j)
      · -- the key's side is 1: the 0-side is empty, prefix bit is set
        have hr' : mres h k m (j + 1) = (msplit (h - j) (mres h k m j)).2 := by
          rw [mres_succ, if_pos hbit]
        have hs1e : (msplit (h - j) (mres h k m j)).1 = [] := by
          have ho := hopp
          unfold mopp at ho
          rwa [if_pos hbit] at ho
        have hs1e' : (msplit ((h - (j + 1)) + 1) (mres h k m j)).1 = [] := by
          rw [← hn1]
          exact hs1e
        have hr'' : mres h k m (j + 1) =
            (msplit ((h - (j + 1)) + 1) (mres h k m j)).2 := by
          rw [← hn1]
          exact hr'
        have hs2ne : (msplit ((h - (j + 1)) + 1) (mres h k m j)).2 ≠ [] := by
          rw [← hr'']
          exact hne
        have hcpvj : cpv P (h - j) (mres h k m j) =
            (d0 + 1, 2 ^ d0 + b0, bot0) := by
          rw [hn1, cpv_one1 hs2ne hs1e', ← hr'', hdbb]
        have hcnj : canNode P (h - j) (mres h k m j) =
            ⟨⟨d0 + 1, 2 ^ d0 + b0⟩, bot0⟩ := by
          unfold canNode
          rw [hcpvj]
        have hset : (NewPath (d0 + 1) b0).set 0 = ⟨d0 + 1, 2 ^ d0 + b0⟩ := by
          rw [hnp]
          unfold Path.set
          dsimp only
          rw [show d0 + 1 - 1 - 0 = d0 by omega, lor_two_pow_of_lt hb0]
        have heq : buildLoop P (pathOf h k) sib (j + 1)
            (⟨⟨d0, b0⟩, bot0⟩ : TrieNode) s =
            buildLoop P (pathOf h k) sib j
              (⟨⟨d0 + 1, 2 ^ d0 + b0⟩, bot0⟩ : TrieNode)
              (storeByH s
                (nodeHash P (⟨⟨d0 + 1, 2 ^ d0 + b0⟩, bot0⟩ : TrieNode))
                (⟨⟨d0 + 1, 2 ^ d0 + b0⟩, bot0⟩ : TrieNode)) := by
          simp only [buildLoop, computeH]
          rw [hsj]
          try dsimp only
          rw [hβ, hbit]
          try rw [if_pos rfl]
          try dsimp only
          rw [hset]
        have hle1 : s.le (storeByH s
            (nodeHash P (⟨⟨d0 + 1, 2 ^ d0 + b0⟩, bot0⟩ : TrieNode))
            (⟨⟨d0 + 1, 2 ^ d0 + b0⟩, bot0⟩ : TrieNode)) :=
          storeByH_le _ _ _
        have hcnj2 : canNode P ((h - (j + 1)) + 1) (mres h k m j) =
            ⟨⟨d0 + 1, 2 ^ d0 + b0⟩, bot0⟩ := by
          rw [← hn1]
          exact hcnj
        have hcovj : Covers P (storeByH s
            (nodeHash P (⟨⟨d0 + 1, 2 ^ d0 + b0⟩, bot0⟩ : TrieNode))
            (⟨⟨d0 + 1, 2 ^ d0 + b0⟩, bot0⟩ : TrieNode))
            ((h - (j + 1)) + 1) (mres h k m j) := by
          intro hne2
          refine ⟨?_, ?_⟩
          · rw [hcnj2]
            exact List.mem_cons_self _ _
          · rw [if_neg (by simp [hs2ne]), if_pos (by simp [hs1e'])]
            rw [← hr'']
            exact Covers_mono hle1 _ _ hcov
        have hcovj' : Covers P (storeByH s
            (nodeHash P (⟨⟨d0 + 1, 2 ^ d0 + b0⟩, bot0⟩ : TrieNode))
            (⟨⟨d0 + 1, 2 ^ d0 + b0⟩, bot0⟩ : TrieNode)) (h - j)
            (mres h k m j) := by
          have h9 := hcovj
          rwa [← hn1] at h9
        obtain ⟨s', he2, hle2, hcend⟩ := ih
          (storeByH s
            (nodeHash P (⟨⟨d0 + 1, 2 ^ d0 + b0⟩, bot0⟩ : TrieNode))
            (⟨⟨d0 + 1, 2 ^ d0 + b0⟩, bot0⟩ : TrieNode)) sib
          (by omega) hrj hcovj'
          (fun i hi => hsib i (by omega))
          (fun i hi hne3 => Covers_mono hle1 _ _ (hmop i (by omega) hne3))
        rw [hcnj] at he2
        refine ⟨s', ?_, Store.le_trans hle1 hle2, hcend⟩
        rw [hcn', heq]
        exact he2
      · -- the key's side is 0: the 1-side is empty, prefix bit is clear
        have hr' : mres h k m (j + 1) = (msplit (h - j) (mres h k m j)).1 := by
          rw [mres_succ, if_neg hbit]
        have hs2e : (msplit (h - j) (mres h k m j)).2 = [] := by
          have ho := hopp
          unfold mopp at ho
          rwa [if_neg hbit] at ho
        have hs2e' : (msplit ((h - (j + 1)) + 1) (mres h k m j)).2 = [] := by
          rw [← hn1]
          exact hs2e
        have hr'' : mres h k m (j + 1) =
            (msplit ((h - (j + 1)) + 1) (mres h k m j)).1 := by
          rw [← hn1]
          exact hr'
        have hcpvj : cpv P (h - j) (mres h k m j) = (d0 + 1, b0, bot0) := by
          rw [hn1, cpv_one0 hs2e', ← hr'', hdbb]
        have hcnj : canNode P (h - j) (mres h k m j) =
            ⟨⟨d0 + 1, b0⟩, bot0⟩ := by
          unfold canNode
          rw [hcpvj]
        have heq : buildLoop P (pathOf h k) sib (j + 1)
            (⟨⟨d0, b0⟩, bot0⟩ : TrieNode) s =
            buildLoop P (pathOf h k) sib j
              (⟨⟨d0 + 1, b0⟩, bot0⟩ : TrieNode)
              (storeByH s
                (nodeHash P (⟨⟨d0 + 1, b0⟩, bot0⟩ : TrieNode))
                (⟨⟨d0 + 1, b0⟩, bot0⟩ : TrieNode)) := by
          simp only [buildLoop, computeH]
          rw [hsj]
          try dsimp only
          rw [hβ]
          rw [if_neg hbit]
          try dsimp only
          rw [hnp]
        have hle1 : s.le (storeByH s
            (nodeHash P (⟨⟨d0 + 1, b0⟩, bot0⟩ : TrieNode))
            (⟨⟨d0 + 1, b0⟩, bot0⟩ : TrieNode)) :=
          storeByH_le _ _ _
        have hcnj2 : canNode P ((h - (j + 1)) + 1) (mres h k m j) =
            ⟨⟨d0 + 1, b0⟩, bot0⟩ := by
          rw [← hn1]
          exact hcnj
        have hcovj : Covers P (storeByH s
            (nodeHash P (⟨⟨d0 + 1, b0⟩, bot0⟩ : TrieNode))
            (⟨⟨d0 + 1, b0⟩, bot0⟩ : TrieNode))
            ((h - (j + 1)) + 1) (mres h k m j) := by
          intro hne2
          refine ⟨?_, ?_⟩
          · rw [hcnj2]
            exact List.mem_cons_self _ _
          · rw [if_pos (by simp [hs2e'])]
            rw [← hr'']
            exact Covers_mono hle1 _ _ hcov
        have hcovj' : Covers P (storeByH s
            (nodeHash P (⟨⟨d0 + 1, b0⟩, bot0⟩ : TrieNode))
            (⟨⟨d0 + 1, b0⟩, bot0⟩ : TrieNode)) (h - j) (mres h k m j) := by
          have h9 := hcovj
          rwa [← hn1] at h9
        obtain ⟨s', he2, hle2, hcend⟩ := ih
          (storeByH s
            (nodeHash P (⟨⟨d0 + 1, b0⟩, bot0⟩ : TrieNode))
            (⟨⟨d0 + 1, b0⟩, bot0⟩ : TrieNode)) sib
          (by omega) hrj hcovj'
          (fun i hi => hsib i (by omega))
          (fun i hi hne3 => Covers_mono hle1 _ _ (hmop i (by omega) hne3))
        rw [hcnj] at he2
        refine ⟨s', ?_, Store.le_trans hle1 hle2, hcend⟩
        rw [hcn', heq]
        exact he2
    · -- recorded sibling: combine as a binary node
      have hsj : sib j = some (canH P (h - j - 1) (mopp h k m j)) := by
        rw [hsib j (by omega)]
        unfold sibSpec
        rw [if_neg (by omega), if_neg (by simp [hopp])]
      by_cases hbit : k.testBit (h - 1 - j)
      · -- key side 1: the sibling is the 0-half
        have hr' : mres h k m (j + 1) = (msplit (h - j) (mres h k m j)).2 := by
          rw [mres_succ, if_pos hbit]
        have ho' : mopp h k m j = (msplit (h - j) (mres h k m j)).1 := by
          unfold mopp
          rw [if_pos hbit]
        have hr'' : mres h k m (j + 1) =
            (msplit ((h - (j + 1)) + 1) (mres h k m j)).2 := by
          rw [← hn1]
          exact hr'
        have ho'' : mopp h k m j =
            (msplit ((h - (j + 1)) + 1) (mres h k m j)).1 := by
          rw [← hn1]
          exact ho'
        have hs1ne : (msplit ((h - (j + 1)) + 1) (mres h k m j)).1 ≠ [] := by
          rw [← ho'']
          exact hopp
        have hs2ne : (msplit ((h - (j + 1)) + 1) (mres h k m j)).2 ≠ [] := by
          rw [← hr'']
          exact hne
        have hLeq : canH P (h - j - 1) (mopp h k m j) =
            canH P (h - (j + 1))
              (msplit ((h - (j + 1)) + 1) (mres h k m j)).1 := by
          rw [ho'', show h - j - 1 = h - (j + 1) by omega]
        have hReq : nodeHash P (canNode P (h - (j + 1)) (mres h k m (j + 1))) =
            canH P (h - (j + 1))
              (msplit ((h - (j + 1)) + 1) (mres h k m j)).2 := by
          rw [canH_eq_nodeHash, hr'']
        have hbinj : cpv P (h - j) (mres h k m j) =
            (0, 0,
             P (canH P (h - (j + 1))
                 (msplit ((h - (j + 1)) + 1) (mres h k m j)).1)
               (canH P (h - (j + 1))
                 (msplit ((h - (j + 1)) + 1) (mres h k m j)).2) % stp) := by
          rw [hn1, cpv_bin hs1ne hs2ne]
        have hbinj2 : cpv P ((h - (j + 1)) + 1) (mres h k m j) =
            (0, 0,
             P (canH P (h - (j + 1))
                 (msplit ((h - (j + 1)) + 1) (mres h k m j)).1)
               (canH P (h - (j + 1))
                 (msplit ((h - (j + 1)) + 1) (mres h k m j)).2) % stp) := by
          conv_lhs => rw [← hn1]
          exact hbinj
        have hcnj : canNode P (h - j) (mres h k m j) =
            ⟨EmptyPath,
             P (canH P (h - (j + 1))
                 (msplit ((h - (j + 1)) + 1) (mres h k m j)).1)
               (canH P (h - (j + 1))
                 (msplit ((h - (j + 1)) + 1) (mres h k m j)).2) % stp⟩ := by
          unfold canNode
          rw [hbinj]
          rfl
        have heq : buildLoop P (pathOf h k) sib (j + 1)
            (canNode P (h - (j + 1)) (mres h k m (j + 1))) s =
            buildLoop P (pathOf h k) sib j
              (⟨EmptyPath,
                P (canH P (h - j - 1) (mopp h k m j))
                  (nodeHash P (canNode P (h - (j + 1))
                    (mres h k m (j + 1)))) % stp⟩ : TrieNode)
              (storeByH
                (storeByP s
                  (P (canH P (h - j - 1) (mopp h k m j))
                    (nodeHash P (canNode P (h - (j + 1))
                      (mres h k m (j + 1)))) % stp)
                  (canH P (h - j - 1) (mopp h k m j))
                  (nodeHash P (canNode P (h - (j + 1)) (mres h k m (j + 1)))))
                (nodeHash P (⟨EmptyPath,
                  P (canH P (h - j - 1) (mopp h k m j))
                    (nodeHash P (canNode P (h - (j + 1))
                      (mres h k m (j + 1)))) % stp⟩ : TrieNode))
                (⟨EmptyPath,
                  P (canH P (h - j - 1) (mopp h k m j))
                    (nodeHash P (canNode P (h - (j + 1))
                      (mres h k m (j + 1)))) % stp⟩ : TrieNode)) := by
          simp only [buildLoop, computeP, computeH]
          rw [hsj]
          try dsimp only
          rw [hβ, hbit]
          try rw [if_pos rfl]
          try dsimp only
        have hle1 : s.le (storeByH
            (storeByP s
              (P (canH P (h - j - 1) (mopp h k m j))
                (nodeHash P (canNode P (h - (j + 1))
                  (mres h k m (j + 1)))) % stp)
              (canH P (h - j - 1) (mopp h k m j))
              (nodeHash P (canNode P (h - (j + 1)) (mres h k m (j + 1)))))
            (nodeHash P (⟨EmptyPath,
              P (canH P (h - j - 1) (mopp h k m j))
                (nodeHash P (canNode P (h - (j + 1))
                  (mres h k m (j + 1)))) % stp⟩ : TrieNode))
            (⟨EmptyPath,
              P (canH P (h - j - 1) (mopp h k m j))
                (nodeHash P (canNode P (h - (j + 1))
                  (mres h k m (j + 1)))) % stp⟩ : TrieNode)) :=
          Store.le_trans (storeByP_le _ _ _ _) (storeByH_le _ _ _)
        have hcnj2 : canNode P ((h - (j + 1)) + 1) (mres h k m j) =
            ⟨EmptyPath,
             P (canH P (h - (j + 1))
                 (msplit ((h - (j + 1)) + 1) (mres h k m j)).1)
               (canH P (h - (j + 1))
                 (msplit ((h - (j + 1)) + 1) (mres h k m j)).2) % stp⟩ := by
          conv_lhs => rw [← hn1]
          exact hcnj
        have hcovj : Covers P (storeByH
            (storeByP s
              (P (canH P (h - j - 1) (mopp h k m j))
                (nodeHash P (canNode P (h - (j + 1))
                  (mres h k m (j + 1)))) % stp)
              (canH P (h - j - 1) (mopp h k m j))
              (nodeHash P (canNode P (h - (j + 1)) (mres h k m (j + 1)))))
            (nodeHash P (⟨EmptyPath,
              P (canH P (h - j - 1) (mopp h k m j))
                (nodeHash P (canNode P (h - (j + 1))
                  (mres h k m (j + 1)))) % stp⟩ : TrieNode))
            (⟨EmptyPath,
              P (canH P (h - j - 1) (mopp h k m j))
                (nodeHash P (canNode P (h - (j + 1))
                  (mres h k m (j + 1)))) % stp⟩ : TrieNode))
            ((h - (j + 1)) + 1) (mres h k m j) := by
          intro hne2
          refine ⟨?_, ?_⟩
          · rw [hcnj2, ← hLeq, ← hReq]
            exact List.mem_cons_self _ _
          · rw [if_neg (by simp [hs2ne]), if_neg (by simp [hs1ne])]
            refine ⟨?_, ?_, ?_⟩
            · rw [hbinj2, ← hLeq, ← hReq]
              exact List.mem_cons_self _ _
            · have hoc := hmop j (by omega) hopp
              rw [ho''] at hoc
              exact Covers_mono hle1 _ _ hoc
            · rw [← hr'']
              exact Covers_mono hle1 _ _ hcov
        have hcovj' : Covers P (storeByH
            (storeByP s
              (P (canH P (h - j - 1) (mopp h k m j))
                (nodeHash P (canNode P (h - (j + 1))
                  (mres h k m (j + 1)))) % stp)
              (canH P (h - j - 1) (mopp h k m j))
              (nodeHash P (canNode P (h - (j + 1)) (mres h k m (j + 1)))))
            (nodeHash P (⟨EmptyPath,
              P (canH P (h - j - 1) (mopp h k m j))
                (nodeHash P (canNode P (h - (j + 1))
                  (mres h k m (j + 1)))) % stp⟩ : TrieNode))
            (⟨EmptyPath,
              P (canH P (h - j - 1) (mopp h k m j))
                (nodeHash P (canNode P (h - (j + 1))
                  (mres h k m (j + 1)))) % stp⟩ : TrieNode))
            (h - j) (mres h k m j) := by
          have h9 := hcovj
          rwa [← hn1] at h9
        obtain ⟨s', he2, hle2, hcend⟩ := ih
          (storeByH
            (storeByP s
              (P (canH P (h - j - 1) (mopp h k m j))
                (nodeHash P (canNode P (h - (j + 1))
                  (mres h k m (j + 1)))) % stp)
              (canH P (h - j - 1) (mopp h k m j))
              (nodeHash P (canNode P (h - (j + 1)) (mres h k m (j + 1)))))
            (nodeHash P (⟨EmptyPath,
              P (canH P (h - j - 1) (mopp h k m j))
                (nodeHash P (canNode P (h - (j + 1))
                  (mres h k m (j + 1)))) % stp⟩ : TrieNode))
            (⟨EmptyPath,
              P (canH P (h - j - 1) (mopp h k m j))
                (nodeHash P (canNode P (h - (j + 1))
                  (mres h k m (j + 1)))) % stp⟩ : TrieNode)) sib
          (by omega) hrj hcovj'
          (fun i hi => hsib i (by omega))
          (fun i hi hne3 => Covers_mono hle1 _ _ (hmop i (by omega) hne3))
        rw [hcnj, ← hLeq, ← hReq] at he2
        refine ⟨s', ?_, Store.le_trans hle1 hle2, hcend⟩
        rw [heq]
        exact he2
      · -- key side 0: the sibling is the 1-half
        have hr' : mres h k m (j + 1) = (msplit (h - j) (mres h k m j)).1 := by
          rw [mres_succ, if_neg hbit]
        have ho' : mopp h k m j = (msplit (h - j) (mres h k m j)).2 := by
          unfold mopp
          rw [if_neg hbit]
        have hr'' : mres h k m (j + 1) =
            (msplit ((h - (j + 1)) + 1) (mres h k m j)).1 := by
          rw [← hn1]
          exact hr'
        have ho'' : mopp h k m j =
            (msplit ((h - (j + 1)) + 1) (mres h k m j)).2 := by
          rw [← hn1]
          exact ho'
        have hs1ne : (msplit ((h - (j + 1)) + 1) (mres h k m j)).1 ≠ [] := by
          rw [← hr'']
          exact hne
        have hs2ne : (msplit ((h - (j + 1)) + 1) (mres h k m j)).2 ≠ [] := by
          rw [← ho'']
          exact hopp
        have hLeq : nodeHash P (canNode P (h - (j + 1)) (mres h k m (j + 1))) =
            canH P (h - (j + 1))
              (msplit ((h - (j + 1)) + 1) (mres h k m j)).1 := by
          rw [canH_eq_nodeHash, hr'']
        have hReq : canH P (h - j - 1) (mopp h k m j) =
            canH P (h - (j + 1))
              (msplit ((h - (j + 1)) + 1) (mres h k m j)).2 := by
          rw [ho'', show h - j - 1 = h - (j + 1) by omega]
        have hbinj : cpv P (h - j) (mres h k m j) =
            (0, 0,
             P (canH P (h - (j + 1))
                 (msplit ((h - (j + 1)) + 1) (mres h k m j)).1)
               (canH P (h - (j + 1))
                 (msplit ((h - (j + 1)) + 1) (mres h k m j)).2) % stp) := by
          rw [hn1, cpv_bin hs1ne hs2ne]
        have hbinj2 : cpv P ((h - (j + 1)) + 1) (mres h k m j) =
            (0, 0,
             P (canH P (h - (j + 1))
                 (msplit ((h - (j + 1)) + 1) (mres h k m j)).1)
               (canH P (h - (j + 1))
                 (msplit ((h - (j + 1)) + 1) (mres h k m j)).2) % stp) := by
          conv_lhs => rw [← hn1]
          exact hbinj
        have hcnj : canNode P (h - j) (mres h k m j) =
            ⟨EmptyPath,
             P (canH P (h - (j + 1))
                 (msplit ((h - (j + 1)) + 1) (mres h k m j)).1)
               (canH P (h - (j + 1))
                 (msplit ((h - (j + 1)) + 1) (mres h k m j)).2) % stp⟩ := by
          unfold canNode
          rw [hbinj]
          rfl
        have heq : buildLoop P (pathOf h k) sib (j + 1)
            (canNode P (h - (j + 1)) (mres h k m (j + 1))) s =
            buildLoop P (pathOf h k) sib j
              (⟨EmptyPath,
                P (nodeHash P (canNode P (h - (j + 1)) (mres h k m (j + 1))))
                  (canH P (h - j - 1) (mopp h k m j)) % stp⟩ : TrieNode)
              (storeByH
                (storeByP s
                  (P (nodeHash P (canNode P (h - (j + 1))
                      (mres h k m (j + 1))))
                    (canH P (h - j - 1) (mopp h k m j)) % stp)
                  (nodeHash P (canNode P (h - (j + 1)) (mres h k m (j + 1))))
                  (canH P (h - j - 1) (mopp h k m j)))
                (nodeHash P (⟨EmptyPath,
                  P (nodeHash P (canNode P (h - (j + 1))
                      (mres h k m (j + 1))))
                    (canH P (h - j - 1) (mopp h k m j)) % stp⟩ : TrieNode))
                (⟨EmptyPath,
                  P (nodeHash P (canNode P (h - (j + 1))
                      (mres h k m (j + 1))))
                    (canH P (h - j - 1) (mopp h k m j)) % stp⟩ : TrieNode)) := by
          simp only [buildLoop, computeP, computeH]
          rw [hsj]
          try dsimp only
          rw [hβ]
          rw [if_neg hbit]
          try dsimp only
        have hle1 : s.le (storeByH
            (storeByP s
              (P (nodeHash P (canNode P (h - (j + 1)) (mres h k m (j + 1))))
                (canH P (h - j - 1) (mopp h k m j)) % stp)
              (nodeHash P (canNode P (h - (j + 1)) (mres h k m (j + 1))))
              (canH P (h - j - 1) (mopp h k m j)))
            (nodeHash P (⟨EmptyPath,
              P (nodeHash P (canNode P (h - (j + 1)) (mres h k m (j + 1))))
                (canH P (h - j - 1) (mopp h k m j)) % stp⟩ : TrieNode))
            (⟨EmptyPath,
              P (nodeHash P (canNode P (h - (j + 1)) (mres h k m (j + 1))))
                (canH P (h - j - 1) (mopp h k m j)) % stp⟩ : TrieNode)) :=
          Store.le_trans (storeByP_le _ _ _ _) (storeByH_le _ _ _)
        have hcnj2 : canNode P ((h - (j + 1)) + 1) (mres h k m j) =
            ⟨EmptyPath,
             P (canH P (h - (j + 1))
                 (msplit ((h - (j + 1)) + 1) (mres h k m j)).1)
               (canH P (h - (j + 1))
                 (msplit ((h - (j + 1)) + 1) (mres h k m j)).2) % stp⟩ := by
          conv_lhs => rw [← hn1]
          exact hcnj
        have hcovj : Covers P (storeByH
            (storeByP s
              (P (nodeHash P (canNode P (h - (j + 1)) (mres h k m (j + 1))))
                (canH P (h - j - 1) (mopp h k m j)) % stp)
              (nodeHash P (canNode P (h - (j + 1)) (mres h k m (j + 1))))
              (canH P (h - j - 1) (mopp h k m j)))
            (nodeHash P (⟨EmptyPath,
              P (nodeHash P (canNode P (h - (j + 1)) (mres h k m (j + 1))))
                (canH P (h - j - 1) (mopp h k m j)) % stp⟩ : TrieNode))
            (⟨EmptyPath,
              P (nodeHash P (canNode P (h - (j + 1)) (mres h k m (j + 1))))
                (canH P (h - j - 1) (mopp h k m j)) % stp⟩ : TrieNode))
            ((h - (j + 1)) + 1) (mres h k m j) := by
          intro hne2
          refine ⟨?_, ?_⟩
          · rw [hcnj2, ← hLeq, ← hReq]
            exact List.mem_cons_self _ _
          · rw [if_neg (by simp [hs2ne]), if_neg (by simp [hs1ne])]
            refine ⟨?_, ?_, ?_⟩
            · rw [hbinj2, ← hLeq, ← hReq]
              exact List.mem_cons_self _ _
            · rw [← hr'']
              exact Covers_mono hle1 _ _ hcov
            · have hoc := hmop j (by omega) hopp
              rw [ho''] at hoc
              exact Covers_mono hle1 _ _ hoc
        have hcovj' : Covers P (storeByH
            (storeByP s
              (P (nodeHash P (canNode P (h - (j + 1)) (mres h k m (j + 1))))
                (canH P (h - j - 1) (mopp h k m j)) % stp)
              (nodeHash P (canNode P (h - (j + 1)) (mres h k m (j + 1))))
              (canH P (h - j - 1) (mopp h k m j)))
            (nodeHash P (⟨EmptyPath,
              P (nodeHash P (canNode P (h - (j + 1)) (mres h k m (j + 1))))
                (canH P (h - j - 1) (mopp h k m j)) % stp⟩ : TrieNode))
            (⟨EmptyPath,
              P (nodeHash P (canNode P (h - (j + 1)) (mres h k m (j + 1))))
                (canH P (h - j - 1) (mopp h k m j)) % stp⟩ : TrieNode))
            (h - j) (mres h k m j) := by
          have h9 := hcovj
          rwa [← hn1] at h9
        obtain ⟨s', he2, hle2, hcend⟩ := ih
          (storeByH
            (storeByP s
              (P (nodeHash P (canNode P (h - (j + 1)) (mres h k m (j + 1))))
                (canH P (h - j - 1) (mopp h k m j)) % stp)
              (nodeHash P (canNode P (h - (j + 1)) (mres h k m (j + 1))))
              (canH P (h - j - 1) (mopp h k m j)))
            (nodeHash P (⟨EmptyPath,
              P (nodeHash P (canNode P (h - (j + 1)) (mres h k m (j + 1))))
                (canH P (h - j - 1) (mopp h k m j)) % stp⟩ : TrieNode))
            (⟨EmptyPath,
              P (nodeHash P (canNode P (h - (j + 1)) (mres h k m (j + 1))))
                (canH P (h - j - 1) (mopp h k m j)) % stp⟩ : TrieNode)) sib
          (by omega) hrj hcovj'
          (fun i hi => hsib i (by omega))
          (fun i hi hne3 => Covers_mono hle1 _ _ (hmop i (by omega) hne3))
        rw [hcnj, ← hLeq, ← hReq] at he2
        refine ⟨s', ?_, Store.le_trans hle1 hle2, hcend⟩
        rw [heq]
        exact he2

theorem mres_nil (h k : Nat) : ∀ i, mres h k [] i = [] := by
  intro i
  induction i with
  | zero => rfl
  | succ n ih =>
    rw [mres_succ, ih, msplit_nil]
    by_cases hbit : k.testBit (h - 1 - n) <;> simp [hbit]

theorem mopp_nil (h k i : Nat) : mopp h k [] i = [] := by
  unfold mopp
  rw [mres_nil, msplit_nil]
  by_cases hbit : k.testBit (h - 1 - i) <;> simp [hbit]

theorem sibSpec_minsert {P : Nat → Nat → Nat} {h k v : Nat}
    {m : List (Nat × Nat)} (hk : k < 2 ^ h) (hb : ∀ e ∈ m, e.1 < 2 ^ h) :
    ∀ i, sibSpec P h k (minsert k v m) i = sibSpec P h k m i := by
  intro i
  unfold sibSpec
  by_cases hi : h ≤ i
  · rw [if_pos hi, if_pos hi]
  · rw [if_neg hi, if_neg hi, mopp_minsert hk hb i (by omega)]

/-- `Trie.Put` refines `minsert` on the canonical map: on a represented
trie it succeeds, its root becomes the canonical node of the updated map,
and the grown store covers the updated canonical trie. The collision
hypotheses live on any superstore `S` of the final store of the run. -/
theorem put_rep {P : Nat → Nat → Nat} {S : Store} {t : Trie}
    {m : List (Nat × Nat)} {k v : Nat}
    (hk : k < 2 ^ t.height) (hwf : MapWF t.height m)
    (hfS : S.hfun) (hpS : S.pfun) (hnz : S.pnz) (hsub : t.store.le S)
    (hrep : Rep P t m) :
    ∃ t', t.put P k v = .ok t' ∧ t'.height = t.height ∧
      t.store.le t'.store ∧ Rep P t' (minsert k v m) := by
  obtain ⟨sibR, hputeq', hsibR⟩ :
      ∃ sibR, putGo P t.store (pathOf t.height k) t.height
          (t.height + 1) 0 t.root Sib.empty = .ok sibR ∧
        ∀ i, i < t.height → sibR i = sibSpec P t.height k m i := by
    by_cases hm : m.isEmpty
    · have hme : m = [] := by simpa using hm
      have hroot : t.root = none := by rw [hrep.1, if_pos hm]
      refine ⟨Sib.empty, ?_, ?_⟩
      · rw [hroot]
        rfl
      · intro i hi
        unfold sibSpec
        rw [if_neg (by omega), if_pos (by simp [hme, mopp_nil])]
        rfl
    · have hmne : m ≠ [] := by simpa using hm
      have hroot : t.root = some (canNode P t.height m) := by
        rw [hrep.1, if_neg hm]
      obtain ⟨sibR, he, hp⟩ := putGo_spec (S := S) hk hfS hpS hnz hsub
        (t.height + 1) 0 Sib.empty (by omega) (by omega) hmne hrep.2
        (fun _ _ => rfl)
      refine ⟨sibR, ?_, ?_⟩
      · rw [hroot]
        exact he
      · intro i hi
        rw [hp i hi, if_neg (by omega)]
  have hb' : ∀ e ∈ minsert k v m, e.1 < 2 ^ t.height :=
    minsert_bound hwf.2 hk
  have hnd' : (mkeys (minsert k v m)).Nodup := minsert_keys_nodup hwf.1
  have hfull : mres t.height k (minsert k v m) t.height = [(0, v)] :=
    mres_full_of_some hk hb' hnd' (minsert_lookup_self k v m)
  have hfullne : mres t.height k (minsert k v m) t.height ≠ [] := by
    rw [hfull]
    simp
  have hleaf : canNode P (t.height - t.height)
      (mres t.height k (minsert k v m) t.height) =
      ⟨EmptyPath, v⟩ := by
    rw [hfull, Nat.sub_self]
    rfl
  have hcovfull : Covers P
      (storeByH t.store (nodeHash P (⟨EmptyPath, v⟩ : TrieNode))
        (⟨EmptyPath, v⟩ : TrieNode))
      (t.height - t.height)
      (mres t.height k (minsert k v m) t.height) := by
    rw [hfull, Nat.sub_self]
    intro hne2
    exact List.mem_cons_self _ _
  have hsib' : ∀ i, i < t.height →
      sibR i = sibSpec P t.height k (minsert k v m) i := by
    intro i hi
    rw [hsibR i hi]
    exact (sibSpec_minsert hk hwf.2 i).symm
  have hmopC : ∀ i, i < t.height →
      mopp t.height k (minsert k v m) i ≠ [] →
      Covers P
        (storeByH t.store (nodeHash P (⟨EmptyPath, v⟩ : TrieNode))
          (⟨EmptyPath, v⟩ : TrieNode))
        (t.height - i - 1) (mopp t.height k (minsert k v m) i) := by
    intro i hi _
    rw [mopp_minsert hk hwf.2 i hi]
    exact Covers_mono (storeByH_le _ _ _) _ _ (Covers_mopp hrep.2 i hi)
  obtain ⟨s2, hbuild, hle2, hcend⟩ := buildLoop_spec (m := minsert k v m) hk
    t.height
    (storeByH t.store (nodeHash P (⟨EmptyPath, v⟩ : TrieNode))
      (⟨EmptyPath, v⟩ : TrieNode))
    sibR (Nat.le_refl _) hfullne hcovfull hsib' hmopC
  rw [hleaf] at hbuild
  refine ⟨⟨some (canNode P t.height (minsert k v m)), s2, t.height⟩,
    ?_, rfl, Store.le_trans (storeByH_le _ _ _) hle2, ?_, ?_⟩
  · simp only [Trie.put, computeH]
    rw [hputeq']
    try dsimp only
    rw [hbuild]
  · show some (canNode P t.height (minsert k v m)) =
      if (minsert k v m).isEmpty then none
      else some (canNode P t.height (minsert k v m))
    rw [if_neg (by simp [minsert_ne_nil])]
  · exact hcend

theorem Path.walked_zero {a : Path} (hv : a.val < 2 ^ a.len) :
    a.walked 0 = a := by
  obtain ⟨l, v⟩ := a
  show Path.mk (l - 0) (v % 2 ^ (l - 0)) = Path.mk l v
  rw [Nat.sub_zero, Nat.mod_eq_of_lt hv]

/-- Walking both paths past `L` agreeing bits lowers their longest common
prefix by exactly `L`. -/
theorem Path.lcp_walked_add {L : Nat} :
    ∀ {a b : Path}, L ≤ a.longestCommonPrefix b →
      a.val < 2 ^ a.len → b.val < 2 ^ b.len →
      a.longestCommonPrefix b =
        (a.walked L).longestCommonPrefix (b.walked L) + L := by
  induction L with
  | zero =>
    intro a b _ hav hbv
    rw [Path.walked_zero hav, Path.walked_zero hbv]
    omega
  | succ L ih =>
    intro a b hL hav hbv
    have hla : a.len ≠ 0 := by
      have := Path.lcp_le_left a b
      omega
    have hlb : b.len ≠ 0 := by
      have := Path.lcp_le_right a b
      omega
    have hbits : a.get 0 = b.get 0 := by
      by_contra hc
      have := Path.lcp_zero_of_ne hla hlb hc
      omega
    have hs := Path.lcp_succ hla hlb hbits
    have hav1 : (a.walked 1).val < 2 ^ (a.walked 1).len := by
      rw [Path.walked_len, Path.walked_val]
      exact Nat.mod_lt _ (Nat.pos_pow_of_pos _ (by norm_num))
    have hbv1 : (b.walked 1).val < 2 ^ (b.walked 1).len := by
      rw [Path.walked_len, Path.walked_val]
      exact Nat.mod_lt _ (Nat.pos_pow_of_pos _ (by norm_num))
    have hih := ih (a := a.walked 1) (b := b.walked 1) (by omega) hav1 hbv1
    rw [hs, hih, Path.walked_walked, Path.walked_walked,
      Nat.add_comm 1 L]
    omega

/-- The loop of `Get` on a canonical trie returns the map's value for the
key (the canonical node of the residual map drives each branch). -/
theorem getGo_spec {P : Nat → Nat → Nat} {s S : Store} {h k : Nat}
    {m : List (Nat × Nat)} (hk : k < 2 ^ h)
    (hb : ∀ e ∈ m, e.1 < 2 ^ h) (hn : (mkeys m).Nodup)
    (hfS : S.hfun) (hpS : S.pfun) (hnz : S.pnz) (hsub : s.le S) :
    ∀ (fuel w : Nat), w ≤ h → h - w < fuel →
      mres h k m w ≠ [] →
      Covers P s (h - w) (mres h k m w) →
      getGo s (pathOf h k) h fuel w (canNode P (h - w) (mres h k m w)) =
        .ok (m.lookup k) := by
  intro fuel
  induction fuel with
  | zero =>
    intro w _ hfw _ _
    omega
  | succ fuel ih =>
    intro w hw hfw hne hcov
    by_cases hwh : w < h
    · rcases hdbb : cpv P (h - w) (mres h k m w) with ⟨d, b, bot⟩
      have hcn : canNode P (h - w) (mres h k m w) = ⟨⟨d, b⟩, bot⟩ := by
        unfold canNode
        rw [hdbb]
      have hn1 : h - w = (h - (w + 1)) + 1 := by omega
      have hbitk : (pathOf h k).get w = k.testBit (h - 1 - w) :=
        pathOf_get_lt w hk
      by_cases hd0 : d = 0
      · -- binary node
        subst hd0
        have hns : ¬ ((msplit (h - w) (mres h k m w)).1 = [] ∧
            (msplit (h - w) (mres h k m w)).2 = []) := by
          intro ⟨ha, hb2⟩
          rcases msplit_ne_nil (h := h - w) hne with hc | hc
          · exact hc ha
          · exact hc hb2
        have h0 : (msplit (h - w) (mres h k m w)).1 ≠ [] := by
          intro hc
          have hcv := cpv_one1 (P := P) (h := h - (w + 1))
            (m := mres h k m w)
            (by
              intro hc2
              rw [← hn1] at hc2
              exact hns ⟨hc, hc2⟩)
            (by rw [← hn1]; exact hc)
          rw [← hn1, hdbb] at hcv
          simp at hcv
        have h1 : (msplit (h - w) (mres h k m w)).2 ≠ [] := by
          intro hc
          have hcv := cpv_one0 (P := P) (h := h - (w + 1))
            (m := mres h k m w) (by rw [← hn1]; exact hc)
          rw [← hn1, hdbb] at hcv
          simp at hcv
        have hcovS : Covers P s ((h - (w + 1)) + 1) (mres h k m w) := by
          rw [← hn1]
          exact hcov
        have hpmem := Covers_pmem hcovS hne
          (by rw [← hn1]; exact h0) (by rw [← hn1]; exact h1)
        rw [← hn1, hdbb] at hpmem
        simp only at hpmem
        have hbotnz : bot ≠ 0 := by
          intro hc
          exact hnz _ (hsub.2 hpmem) (by simpa using hc)
        have hretP : retrieveByP s bot =
            .ok (canH P (h - (w + 1)) (msplit (h - w) (mres h k m w)).1,
                 canH P (h - (w + 1)) (msplit (h - w) (mres h k m w)).2) :=
          retrieveByP_of_mem hsub.2 hpS hpmem
        have hcov0 : Covers P s (h - (w + 1))
            (msplit (h - w) (mres h k m w)).1 := by
          have hcf := Covers_fst hcovS
          rwa [← hn1] at hcf
        have hcov1 : Covers P s (h - (w + 1))
            (msplit (h - w) (mres h k m w)).2 := by
          have hcf := Covers_snd hcovS
          rwa [← hn1] at hcf
        have hretH0 : retrieveByH s
            (canH P (h - (w + 1)) (msplit (h - w) (mres h k m w)).1) =
            .ok (canNode P (h - (w + 1)) (msplit (h - w) (mres h k m w)).1) := by
          rw [canH_eq_nodeHash]
          exact retrieveByH_of_mem hsub.1 hfS (Covers_mem hcov0 h0)
        have hretH1 : retrieveByH s
            (canH P (h - (w + 1)) (msplit (h - w) (mres h k m w)).2) =
            .ok (canNode P (h - (w + 1)) (msplit (h - w) (mres h k m w)).2) := by
          rw [canH_eq_nodeHash]
          exact retrieveByH_of_mem hsub.1 hfS (Covers_mem hcov1 h1)
        by_cases hbit : k.testBit (h - 1 - w)
        · have hres1 : mres h k m (w + 1) =
              (msplit (h - w) (mres h k m w)).2 := by
            rw [mres_succ, if_pos hbit]
          have hgetk : (pathOf h k).get w = true := by
            rw [hbitk]
            exact hbit
          have heq : getGo s (pathOf h k) h (fuel + 1) w
              (⟨⟨0, b⟩, bot⟩ : TrieNode) =
              getGo s (pathOf h k) h fuel (w + 1)
                (canNode P (h - (w + 1)) (mres h k m (w + 1))) := by
            simp only [getGo]
            rw [if_pos hwh]
            try dsimp only
            try rw [if_pos rfl]
            rw [if_neg hbotnz, hretP]
            try dsimp only
            try rw [if_pos hgetk]
            rw [hretH1]
            try dsimp only
            try rw [hres1]
            try rw [if_pos trivial]
          rw [hcn, heq]
          exact ih (w + 1) (by omega) (by omega)
            (by rw [hres1]; exact h1) (by rw [hres1]; exact hcov1)
        · have hres1 : mres h k m (w + 1) =
              (msplit (h - w) (mres h k m w)).1 := by
            rw [mres_succ, if_neg hbit]
          have hgetk : ¬ ((pathOf h k).get w = true) := by
            rw [hbitk]
            simp [hbit]
          have heq : getGo s (pathOf h k) h (fuel + 1) w
              (⟨⟨0, b⟩, bot⟩ : TrieNode) =
              getGo s (pathOf h k) h fuel (w + 1)
                (canNode P (h - (w + 1)) (mres h k m (w + 1))) := by
            simp only [getGo]
            rw [if_pos hwh]
            try dsimp only
            try rw [if_pos rfl]
            rw [if_neg hbotnz, hretP]
            try dsimp only
            try rw [if_neg hgetk]
            rw [hretH0]
            try dsimp only
            try rw [hres1]
            try rw [if_pos trivial]
          rw [hcn, heq]
          exact ih (w + 1) (by omega) (by omega)
            (by rw [hres1]; exact h0) (by rw [hres1]; exact hcov0)
      · -- edge node
        have hd1 : 1 ≤ d := by omega
        have hdle : d ≤ h - w := by
          have hcb := (cpv_bounds P (h - w) (mres h k m w)).1
          rw [hdbb] at hcb
          exact hcb
        have hbcb : b < 2 ^ d := by
          have hcb := (cpv_bounds P (h - w) (mres h k m w)).2
          rw [hdbb] at hcb
          exact hcb
        have hklen : ((pathOf h k).walked w).len = h - w := by
          rw [Path.walked_len, pathOf_len]
        by_cases hL : Path.longestCommonPrefix ⟨d, b⟩ ((pathOf h k).walked w) = d
        · -- the whole edge matches: consume it
          obtain ⟨r1, r2, r3, r4⟩ := edge_walk (s := s) (m := m) hk d w
            (by omega) hne hcov (by rw [hdbb]) (by rw [hdbb]; exact le_of_eq hL.symm)
          rw [hdbb] at r3
          simp only at r3
          have hcan : canNode P (h - (w + d)) (mres h k m (w + d)) =
              ⟨EmptyPath, bot⟩ := by
            unfold canNode
            rw [r3, Nat.sub_self]
            show TrieNode.mk ⟨0, b % 2 ^ 0⟩ bot = _
            rw [pow_zero, Nat.mod_one]
            rfl
          have heq : getGo s (pathOf h k) h (fuel + 1) w
              (⟨⟨d, b⟩, bot⟩ : TrieNode) =
              getGo s (pathOf h k) h fuel (w + d)
                (⟨EmptyPath, bot⟩ : TrieNode) := by
            simp only [getGo]
            rw [if_pos hwh]
            try dsimp only
            rw [if_neg hd0]
            rw [if_pos hL]
          rw [hcn, heq, ← hcan]
          exact ih (w + d) (by omega) (by omega) r1 r2
        · -- the edge diverges: the key is absent
          have hLle : Path.longestCommonPrefix ⟨d, b⟩ ((pathOf h k).walked w)
              ≤ d := Path.lcp_le_left _ _
          have hLlt : Path.longestCommonPrefix ⟨d, b⟩ ((pathOf h k).walked w)
              < d := by omega
          obtain ⟨r1, r2, r3, r4⟩ := edge_walk (s := s) (m := m) hk
            (Path.longestCommonPrefix ⟨d, b⟩ ((pathOf h k).walked w)) w
            (by omega) hne hcov (by rw [hdbb]; exact hLle)
            (by rw [hdbb])
          rw [hdbb] at r3
          simp only at r3
          have hwv : ((pathOf h k).walked w).val < 2 ^ ((pathOf h k).walked w).len := by
            rw [Path.walked_len, Path.walked_val]
            exact Nat.mod_lt _ (Nat.pos_pow_of_pos _ (by norm_num))
          have hadd := Path.lcp_walked_add
            (a := ⟨d, b⟩) (b := (pathOf h k).walked w)
            (Nat.le_refl _) hbcb hwv
          rw [Path.walked_walked] at hadd
          have hlcp0 : Path.longestCommonPrefix
              ((⟨d, b⟩ : Path).walked
                (Path.longestCommonPrefix ⟨d, b⟩ ((pathOf h k).walked w)))
              ((pathOf h k).walked
                (w + Path.longestCommonPrefix ⟨d, b⟩ ((pathOf h k).walked w)))
              = 0 := by omega
          have hwalkL : (⟨d, b⟩ : Path).walked
              (Path.longestCommonPrefix ⟨d, b⟩ ((pathOf h k).walked w)) =
              ⟨d - Path.longestCommonPrefix ⟨d, b⟩ ((pathOf h k).walked w),
               b % 2 ^ (d - Path.longestCommonPrefix ⟨d, b⟩
                 ((pathOf h k).walked w))⟩ := rfl
          have hwLh : w + Path.longestCommonPrefix ⟨d, b⟩
              ((pathOf h k).walked w) < h := by omega
          have hbits : (⟨d - Path.longestCommonPrefix ⟨d, b⟩
                ((pathOf h k).walked w),
              b % 2 ^ (d - Path.longestCommonPrefix ⟨d, b⟩
                ((pathOf h k).walked w))⟩ : Path).get 0 ≠
              ((pathOf h k).walked
                (w + Path.longestCommonPrefix ⟨d, b⟩
                  ((pathOf h k).walked w))).get 0 := by
            intro hc
            have hlens := Path.lcp_succ
              (a := ⟨d - Path.longestCommonPrefix ⟨d, b⟩ ((pathOf h k).walked w),
                b % 2 ^ (d - Path.longestCommonPrefix ⟨d, b⟩
                  ((pathOf h k).walked w))⟩)
              (b := (pathOf h k).walked
                (w + Path.longestCommonPrefix ⟨d, b⟩ ((pathOf h k).walked w)))
              (by simpa using (by omega : d - Path.longestCommonPrefix ⟨d, b⟩
                ((pathOf h k).walked w) ≠ 0))
              (by
                rw [Path.walked_len, pathOf_len]
                omega) hc
            rw [← hwalkL] at hlens
            omega
          have hstep := cpv_edge_step (P := P)
            (n := h - (w + Path.longestCommonPrefix ⟨d, b⟩
              ((pathOf h k).walked w)))
            (r := mres h k m (w + Path.longestCommonPrefix ⟨d, b⟩
              ((pathOf h k).walked w)))
            (by omega) r1 (by rw [r3]; simpa using (by omega : 1 ≤ d -
              Path.longestCommonPrefix ⟨d, b⟩ ((pathOf h k).walked w)))
          rw [r3] at hstep
          simp only at hstep
          have hbk : ((pathOf h k).walked
              (w + Path.longestCommonPrefix ⟨d, b⟩
                ((pathOf h k).walked w))).get 0 =
              k.testBit (h - 1 - (w + Path.longestCommonPrefix ⟨d, b⟩
                ((pathOf h k).walked w))) :=
            pathOf_walked_get hwLh hk
          have hgz : (⟨d - Path.longestCommonPrefix ⟨d, b⟩
                ((pathOf h k).walked w),
              b % 2 ^ (d - Path.longestCommonPrefix ⟨d, b⟩
                ((pathOf h k).walked w))⟩ : Path).get 0 =
              (b % 2 ^ (d - Path.longestCommonPrefix ⟨d, b⟩
                ((pathOf h k).walked w))).testBit
                (d - Path.longestCommonPrefix ⟨d, b⟩
                  ((pathOf h k).walked w) - 1) := rfl
          have hresE : mres h k m
              (w + Path.longestCommonPrefix ⟨d, b⟩
                ((pathOf h k).walked w) + 1) = [] := by
            rcases hstep with ⟨hs2, hs1, hbite, hcpv1⟩ | ⟨hs1, hs2, hbite, hcpv1⟩
            · have hbk1 : k.testBit (h - 1 - (w + Path.longestCommonPrefix
                  ⟨d, b⟩ ((pathOf h k).walked w))) = true := by
                rcases Bool.eq_false_or_eq_true (k.testBit
                  (h - 1 - (w + Path.longestCommonPrefix ⟨d, b⟩
                    ((pathOf h k).walked w)))) with hb1 | hb1
                · exact hb1
                · exact absurd (by rw [hgz, hbite, hbk, hb1]) hbits
              rw [mres_succ, if_pos hbk1, hs2]
            · have hbk1 : k.testBit (h - 1 - (w + Path.longestCommonPrefix
                  ⟨d, b⟩ ((pathOf h k).walked w))) = false := by
                rcases Bool.eq_false_or_eq_true (k.testBit
                  (h - 1 - (w + Path.longestCommonPrefix ⟨d, b⟩
                    ((pathOf h k).walked w)))) with hb1 | hb1
                · exact absurd (by rw [hgz, hbite, hbk, hb1]) hbits
                · exact hb1
              rw [mres_succ, if_neg (by simp [hbk1]), hs1]
          have hresH : mres h k m h = [] :=
            mres_empty_le (by omega) hresE
          have hlknone : m.lookup k = none := by
            have h1 := mres_lookup_self hk hb h (Nat.le_refl h)
            rw [hresH] at h1
            exact h1.symm
          have heq : getGo s (pathOf h k) h (fuel + 1) w
              (⟨⟨d, b⟩, bot⟩ : TrieNode) = .ok none := by
            simp only [getGo]
            rw [if_pos hwh]
            try dsimp only
            rw [if_neg hd0]
            rw [if_neg hL]
          rw [hcn, heq, hlknone]
    · -- walked = height: return the leaf value
      have hwe : w = h := by omega
      subst hwe
      cases hl : m.lookup k with
      | none =>
        exact absurd (mres_full_of_none hk hb hl) hne
      | some v =>
        have hfull : mres w k m w = [(0, v)] :=
          mres_full_of_some hk hb hn hl
        have heq : getGo s (pathOf w k) w (fuel + 1) w
            (canNode P (w - w) (mres w k m w)) =
            .ok (some (canNode P (w - w) (mres w k m w)).bottom) := by
          simp only [getGo]
          rw [if_neg (by omega)]
        rw [heq, hfull, Nat.sub_self]
        rfl

/-- `Trie.Get` refines `List.lookup` on the canonical map. -/
theorem get_rep {P : Nat → Nat → Nat} {S : Store} {t : Trie}
    {m : List (Nat × Nat)} {k : Nat}
    (hk : k < 2 ^ t.height) (hwf : MapWF t.height m)
    (hfS : S.hfun) (hpS : S.pfun) (hnz : S.pnz) (hsub : t.store.le S)
    (hrep : Rep P t m) :
    t.get k = .ok (m.lookup k) := by
  by_cases hm : m.isEmpty
  · have hme : m = [] := by simpa using hm
    have hroot : t.root = none := by rw [hrep.1, if_pos hm]
    show Trie.get t k = _
    unfold Trie.get
    rw [hroot, hme]
    rfl
  · have hmne : m ≠ [] := by simpa using hm
    have hroot : t.root = some (canNode P t.height m) := by
      rw [hrep.1, if_neg hm]
    show Trie.get t k = _
    unfold Trie.get
    rw [hroot]
    exact getGo_spec hk hwf.2 hwf.1 hfS hpS hnz hsub (t.height + 1) 0
      (by omega) (by omega) hmne hrep.2

/-- At a canonical binary node both halves are nonempty, the Pedersen pair
is stored, the bottom digest is nonzero, and both children resolve by
hash. -/
theorem binary_node_facts {P : Nat → Nat → Nat} {s S : Store} {h k w b bot : Nat}
    {m : List (Nat × Nat)}
    (hfS : S.hfun) (hpS : S.pfun) (hnz : S.pnz) (hsub : s.le S)
    (hwh : w < h) (hne : mres h k m w ≠ [])
    (hcov : Covers P s (h - w) (mres h k m w))
    (hdbb : cpv P (h - w) (mres h k m w) = (0, b, bot)) :
    (msplit (h - w) (mres h k m w)).1 ≠ [] ∧
    (msplit (h - w) (mres h k m w)).2 ≠ [] ∧
    bot ≠ 0 ∧
    retrieveByP s bot =
      .ok (canH P (h - (w + 1)) (msplit (h - w) (mres h k m w)).1,
           canH P (h - (w + 1)) (msplit (h - w) (mres h k m w)).2) ∧
    Covers P s (h - (w + 1)) (msplit (h - w) (mres h k m w)).1 ∧
    Covers P s (h - (w + 1)) (msplit (h - w) (mres h k m w)).2 ∧
    retrieveByH s (canH P (h - (w + 1)) (msplit (h - w) (mres h k m w)).1) =
      .ok (canNode P (h - (w + 1)) (msplit (h - w) (mres h k m w)).1) ∧
    retrieveByH s (canH P (h - (w + 1)) (msplit (h - w) (mres h k m w)).2) =
      .ok (canNode P (h - (w + 1)) (msplit (h - w) (mres h k m w)).2) := by
  have hn1 : h - w = (h - (w + 1)) + 1 := by omega
  have hns : ¬ ((msplit (h - w) (mres h k m w)).1 = [] ∧
      (msplit (h - w) (mres h k m w)).2 = []) := by
    intro ⟨ha, hb2⟩
    rcases msplit_ne_nil (h := h - w) hne with hc | hc
    · exact hc ha
    · exact hc hb2
  have h0 : (msplit (h - w) (mres h k m w)).1 ≠ [] := by
    intro hc
    have hcv := cpv_one1 (P := P) (h := h - (w + 1)) (m := mres h k m w)
      (by
        intro hc2
        rw [← hn1] at hc2
        exact hns ⟨hc, hc2⟩)
      (by rw [← hn1]; exact hc)
    rw [← hn1, hdbb] at hcv
    simp at hcv
  have h1 : (msplit (h - w) (mres h k m w)).2 ≠ [] := by
    intro hc
    have hcv := cpv_one0 (P := P) (h := h - (w + 1)) (m := mres h k m w)
      (by rw [← hn1]; exact hc)
    rw [← hn1, hdbb] at hcv
    simp at hcv
  have hcovS : Covers P s ((h - (w + 1)) + 1) (mres h k m w) := by
    rw [← hn1]
    exact hcov
  have hpmem := Covers_pmem hcovS hne
    (by rw [← hn1]; exact h0) (by rw [← hn1]; exact h1)
  rw [← hn1, hdbb] at hpmem
  simp only at hpmem
  have hbotnz : bot ≠ 0 := by
    intro hc
    exact hnz _ (hsub.2 hpmem) (by simpa using hc)
  have hcov0 : Covers P s (h - (w + 1)) (msplit (h - w) (mres h k m w)).1 := by
    have hcf := Covers_fst hcovS
    rwa [← hn1] at hcf
  have hcov1 : Covers P s (h - (w + 1)) (msplit (h - w) (mres h k m w)).2 := by
    have hcf := Covers_snd hcovS
    rwa [← hn1] at hcf
  refine ⟨h0, h1, hbotnz, retrieveByP_of_mem hsub.2 hpS hpmem, hcov0, hcov1,
    ?_, ?_⟩
  · rw [canH_eq_nodeHash]
    exact retrieveByH_of_mem hsub.1 hfS (Covers_mem hcov0 h0)
  · rw [canH_eq_nodeHash]
    exact retrieveByH_of_mem hsub.1 hfS (Covers_mem hcov1 h1)

/-- If the key's path diverges inside a canonical edge, the key is absent
from the map (its full-depth residual is empty). -/
theorem edge_diverge_absent {P : Nat → Nat → Nat} {s : Store} {h k : Nat}
    {m : List (Nat × Nat)} {w d b bot : Nat} (hk : k < 2 ^ h) (hwh : w < h)
    (hne : mres h k m w ≠ []) (hcov : Covers P s (h - w) (mres h k m w))
    (hdbb : cpv P (h - w) (mres h k m w) = (d, b, bot)) (hd1 : 1 ≤ d)
    (hLlt : Path.longestCommonPrefix ⟨d, b⟩ ((pathOf h k).walked w) < d) :
    mres h k m h = [] := by
  have hdle : d ≤ h - w := by
    have hcb := (cpv_bounds P (h - w) (mres h k m w)).1
    rw [hdbb] at hcb
    exact hcb
  have hbcb : b < 2 ^ d := by
    have hcb := (cpv_bounds P (h - w) (mres h k m w)).2
    rw [hdbb] at hcb
    exact hcb
  have hklen : ((pathOf h k).walked w).len = h - w := by
    rw [Path.walked_len, pathOf_len]
  obtain ⟨r1, r2, r3, r4⟩ := edge_walk (s := s) (m := m) hk
    (Path.longestCommonPrefix ⟨d, b⟩ ((pathOf h k).walked w)) w
    (by omega) hne hcov (by rw [hdbb]; exact le_of_lt hLlt)
    (by rw [hdbb])
  rw [hdbb] at r3
  simp only at r3
  have hwv : ((pathOf h k).walked w).val <
      2 ^ ((pathOf h k).walked w).len := by
    rw [Path.walked_len, Path.walked_val]
    exact Nat.mod_lt _ (Nat.pos_pow_of_pos _ (by norm_num))
  have hadd := Path.lcp_walked_add
    (a := ⟨d, b⟩) (b := (pathOf h k).walked w) (Nat.le_refl _) hbcb hwv
  rw [Path.walked_walked] at hadd
  have hwLh : w + Path.longestCommonPrefix ⟨d, b⟩ ((pathOf h k).walked w)
      < h := by omega
  have hbits : (⟨d - Path.longestCommonPrefix ⟨d, b⟩ ((pathOf h k).walked w),
      b % 2 ^ (d - Path.longestCommonPrefix ⟨d, b⟩
        ((pathOf h k).walked w))⟩ : Path).get 0 ≠
      ((pathOf h k).walked
        (w + Path.longestCommonPrefix ⟨d, b⟩
          ((pathOf h k).walked w))).get 0 := by
    intro hc
    have hlens := Path.lcp_succ
      (a := ⟨d - Path.longestCommonPrefix ⟨d, b⟩ ((pathOf h k).walked w),
        b % 2 ^ (d - Path.longestCommonPrefix ⟨d, b⟩
          ((pathOf h k).walked w))⟩)
      (b := (pathOf h k).walked
        (w + Path.longestCommonPrefix ⟨d, b⟩ ((pathOf h k).walked w)))
      (by simpa using (by omega : d - Path.longestCommonPrefix ⟨d, b⟩
        ((pathOf h k).walked w) ≠ 0))
      (by
        rw [Path.walked_len, pathOf_len]
        omega) hc
    have hwalkL : (⟨d, b⟩ : Path).walked
        (Path.longestCommonPrefix ⟨d, b⟩ ((pathOf h k).walked w)) =
        ⟨d - Path.longestCommonPrefix ⟨d, b⟩ ((pathOf h k).walked w),
         b % 2 ^ (d - Path.longestCommonPrefix ⟨d, b⟩
           ((pathOf h k).walked w))⟩ := rfl
    rw [← hwalkL] at hlens
    omega
  have hstep := cpv_edge_step (P := P)
    (n := h - (w + Path.longestCommonPrefix ⟨d, b⟩ ((pathOf h k).walked w)))
    (r := mres h k m (w + Path.longestCommonPrefix ⟨d, b⟩
      ((pathOf h k).walked w)))
    (by omega) r1 (by rw [r3]; simpa using (by omega : 1 ≤ d -
      Path.longestCommonPrefix ⟨d, b⟩ ((pathOf h k).walked w)))
  rw [r3] at hstep
  simp only at hstep
  have hbk : ((pathOf h k).walked
      (w + Path.longestCommonPrefix ⟨d, b⟩ ((pathOf h k).walked w))).get 0 =
      k.testBit (h - 1 - (w + Path.longestCommonPrefix ⟨d, b⟩
        ((pathOf h k).walked w))) :=
    pathOf_walked_get hwLh hk
  have hgz : (⟨d - Path.longestCommonPrefix ⟨d, b⟩ ((pathOf h k).walked w),
      b % 2 ^ (d - Path.longestCommonPrefix ⟨d, b⟩
        ((pathOf h k).walked w))⟩ : Path).get 0 =
      (b % 2 ^ (d - Path.longestCommonPrefix ⟨d, b⟩
        ((pathOf h k).walked w))).testBit
        (d - Path.longestCommonPrefix ⟨d, b⟩
          ((pathOf h k).walked w) - 1) := rfl
  have hresE : mres h k m
      (w + Path.longestCommonPrefix ⟨d, b⟩ ((pathOf h k).walked w) + 1) =
      [] := by
    rcases hstep with ⟨hs2, hs1, hbite, hcpv1⟩ | ⟨hs1, hs2, hbite, hcpv1⟩
    · have hbk1 : k.testBit (h - 1 - (w + Path.longestCommonPrefix
          ⟨d, b⟩ ((pathOf h k).walked w))) = true := by
        rcases Bool.eq_false_or_eq_true (k.testBit
          (h - 1 - (w + Path.longestCommonPrefix ⟨d, b⟩
            ((pathOf h k).walked w)))) with hb1 | hb1
        · exact hb1
        · exact absurd (by rw [hgz, hbite, hbk, hb1]) hbits
      rw [mres_succ, if_pos hbk1, hs2]
    · have hbk1 : k.testBit (h - 1 - (w + Path.longestCommonPrefix
          ⟨d, b⟩ ((pathOf h k).walked w))) = false := by
        rcases Bool.eq_false_or_eq_true (k.testBit
          (h - 1 - (w + Path.longestCommonPrefix ⟨d, b⟩
            ((pathOf h k).walked w)))) with hb1 | hb1
        · exact absurd (by rw [hgz, hbite, hbk, hb1]) hbits
        · exact hb1
      rw [mres_succ, if_neg (by simp [hbk1]), hs1]
  exact mres_empty_le (by omega) hresE

/-- Phase 1 of `Delete` on a key present in the map walks to the leaf and
records exactly the canonical sibling hashes. -/
theorem delGo_spec {P : Nat → Nat → Nat} {s S : Store} {h k v : Nat}
    {m : List (Nat × Nat)} (hk : k < 2 ^ h)
    (hb : ∀ e ∈ m, e.1 < 2 ^ h) (hn : (mkeys m).Nodup)
    (hlk : m.lookup k = some v)
    (hfS : S.hfun) (hpS : S.pfun) (hnz : S.pnz) (hsub : s.le S) :
    ∀ (fuel w : Nat) (sib0 : Sib),
      w ≤ h → h - w < fuel →
      Covers P s (h - w) (mres h k m w) →
      (∀ i, w ≤ i → sib0 i = none) →
      ∃ sibR, delGo P s (pathOf h k) h fuel w
          (some (canNode P (h - w) (mres h k m w))) sib0 =
          .ok (some (canNode P (h - h) (mres h k m h)), sibR) ∧
        ∀ i, i < h → sibR i = if i < w then sib0 i else sibSpec P h k m i := by
  have hfull : mres h k m h = [(0, v)] := mres_full_of_some hk hb hn hlk
  have hfne : mres h k m h ≠ [] := by
    rw [hfull]
    simp
  intro fuel
  induction fuel with
  | zero =>
    intro w sib0 _ hfw
    omega
  | succ fuel ih =>
    intro w sib0 hw hfw hcov hs0
    have hne : mres h k m w ≠ [] := fun hc => hfne (mres_empty_le hw hc)
    by_cases hwh : w < h
    · rcases hdbb : cpv P (h - w) (mres h k m w) with ⟨d, b, bot⟩
      have hcn : canNode P (h - w) (mres h k m w) = ⟨⟨d, b⟩, bot⟩ := by
        unfold canNode
        rw [hdbb]
      have hbitk : (pathOf h k).get w = k.testBit (h - 1 - w) :=
        pathOf_get_lt w hk
      by_cases hd0 : d = 0
      · -- binary node
        subst hd0
        obtain ⟨h0, h1, hbotnz, hretP, hcov0, hcov1, hretH0, hretH1⟩ :=
          binary_node_facts (P := P) hfS hpS hnz hsub hwh hne hcov hdbb
        by_cases hbit : k.testBit (h - 1 - w)
        · have hres1 : mres h k m (w + 1) =
              (msplit (h - w) (mres h k m w)).2 := by
            rw [mres_succ, if_pos hbit]
          have hopp : mopp h k m w = (msplit (h - w) (mres h k m w)).1 := by
            unfold mopp
            rw [if_pos hbit]
          have hgetk : (pathOf h k).get w = true := by
            rw [hbitk]
            exact hbit
          have heq : delGo P s (pathOf h k) h (fuel + 1) w
              (some ⟨⟨0, b⟩, bot⟩) sib0 =
              delGo P s (pathOf h k) h fuel (w + 1)
                (some (canNode P (h - (w + 1)) (mres h k m (w + 1))))
                (sib0.update w
                  (canH P (h - (w + 1)) (msplit (h - w) (mres h k m w)).1)) := by
            simp only [delGo]
            rw [if_pos hwh]
            try dsimp only
            try rw [if_pos rfl]
            rw [if_neg hbotnz, hretP]
            try dsimp only
            try rw [if_pos hgetk, if_pos hgetk]
            rw [hretH1]
            try dsimp only
            try rw [hres1]
            try rw [if_pos trivial]
          rw [hcn, heq]
          have hsib' : ∀ i, w + 1 ≤ i →
              (sib0.update w
                (canH P (h - (w + 1)) (msplit (h - w) (mres h k m w)).1)) i
                = none := by
            intro i hi
            unfold Sib.update
            rw [if_neg (by omega)]
            exact hs0 i (by omega)
          obtain ⟨sibR, heq2, hprops⟩ := ih (w + 1)
            (sib0.update w
              (canH P (h - (w + 1)) (msplit (h - w) (mres h k m w)).1))
            (by omega) (by omega) (by rw [hres1]; exact hcov1) hsib'
          refine ⟨sibR, heq2, ?_⟩
          intro i hih2
          rw [hprops i hih2]
          by_cases hiw : i < w
          · rw [if_pos (by omega), if_pos hiw]
            unfold Sib.update
            rw [if_neg (by omega)]
          · by_cases hieq : i = w
            · subst hieq
              rw [if_pos (by omega), if_neg (by omega)]
              unfold Sib.update
              rw [if_pos rfl]
              unfold sibSpec
              rw [if_neg (by omega), hopp, if_neg (by simp [h0]),
                show h - i - 1 = h - (i + 1) by omega]
            · rw [if_neg (by omega), if_neg (by omega)]
        · have hres1 : mres h k m (w + 1) =
              (msplit (h - w) (mres h k m w)).1 := by
            rw [mres_succ, if_neg hbit]
          have hopp : mopp h k m w = (msplit (h - w) (mres h k m w)).2 := by
            unfold mopp
            rw [if_neg hbit]
          have hgetk : ¬ ((pathOf h k).get w = true) := by
            rw [hbitk]
            simp [hbit]
          have heq : delGo P s (pathOf h k) h (fuel + 1) w
              (some ⟨⟨0, b⟩, bot⟩) sib0 =
              delGo P s (pathOf h k) h fuel (w + 1)
                (some (canNode P (h - (w + 1)) (mres h k m (w + 1))))
                (sib0.update w
                  (canH P (h - (w + 1)) (msplit (h - w) (mres h k m w)).2)) := by
            simp only [delGo]
            rw [if_pos hwh]
            try dsimp only
            try rw [if_pos rfl]
            rw [if_neg hbotnz, hretP]
            try dsimp only
            try rw [if_neg hgetk, if_neg hgetk]
            rw [hretH0]
            try dsimp only
            try rw [hres1]
            try rw [if_pos trivial]
          rw [hcn, heq]
          have hsib' : ∀ i, w + 1 ≤ i →
              (sib0.update w
                (canH P (h - (w + 1)) (msplit (h - w) (mres h k m w)).2)) i
                = none := by
            intro i hi
            unfold Sib.update
            rw [if_neg (by omega)]
            exact hs0 i (by omega)
          obtain ⟨sibR, heq2, hprops⟩ := ih (w + 1)
            (sib0.update w
              (canH P (h - (w + 1)) (msplit (h - w) (mres h k m w)).2))
            (by omega) (by omega) (by rw [hres1]; exact hcov0) hsib'
          refine ⟨sibR, heq2, ?_⟩
          intro i hih2
          rw [hprops i hih2]
          by_cases hiw : i < w
          · rw [if_pos (by omega), if_pos hiw]
            unfold Sib.update
            rw [if_neg (by omega)]
          · by_cases hieq : i = w
            · subst hieq
              rw [if_pos (by omega), if_neg (by omega)]
              unfold Sib.update
              rw [if_pos rfl]
              unfold sibSpec
              rw [if_neg (by omega), hopp, if_neg (by simp [h1]),
                show h - i - 1 = h - (i + 1) by omega]
            · rw [if_neg (by omega), if_neg (by omega)]
      · -- edge node: the key is present, so the whole edge matches
        have hd1 : 1 ≤ d := by omega
        have hL : Path.longestCommonPrefix ⟨d, b⟩ ((pathOf h k).walked w)
            = d := by
          by_contra hc
          have hLlt : Path.longestCommonPrefix ⟨d, b⟩
              ((pathOf h k).walked w) < d := by
            have := Path.lcp_le_left (⟨d, b⟩ : Path) ((pathOf h k).walked w)
            simp only at this
            omega
          exact hfne (edge_diverge_absent hk hwh hne hcov hdbb hd1 hLlt)
        obtain ⟨r1, r2, r3, r4⟩ := edge_walk (s := s) (m := m) hk d w
          (by
            have hcb := (cpv_bounds P (h - w) (mres h k m w)).1
            rw [hdbb] at hcb
            simp only at hcb
            omega)
          hne hcov (by rw [hdbb]) (by rw [hdbb]; exact le_of_eq hL.symm)
        rw [hdbb] at r3
        simp only at r3
        have hdle2 : d ≤ h - w := by
          have hcb := (cpv_bounds P (h - w) (mres h k m w)).1
          rw [hdbb] at hcb
          simpa using hcb
        have hcan : canNode P (h - (w + d)) (mres h k m (w + d)) =
            ⟨(⟨d, b⟩ : Path).walked d, bot⟩ := by
          unfold canNode
          rw [r3]
          rfl
        have heq : delGo P s (pathOf h k) h (fuel + 1) w
            (some ⟨⟨d, b⟩, bot⟩) sib0 =
            delGo P s (pathOf h k) h fuel (w + d)
              (some ⟨(⟨d, b⟩ : Path).walked d, bot⟩) sib0 := by
          simp only [delGo]
          rw [if_pos hwh]
          try dsimp only
          rw [if_neg hd0, hL]
          rw [if_neg hd0]
        rw [hcn, heq, ← hcan]
        obtain ⟨sibR, heq2, hprops⟩ := ih (w + d) sib0 (by omega)
          (by omega) r2 (fun i hi => hs0 i (by omega))
        refine ⟨sibR, heq2, ?_⟩
        intro i hih2
        rw [hprops i hih2]
        by_cases hiw : i < w
        · rw [if_pos (by omega), if_pos hiw]
        · rw [if_neg hiw]
          by_cases hiL : i < w + d
          · rw [if_pos hiL, hs0 i (by omega)]
            unfold sibSpec
            rw [if_neg (by omega), if_pos (by simp [r4 i (by omega) hiL])]
          · rw [if_neg hiL]
    · -- walked = height: hand back the leaf
      have hwe : w = h := by omega
      subst hwe
      refine ⟨sib0, ?_, ?_⟩
      · simp only [delGo]
        rw [if_neg (by omega)]
      · intro i hih2
        rw [if_pos (by omega)]

/-- The ascent of `Delete` from an existing node: identical rebuild to
phase 2 of `Put`, persisting every node. -/
theorem delBuild_spec_some {P : Nat → Nat → Nat} {h k : Nat}
    {m : List (Nat × Nat)} (hk : k < 2 ^ h) :
    ∀ (j : Nat) (s : Store) (sib : Sib), j ≤ h →
      mres h k m j ≠ [] →
      Covers P s (h - j) (mres h k m j) →
      (∀ i, i < j → sib i = sibSpec P h k m i) →
      (∀ i, i < j → mopp h k m i ≠ [] →
        Covers P s (h - i - 1) (mopp h k m i)) →
      ∃ s', delBuild P (pathOf h k) sib j
          (some (canNode P (h - j) (mres h k m j))) s =
          .ok (some (canNode P h m), s') ∧
        s.le s' ∧ Covers P s' h m := by
  intro j
  induction j with
  | zero =>
    intro s sib _ _ hcov _ _
    exact ⟨s, rfl, Store.le_refl s, hcov⟩
  | succ j ih =>
    intro s sib hj hne hcov hsib hmop
    have hjh : j < h := by omega
    have hn1 : h - j = (h - (j + 1)) + 1 := by omega
    have hβ : (pathOf h k).get j = k.testBit (h - 1 - j) :=
      pathOf_get_lt j hk
    have hrj : mres h k m j ≠ [] := fun hc => hne (mres_empty_succ hc)
    by_cases hopp : mopp h k m j = []
    · -- no recorded sibling: extend the edge by one bit
      have hsj : sib j = none := by
        rw [hsib j (by omega)]
        unfold sibSpec
        rw [if_neg (by omega), if_pos (by simp [hopp])]
      rcases hdbb : cpv P (h - (j + 1)) (mres h k m (j + 1)) with ⟨d0, b0, bot0⟩
      have hcn' : canNode P (h - (j + 1)) (mres h k m (j + 1)) =
          ⟨⟨d0, b0⟩, bot0⟩ := by
        unfold canNode
        rw [hdbb]
      have hb0 : b0 < 2 ^ d0 := by
        have hcb := (cpv_bounds P (h - (j + 1)) (mres h k m (j + 1))).2
        rw [hdbb] at hcb
        exact hcb
      have hb0' : b0 < 2 ^ (d0 + 1) :=
        lt_of_lt_of_le hb0 (Nat.pow_le_pow_right (by norm_num) (by omega))
      have hnp : NewPath (d0 + 1) b0 = ⟨d0 + 1, b0⟩ := by
        unfold NewPath
        rw [Nat.mod_eq_of_lt hb0']
      by_cases hbit : k.testBit (h - 1 - j)
      · have hr' : mres h k m (j + 1) = (msplit (h - j) (mres h k m j)).2 := by
          rw [mres_succ, if_pos hbit]
        have hs1e : (msplit (h - j) (mres h k m j)).1 = [] := by
          have ho := hopp
          unfold mopp at ho
          rwa [if_pos hbit] at ho
        have hs1e' : (msplit ((h - (j + 1)) + 1) (mres h k m j)).1 = [] := by
          rw [← hn1]
          exact hs1e
        have hr'' : mres h k m (j + 1) =
            (msplit ((h - (j + 1)) + 1) (mres h k m j)).2 := by
          rw [← hn1]
          exact hr'
        have hs2ne : (msplit ((h - (j + 1)) + 1) (mres h k m j)).2 ≠ [] := by
          rw [← hr'']
          exact hne
        have hcpvj : cpv P (h - j) (mres h k m j) =
            (d0 + 1, 2 ^ d0 + b0, bot0) := by
          rw [hn1, cpv_one1 hs2ne hs1e', ← hr'', hdbb]
        have hcnj : canNode P (h - j) (mres h k m j) =
            ⟨⟨d0 + 1, 2 ^ d0 + b0⟩, bot0⟩ := by
          unfold canNode
          rw [hcpvj]
        have hset : (NewPath (d0 + 1) b0).set 0 = ⟨d0 + 1, 2 ^ d0 + b0⟩ := by
          rw [hnp]
          unfold Path.set
          dsimp only
          rw [show d0 + 1 - 1 - 0 = d0 by omega, lor_two_pow_of_lt hb0]
        have heq : delBuild P (pathOf h k) sib (j + 1)
            (some (⟨⟨d0, b0⟩, bot0⟩ : TrieNode)) s =
            delBuild P (pathOf h k) sib j
              (some (⟨⟨d0 + 1, 2 ^ d0 + b0⟩, bot0⟩ : TrieNode))
              (storeByH s
                (nodeHash P (⟨⟨d0 + 1, 2 ^ d0 + b0⟩, bot0⟩ : TrieNode))
                (⟨⟨d0 + 1, 2 ^ d0 + b0⟩, bot0⟩ : TrieNode)) := by
          simp only [delBuild, computeH]
          rw [hsj]
          try dsimp only
          rw [hβ, hbit]
          try rw [if_pos rfl]
          try dsimp only
          rw [hset]
        have hle1 : s.le (storeByH s
            (nodeHash P (⟨⟨d0 + 1, 2 ^ d0 + b0⟩, bot0⟩ : TrieNode))
            (⟨⟨d0 + 1, 2 ^ d0 + b0⟩, bot0⟩ : TrieNode)) :=
          storeByH_le _ _ _
        have hcnj2 : canNode P ((h - (j + 1)) + 1) (mres h k m j) =
            ⟨⟨d0 + 1, 2 ^ d0 + b0⟩, bot0⟩ := by
          rw [← hn1]
          exact hcnj
        have hcovj : Covers P (storeByH s
            (nodeHash P (⟨⟨d0 + 1, 2 ^ d0 + b0⟩, bot0⟩ : TrieNode))
            (⟨⟨d0 + 1, 2 ^ d0 + b0⟩, bot0⟩ : TrieNode))
            ((h - (j + 1)) + 1) (mres h k m j) := by
          intro hne2
          refine ⟨?_, ?_⟩
          · rw [hcnj2]
            exact List.mem_cons_self _ _
          · rw [if_neg (by simp [hs2ne]), if_pos (by simp [hs1e'])]
            rw [← hr'']
            exact Covers_mono hle1 _ _ hcov
        have hcovj' : Covers P (storeByH s
            (nodeHash P (⟨⟨d0 + 1, 2 ^ d0 + b0⟩, bot0⟩ : TrieNode))
            (⟨⟨d0 + 1, 2 ^ d0 + b0⟩, bot0⟩ : TrieNode)) (h - j)
            (mres h k m j) := by
          have h9 := hcovj
          rwa [← hn1] at h9
        obtain ⟨s', he2, hle2, hcend⟩ := ih
          (storeByH s
            (nodeHash P (⟨⟨d0 + 1, 2 ^ d0 + b0⟩, bot0⟩ : TrieNode))
            (⟨⟨d0 + 1, 2 ^ d0 + b0⟩, bot0⟩ : TrieNode)) sib
          (by omega) hrj hcovj'
          (fun i hi => hsib i (by omega))
          (fun i hi hne3 => Covers_mono hle1 _ _ (hmop i (by omega) hne3))
        rw [hcnj] at he2
        refine ⟨s', ?_, Store.le_trans hle1 hle2, hcend⟩
        rw [hcn', heq]
        exact he2
      · have hr' : mres h k m (j + 1) = (msplit (h - j) (mres h k m j)).1 := by
          rw [mres_succ, if_neg hbit]
        have hs2e : (msplit (h - j) (mres h k m j)).2 = [] := by
          have ho := hopp
          unfold mopp at ho
          rwa [if_neg hbit] at ho
        have hs2e' : (msplit ((h - (j + 1)) + 1) (mres h k m j)).2 = [] := by
          rw [← hn1]
          exact hs2e
        have hr'' : mres h k m (j + 1) =
            (msplit ((h - (j + 1)) + 1) (mres h k m j)).1 := by
          rw [← hn1]
          exact hr'
        have hcpvj : cpv P (h - j) (mres h k m j) = (d0 + 1, b0, bot0) := by
          rw [hn1, cpv_one0 hs2e', ← hr'', hdbb]
        have hcnj : canNode P (h - j) (mres h k m j) =
            ⟨⟨d0 + 1, b0⟩, bot0⟩ := by
          unfold canNode
          rw [hcpvj]
        have heq : delBuild P (pathOf h k) sib (j + 1)
            (some (⟨⟨d0, b0⟩, bot0⟩ : TrieNode)) s =
            delBuild P (pathOf h k) sib j
              (some (⟨⟨d0 + 1, b0⟩, bot0⟩ : TrieNode))
              (storeByH s
                (nodeHash P (⟨⟨d0 + 1, b0⟩, bot0⟩ : TrieNode))
                (⟨⟨d0 + 1, b0⟩, bot0⟩ : TrieNode)) := by
          simp only [delBuild, computeH]
          rw [hsj]
          try dsimp only
          rw [hβ]
          rw [if_neg hbit]
          try dsimp only
          rw [hnp]
        have hle1 : s.le (storeByH s
            (nodeHash P (⟨⟨d0 + 1, b0⟩, bot0⟩ : TrieNode))
            (⟨⟨d0 + 1, b0⟩, bot0⟩ : TrieNode)) :=
          storeByH_le _ _ _
        have hcnj2 : canNode P ((h - (j + 1)) + 1) (mres h k m j) =
            ⟨⟨d0 + 1, b0⟩, bot0⟩ := by
          rw [← hn1]
          exact hcnj
        have hcovj : Covers P (storeByH s
            (nodeHash P (⟨⟨d0 + 1, b0⟩, bot0⟩ : TrieNode))
            (⟨⟨d0 + 1, b0⟩, bot0⟩ : TrieNode))
            ((h - (j + 1)) + 1) (mres h k m j) := by
          intro hne2
          refine ⟨?_, ?_⟩
          · rw [hcnj2]
            exact List.mem_cons_self _ _
          · rw [if_pos (by simp [hs2e'])]
            rw [← hr'']
            exact Covers_mono hle1 _ _ hcov
        have hcovj' : Covers P (storeByH s
            (nodeHash P (⟨⟨d0 + 1, b0⟩, bot0⟩ : TrieNode))
            (⟨⟨d0 + 1, b0⟩, bot0⟩ : TrieNode)) (h - j) (mres h k m j) := by
          have h9 := hcovj
          rwa [← hn1] at h9
        obtain ⟨s', he2, hle2, hcend⟩ := ih
          (storeByH s
            (nodeHash P (⟨⟨d0 + 1, b0⟩, bot0⟩ : TrieNode))
            (⟨⟨d0 + 1, b0⟩, bot0⟩ : TrieNode)) sib
          (by omega) hrj hcovj'
          (fun i hi => hsib i (by omega))
          (fun i hi hne3 => Covers_mono hle1 _ _ (hmop i (by omega) hne3))
        rw [hcnj] at he2
        refine ⟨s', ?_, Store.le_trans hle1 hle2, hcend⟩
        rw [hcn', heq]
        exact he2
    · -- recorded sibling: combine as a binary node
      have hsj : sib j = some (canH P (h - j - 1) (mopp h k m j)) := by
        rw [hsib j (by omega)]
        unfold sibSpec
        rw [if_neg (by omega), if_neg (by simp [hopp])]
      by_cases hbit : k.testBit (h - 1 - j)
      · have hr' : mres h k m (j + 1) = (msplit (h - j) (mres h k m j)).2 := by
          rw [mres_succ, if_pos hbit]
        have ho' : mopp h k m j = (msplit (h - j) (mres h k m j)).1 := by
          unfold mopp
          rw [if_pos hbit]
        have hr'' : mres h k m (j + 1) =
            (msplit ((h - (j + 1)) + 1) (mres h k m j)).2 := by
          rw [← hn1]
          exact hr'
        have ho'' : mopp h k m j =
            (msplit ((h - (j + 1)) + 1) (mres h k m j)).1 := by
          rw [← hn1]
          exact ho'
        have hs1ne : (msplit ((h - (j + 1)) + 1) (mres h k m j)).1 ≠ [] := by
          rw [← ho'']
          exact hopp
        have hs2ne : (msplit ((h - (j + 1)) + 1) (mres h k m j)).2 ≠ [] := by
          rw [← hr'']
          exact hne
        have hLeq : canH P (h - j - 1) (mopp h k m j) =
            canH P (h - (j + 1))
              (msplit ((h - (j + 1)) + 1) (mres h k m j)).1 := by
          rw [ho'', show h - j - 1 = h - (j + 1) by omega]
        have hReq : nodeHash P (canNode P (h - (j + 1)) (mres h k m (j + 1))) =
            canH P (h - (j + 1))
              (msplit ((h - (j + 1)) + 1) (mres h k m j)).2 := by
          rw [canH_eq_nodeHash, hr'']
        have hbinj : cpv P (h - j) (mres h k m j) =
            (0, 0,
             P (canH P (h - (j + 1))
                 (msplit ((h - (j + 1)) + 1) (mres h k m j)).1)
               (canH P (h - (j + 1))
                 (msplit ((h - (j + 1)) + 1) (mres h k m j)).2) % stp) := by
          rw [hn1, cpv_bin hs1ne hs2ne]
        have hbinj2 : cpv P ((h - (j + 1)) + 1) (mres h k m j) =
            (0, 0,
             P (canH P (h - (j + 1))
                 (msplit ((h - (j + 1)) + 1) (mres h k m j)).1)
               (canH P (h - (j + 1))
                 (msplit ((h - (j + 1)) + 1) (mres h k m j)).2) % stp) := by
          conv_lhs => rw [← hn1]
          exact hbinj
        have hcnj : canNode P (h - j) (mres h k m j) =
            ⟨EmptyPath,
             P (canH P (h - (j + 1))
                 (msplit ((h - (j + 1)) + 1) (mres h k m j)).1)
               (canH P (h - (j + 1))
                 (msplit ((h - (j + 1)) + 1) (mres h k m j)).2) % stp⟩ := by
          unfold canNode
          rw [hbinj]
          rfl
        have hcnj2 : canNode P ((h - (j + 1)) + 1) (mres h k m j) =
            ⟨EmptyPath,
             P (canH P (h - (j + 1))
                 (msplit ((h - (j + 1)) + 1) (mres h k m j)).1)
               (canH P (h - (j + 1))
                 (msplit ((h - (j + 1)) + 1) (mres h k m j)).2) % stp⟩ := by
          conv_lhs => rw [← hn1]
          exact hcnj
        have heq : delBuild P (pathOf h k) sib (j + 1)
            (some (canNode P (h - (j + 1)) (mres h k m (j + 1)))) s =
            delBuild P (pathOf h k) sib j
              (some (⟨EmptyPath,
                P (canH P (h - j - 1) (mopp h k m j))
                  (nodeHash P (canNode P (h - (j + 1))
                    (mres h k m (j + 1)))) % stp⟩ : TrieNode))
              (storeByH
                (storeByP s
                  (P (canH P (h - j - 1) (mopp h k m j))
                    (nodeHash P (canNode P (h - (j + 1))
                      (mres h k m (j + 1)))) % stp)
                  (canH P (h - j - 1) (mopp h k m j))
                  (nodeHash P (canNode P (h - (j + 1)) (mres h k m (j + 1)))))
                (nodeHash P (⟨EmptyPath,
                  P (canH P (h - j - 1) (mopp h k m j))
                    (nodeHash P (canNode P (h - (j + 1))
                      (mres h k m (j + 1)))) % stp⟩ : TrieNode))
                (⟨EmptyPath,
                  P (canH P (h - j - 1) (mopp h k m j))
                    (nodeHash P (canNode P (h - (j + 1))
                      (mres h k m (j + 1)))) % stp⟩ : TrieNode)) := by
          simp only [delBuild, computeP, computeH]
          rw [hsj]
          try dsimp only
          rw [hβ, hbit]
          try rw [if_pos rfl]
          try dsimp only
        have hle1 : s.le (storeByH
            (storeByP s
              (P (canH P (h - j - 1) (mopp h k m j))
                (nodeHash P (canNode P (h - (j + 1))
                  (mres h k m (j + 1)))) % stp)
              (canH P (h - j - 1) (mopp h k m j))
              (nodeHash P (canNode P (h - (j + 1)) (mres h k m (j + 1)))))
            (nodeHash P (⟨EmptyPath,
              P (canH P (h - j - 1) (mopp h k m j))
                (nodeHash P (canNode P (h - (j + 1))
                  (mres h k m (j + 1)))) % stp⟩ : TrieNode))
            (⟨EmptyPath,
              P (canH P (h - j - 1) (mopp h k m j))
                (nodeHash P (canNode P (h - (j + 1))
                  (mres h k m (j + 1)))) % stp⟩ : TrieNode)) :=
          Store.le_trans (storeByP_le _ _ _ _) (storeByH_le _ _ _)
        have hcovj : Covers P (storeByH
            (storeByP s
              (P (canH P (h - j - 1) (mopp h k m j))
                (nodeHash P (canNode P (h - (j + 1))
                  (mres h k m (j + 1)))) % stp)
              (canH P (h - j - 1) (mopp h k m j))
              (nodeHash P (canNode P (h - (j + 1)) (mres h k m (j + 1)))))
            (nodeHash P (⟨EmptyPath,
              P (canH P (h - j - 1) (mopp h k m j))
                (nodeHash P (canNode P (h - (j + 1))
                  (mres h k m (j + 1)))) % stp⟩ : TrieNode))
            (⟨EmptyPath,
              P (canH P (h - j - 1) (mopp h k m j))
                (nodeHash P (canNode P (h - (j + 1))
                  (mres h k m (j + 1)))) % stp⟩ : TrieNode))
            ((h - (j + 1)) + 1) (mres h k m j) := by
          intro hne2
          refine ⟨?_, ?_⟩
          · rw [hcnj2, ← hLeq, ← hReq]
            exact List.mem_cons_self _ _
          · rw [if_neg (by simp [hs2ne]), if_neg (by simp [hs1ne])]
            refine ⟨?_, ?_, ?_⟩
            · rw [hbinj2, ← hLeq, ← hReq]
              exact List.mem_cons_self _ _
            · have hoc := hmop j (by omega) hopp
              rw [ho''] at hoc
              exact Covers_mono hle1 _ _ hoc
            · rw [← hr'']
              exact Covers_mono hle1 _ _ hcov
        have hcovj' : Covers P (storeByH
            (storeByP s
              (P (canH P (h - j - 1) (mopp h k m j))
                (nodeHash P (canNode P (h - (j + 1))
                  (mres h k m (j + 1)))) % stp)
              (canH P (h - j - 1) (mopp h k m j))
              (nodeHash P (canNode P (h - (j + 1)) (mres h k m (j + 1)))))
            (nodeHash P (⟨EmptyPath,
              P (canH P (h - j - 1) (mopp h k m j))
                (nodeHash P (canNode P (h - (j + 1))
                  (mres h k m (j + 1)))) % stp⟩ : TrieNode))
            (⟨EmptyPath,
              P (canH P (h - j - 1) (mopp h k m j))
                (nodeHash P (canNode P (h - (j + 1))
                  (mres h k m (j + 1)))) % stp⟩ : TrieNode))
            (h - j) (mres h k m j) := by
          have h9 := hcovj
          rwa [← hn1] at h9
        obtain ⟨s', he2, hle2, hcend⟩ := ih
          (storeByH
            (storeByP s
              (P (canH P (h - j - 1) (mopp h k m j))
                (nodeHash P (canNode P (h - (j + 1))
                  (mres h k m (j + 1)))) % stp)
              (canH P (h - j - 1) (mopp h k m j))
              (nodeHash P (canNode P (h - (j + 1)) (mres h k m (j + 1)))))
            (nodeHash P (⟨EmptyPath,
              P (canH P (h - j - 1) (mopp h k m j))
                (nodeHash P (canNode P (h - (j + 1))
                  (mres h k m (j + 1)))) % stp⟩ : TrieNode))
            (⟨EmptyPath,
              P (canH P (h - j - 1) (mopp h k m j))
                (nodeHash P (canNode P (h - (j + 1))
                  (mres h k m (j + 1)))) % stp⟩ : TrieNode)) sib
          (by omega) hrj hcovj'
          (fun i hi => hsib i (by omega))
          (fun i hi hne3 => Covers_mono hle1 _ _ (hmop i (by omega) hne3))
        rw [hcnj, ← hLeq, ← hReq] at he2
        refine ⟨s', ?_, Store.le_trans hle1 hle2, hcend⟩
        rw [heq]
        exact he2
      · have hr' : mres h k m (j + 1) = (msplit (h - j) (mres h k m j)).1 := by
          rw [mres_succ, if_neg hbit]
        have ho' : mopp h k m j = (msplit (h - j) (mres h k m j)).2 := by
          unfold mopp
          rw [if_neg hbit]
        have hr'' : mres h k m (j + 1) =
            (msplit ((h - (j + 1)) + 1) (mres h k m j)).1 := by
          rw [← hn1]
          exact hr'
        have ho'' : mopp h k m j =
            (msplit ((h - (j + 1)) + 1) (mres h k m j)).2 := by
          rw [← hn1]
          exact ho'
        have hs1ne : (msplit ((h - (j + 1)) + 1) (mres h k m j)).1 ≠ [] := by
          rw [← hr'']
          exact hne
        have hs2ne : (msplit ((h - (j + 1)) + 1) (mres h k m j)).2 ≠ [] := by
          rw [← ho'']
          exact hopp
        have hLeq : nodeHash P (canNode P (h - (j + 1)) (mres h k m (j + 1))) =
            canH P (h - (j + 1))
              (msplit ((h - (j + 1)) + 1) (mres h k m j)).1 := by
          rw [canH_eq_nodeHash, hr'']
        have hReq : canH P (h - j - 1) (mopp h k m j) =
            canH P (h - (j + 1))
              (msplit ((h - (j + 1)) + 1) (mres h k m j)).2 := by
          rw [ho'', show h - j - 1 = h - (j + 1) by omega]
        have hbinj : cpv P (h - j) (mres h k m j) =
            (0, 0,
             P (canH P (h - (j + 1))
                 (msplit ((h - (j + 1)) + 1) (mres h k m j)).1)
               (canH P (h - (j + 1))
                 (msplit ((h - (j + 1)) + 1) (mres h k m j)).2) % stp) := by
          rw [hn1, cpv_bin hs1ne hs2ne]
        have hbinj2 : cpv P ((h - (j + 1)) + 1) (mres h k m j) =
            (0, 0,
             P (canH P (h - (j + 1))
                 (msplit ((h - (j + 1)) + 1) (mres h k m j)).1)
               (canH P (h - (j + 1))
                 (msplit ((h - (j + 1)) + 1) (mres h k m j)).2) % stp) := by
          conv_lhs => rw [← hn1]
          exact hbinj
        have hcnj : canNode P (h - j) (mres h k m j) =
            ⟨EmptyPath,
             P (canH P (h - (j + 1))
                 (msplit ((h - (j + 1)) + 1) (mres h k m j)).1)
               (canH P (h - (j + 1))
                 (msplit ((h - (j + 1)) + 1) (mres h k m j)).2) % stp⟩ := by
          unfold canNode
          rw [hbinj]
          rfl
        have hcnj2 : canNode P ((h - (j + 1)) + 1) (mres h k m j) =
            ⟨EmptyPath,
             P (canH P (h - (j + 1))
                 (msplit ((h - (j + 1)) + 1) (mres h k m j)).1)
               (canH P (h - (j + 1))
                 (msplit ((h - (j + 1)) + 1) (mres h k m j)).2) % stp⟩ := by
          conv_lhs => rw [← hn1]
          exact hcnj
        have heq : delBuild P (pathOf h k) sib (j + 1)
            (some (canNode P (h - (j + 1)) (mres h k m (j + 1)))) s =
            delBuild P (pathOf h k) sib j
              (some (⟨EmptyPath,
                P (nodeHash P (canNode P (h - (j + 1)) (mres h k m (j + 1))))
                  (canH P (h - j - 1) (mopp h k m j)) % stp⟩ : TrieNode))
              (storeByH
                (storeByP s
                  (P (nodeHash P (canNode P (h - (j + 1))
                      (mres h k m (j + 1))))
                    (canH P (h - j - 1) (mopp h k m j)) % stp)
                  (nodeHash P (canNode P (h - (j + 1)) (mres h k m (j + 1))))
                  (canH P (h - j - 1) (mopp h k m j)))
                (nodeHash P (⟨EmptyPath,
                  P (nodeHash P (canNode P (h - (j + 1))
                      (mres h k m (j + 1))))
                    (canH P (h - j - 1) (mopp h k m j)) % stp⟩ : TrieNode))
                (⟨EmptyPath,
                  P (nodeHash P (canNode P (h - (j + 1))
                      (mres h k m (j + 1))))
                    (canH P (h - j - 1) (mopp h k m j)) % stp⟩ : TrieNode)) := by
          simp only [delBuild, computeP, computeH]
          rw [hsj]
          try dsimp only
          rw [hβ]
          rw [if_neg hbit]
          try dsimp only
        have hle1 : s.le (storeByH
            (storeByP s
              (P (nodeHash P (canNode P (h - (j + 1)) (mres h k m (j + 1))))
                (canH P (h - j - 1) (mopp h k m j)) % stp)
              (nodeHash P (canNode P (h - (j + 1)) (mres h k m (j + 1))))
              (canH P (h - j - 1) (mopp h k m j)))
            (nodeHash P (⟨EmptyPath,
              P (nodeHash P (canNode P (h - (j + 1)) (mres h k m (j + 1))))
                (canH P (h - j - 1) (mopp h k m j)) % stp⟩ : TrieNode))
            (⟨EmptyPath,
              P (nodeHash P (canNode P (h - (j + 1)) (mres h k m (j + 1))))
                (canH P (h - j - 1) (mopp h k m j)) % stp⟩ : TrieNode)) :=
          Store.le_trans (storeByP_le _ _ _ _) (storeByH_le _ _ _)
        have hcovj : Covers P (storeByH
            (storeByP s
              (P (nodeHash P (canNode P (h - (j + 1)) (mres h k m (j + 1))))
                (canH P (h - j - 1) (mopp h k m j)) % stp)
              (nodeHash P (canNode P (h - (j + 1)) (mres h k m (j + 1))))
              (canH P (h - j - 1) (mopp h k m j)))
            (nodeHash P (⟨EmptyPath,
              P (nodeHash P (canNode P (h - (j + 1)) (mres h k m (j + 1))))
                (canH P (h - j - 1) (mopp h k m j)) % stp⟩ : TrieNode))
            (⟨EmptyPath,
              P (nodeHash P (canNode P (h - (j + 1)) (mres h k m (j + 1))))
                (canH P (h - j - 1) (mopp h k m j)) % stp⟩ : TrieNode))
            ((h - (j + 1)) + 1) (mres h k m j) := by
          intro hne2
          refine ⟨?_, ?_⟩
          · rw [hcnj2, ← hLeq, ← hReq]
            exact List.mem_cons_self _ _
          · rw [if_neg (by simp [hs2ne]), if_neg (by simp [hs1ne])]
            refine ⟨?_, ?_, ?_⟩
            · rw [hbinj2, ← hLeq, ← hReq]
              exact List.mem_cons_self _ _
            · rw [← hr'']
              exact Covers_mono hle1 _ _ hcov
            · have hoc := hmop j (by omega) hopp
              rw [ho''] at hoc
              exact Covers_mono hle1 _ _ hoc
        have hcovj' : Covers P (storeByH
            (storeByP s
              (P (nodeHash P (canNode P (h - (j + 1)) (mres h k m (j + 1))))
                (canH P (h - j - 1) (mopp h k m j)) % stp)
              (nodeHash P (canNode P (h - (j + 1)) (mres h k m (j + 1))))
              (canH P (h - j - 1) (mopp h k m j)))
            (nodeHash P (⟨EmptyPath,
              P (nodeHash P (canNode P (h - (j + 1)) (mres h k m (j + 1))))
                (canH P (h - j - 1) (mopp h k m j)) % stp⟩ : TrieNode))
            (⟨EmptyPath,
              P (nodeHash P (canNode P (h - (j + 1)) (mres h k m (j + 1))))
                (canH P (h - j - 1) (mopp h k m j)) % stp⟩ : TrieNode))
            (h - j) (mres h k m j) := by
          have h9 := hcovj
          rwa [← hn1] at h9
        obtain ⟨s', he2, hle2, hcend⟩ := ih
          (storeByH
            (storeByP s
              (P (nodeHash P (canNode P (h - (j + 1)) (mres h k m (j + 1))))
                (canH P (h - j - 1) (mopp h k m j)) % stp)
              (nodeHash P (canNode P (h - (j + 1)) (mres h k m (j + 1))))
              (canH P (h - j - 1) (mopp h k m j)))
            (nodeHash P (⟨EmptyPath,
              P (nodeHash P (canNode P (h - (j + 1)) (mres h k m (j + 1))))
                (canH P (h - j - 1) (mopp h k m j)) % stp⟩ : TrieNode))
            (⟨EmptyPath,
              P (nodeHash P (canNode P (h - (j + 1)) (mres h k m (j + 1))))
                (canH P (h - j - 1) (mopp h k m j)) % stp⟩ : TrieNode)) sib
          (by omega) hrj hcovj'
          (fun i hi => hsib i (by omega))
          (fun i hi hne3 => Covers_mono hle1 _ _ (hmop i (by omega) hne3))
        rw [hcnj, ← hLeq, ← hReq] at he2
        refine ⟨s', ?_, Store.le_trans hle1 hle2, hcend⟩
        rw [heq]
        exact he2

theorem sibSpec_merase {P : Nat → Nat → Nat} {h k : Nat}
    {m : List (Nat × Nat)} (hk : k < 2 ^ h) (hb : ∀ e ∈ m, e.1 < 2 ^ h) :
    ∀ i, sibSpec P h k (merase k m) i = sibSpec P h k m i := by
  intro i
  unfold sibSpec
  by_cases hi : h ≤ i
  · rw [if_pos hi, if_pos hi]
  · rw [if_neg hi, if_neg hi, mopp_merase hk hb i (by omega)]

/-- The ascent of `Delete` before any node exists: it skips empty levels,
materializes the first recorded sibling with the complement bit prepended,
and then rebuilds as usual. The retrieval happens against the untouched
descent store. -/
theorem delBuild_spec_none {P : Nat → Nat → Nat} {S : Store} {h k : Nat}
    {μ : List (Nat × Nat)} (hk : k < 2 ^ h) (hfS : S.hfun) :
    ∀ (j : Nat) (s : Store) (sib : Sib), j ≤ h →
      mres h k μ j = [] →
      (∀ i, i < j → sib i = sibSpec P h k μ i) →
      (∀ i, i < j → mopp h k μ i ≠ [] →
        Covers P s (h - i - 1) (mopp h k μ i)) →
      s.le S →
      ∃ out s', delBuild P (pathOf h k) sib j none s = .ok (out, s') ∧
        out = (if μ.isEmpty then none else some (canNode P h μ)) ∧
        s.le s' ∧ Covers P s' h μ := by
  intro j
  induction j with
  | zero =>
    intro s sib _ hemp _ _ _
    have hμe : μ = [] := hemp
    refine ⟨none, s, rfl, ?_, Store.le_refl s, ?_⟩
    · rw [if_pos (by simp [hμe])]
    · rw [hμe]
      exact Covers_nil P s h
  | succ j ih =>
    intro s sib hj hemp hsib hmop hsS
    have hjh : j < h := by omega
    have hn1 : h - j = (h - (j + 1)) + 1 := by omega
    have hβ : (pathOf h k).get j = k.testBit (h - 1 - j) :=
      pathOf_get_lt j hk
    by_cases hopp : mopp h k μ j = []
    · -- nothing on either side: this level is empty too
      have hsj : sib j = none := by
        rw [hsib j (by omega)]
        unfold sibSpec
        rw [if_neg (by omega), if_pos (by simp [hopp])]
      have hrj : mres h k μ j = [] := by
        by_contra hc
        rcases msplit_ne_nil (h := h - j) hc with h1 | h1
        · by_cases hbit : k.testBit (h - 1 - j)
          · refine h1 ?_
            have ho := hopp
            unfold mopp at ho
            rwa [if_pos hbit] at ho
          · refine h1 ?_
            have he := hemp
            rwa [mres_succ, if_neg hbit] at he
        · by_cases hbit : k.testBit (h - 1 - j)
          · refine h1 ?_
            have he := hemp
            rwa [mres_succ, if_pos hbit] at he
          · refine h1 ?_
            have ho := hopp
            unfold mopp at ho
            rwa [if_neg hbit] at ho
      have heq : delBuild P (pathOf h k) sib (j + 1) none s =
          delBuild P (pathOf h k) sib j none s := by
        simp only [delBuild]
        rw [hsj]
      obtain ⟨out, s', hbeq, hout, hle2, hcend⟩ := ih s sib (by omega) hrj
        (fun i hi => hsib i (by omega))
        (fun i hi hne3 => hmop i (by omega) hne3) hsS
      exact ⟨out, s', by rw [heq]; exact hbeq, hout, hle2, hcend⟩
    · -- first recorded sibling: materialize it with the complement bit
      have hsj : sib j = some (canH P (h - j - 1) (mopp h k μ j)) := by
        rw [hsib j (by omega)]
        unfold sibSpec
        rw [if_neg (by omega), if_neg (by simp [hopp])]
      have hrjne : mres h k μ j ≠ [] :=
        fun hc => hopp (mopp_of_mres_empty hc)
      have hμne : μ ≠ [] := fun hc => hrjne (by rw [hc]; exact mres_nil h k j)
      rcases hdbb : cpv P (h - j - 1) (mopp h k μ j) with ⟨d0, b0, bot0⟩
      have hcn' : canNode P (h - j - 1) (mopp h k μ j) =
          ⟨⟨d0, b0⟩, bot0⟩ := by
        unfold canNode
        rw [hdbb]
      have hdbb' : cpv P (h - (j + 1)) (mopp h k μ j) = (d0, b0, bot0) := by
        rw [show h - (j + 1) = h - j - 1 by omega]
        exact hdbb
      have hb0 : b0 < 2 ^ d0 := by
        have hcb := (cpv_bounds P (h - j - 1) (mopp h k μ j)).2
        rw [hdbb] at hcb
        exact hcb
      have hb0' : b0 < 2 ^ (d0 + 1) :=
        lt_of_lt_of_le hb0 (Nat.pow_le_pow_right (by norm_num) (by omega))
      have hnp : NewPath (d0 + 1) b0 = ⟨d0 + 1, b0⟩ := by
        unfold NewPath
        rw [Nat.mod_eq_of_lt hb0']
      have hcovopp := hmop j (by omega) hopp
      have hret : retrieveByH s (canH P (h - j - 1) (mopp h k μ j)) =
          .ok (⟨⟨d0, b0⟩, bot0⟩ : TrieNode) := by
        rw [← hcn']
        exact retrieveByH_of_mem hsS.1 hfS (Covers_mem hcovopp hopp)
      by_cases hbit : k.testBit (h - 1 - j)
      · -- the deleted key was the 1-side: the sibling is the 0-side
        have hs2e : (msplit (h - j) (mres h k μ j)).2 = [] := by
          have he := hemp
          rwa [mres_succ, if_pos hbit] at he
        have ho' : mopp h k μ j = (msplit (h - j) (mres h k μ j)).1 := by
          unfold mopp
          rw [if_pos hbit]
        have hs2e' : (msplit ((h - (j + 1)) + 1) (mres h k μ j)).2 = [] := by
          rw [← hn1]
          exact hs2e
        have ho'' : mopp h k μ j =
            (msplit ((h - (j + 1)) + 1) (mres h k μ j)).1 := by
          rw [← hn1]
          exact ho'
        have hcpvj : cpv P (h - j) (mres h k μ j) = (d0 + 1, b0, bot0) := by
          rw [hn1, cpv_one0 hs2e', ← ho'', hdbb']
        have hcnj : canNode P (h - j) (mres h k μ j) =
            ⟨⟨d0 + 1, b0⟩, bot0⟩ := by
          unfold canNode
          rw [hcpvj]
        have hcnj2 : canNode P ((h - (j + 1)) + 1) (mres h k μ j) =
            ⟨⟨d0 + 1, b0⟩, bot0⟩ := by
          rw [← hn1]
          exact hcnj
        have hgetk : (pathOf h k).get j = true := by
          rw [hβ]
          exact hbit
        have heq : delBuild P (pathOf h k) sib (j + 1) none s =
            delBuild P (pathOf h k) sib j
              (some (⟨⟨d0 + 1, b0⟩, bot0⟩ : TrieNode))
              (storeByH s
                (nodeHash P (⟨⟨d0 + 1, b0⟩, bot0⟩ : TrieNode))
                (⟨⟨d0 + 1, b0⟩, bot0⟩ : TrieNode)) := by
          simp only [delBuild, computeH]
          rw [hsj]
          try dsimp only
          rw [hret]
          try dsimp only
          try rw [if_pos hgetk]
          try dsimp only
          rw [hnp]
        have hle1 : s.le (storeByH s
            (nodeHash P (⟨⟨d0 + 1, b0⟩, bot0⟩ : TrieNode))
            (⟨⟨d0 + 1, b0⟩, bot0⟩ : TrieNode)) :=
          storeByH_le _ _ _
        have hcovj : Covers P (storeByH s
            (nodeHash P (⟨⟨d0 + 1, b0⟩, bot0⟩ : TrieNode))
            (⟨⟨d0 + 1, b0⟩, bot0⟩ : TrieNode))
            ((h - (j + 1)) + 1) (mres h k μ j) := by
          intro hne2
          refine ⟨?_, ?_⟩
          · rw [hcnj2]
            exact List.mem_cons_self _ _
          · rw [if_pos (by simp [hs2e'])]
            rw [← ho'']
            exact Covers_mono hle1 _ _ hcovopp
        have hcovj' : Covers P (storeByH s
            (nodeHash P (⟨⟨d0 + 1, b0⟩, bot0⟩ : TrieNode))
            (⟨⟨d0 + 1, b0⟩, bot0⟩ : TrieNode)) (h - j) (mres h k μ j) := by
          have h9 := hcovj
          rwa [← hn1] at h9
        obtain ⟨s', he2, hle2, hcend⟩ := delBuild_spec_some (m := μ) hk j
          (storeByH s
            (nodeHash P (⟨⟨d0 + 1, b0⟩, bot0⟩ : TrieNode))
            (⟨⟨d0 + 1, b0⟩, bot0⟩ : TrieNode)) sib
          (by omega) hrjne hcovj'
          (fun i hi => hsib i (by omega))
          (fun i hi hne3 => Covers_mono hle1 _ _ (hmop i (by omega) hne3))
        rw [hcnj] at he2
        refine ⟨some (canNode P h μ), s', ?_, ?_,
          Store.le_trans hle1 hle2, hcend⟩
        · rw [heq]
          exact he2
        · rw [if_neg (by simp [hμne])]
      · -- the deleted key was the 0-side: the sibling is the 1-side
        have hs1e : (msplit (h - j) (mres h k μ j)).1 = [] := by
          have he := hemp
          rwa [mres_succ, if_neg hbit] at he
        have ho' : mopp h k μ j = (msplit (h - j) (mres h k μ j)).2 := by
          unfold mopp
          rw [if_neg hbit]
        have hs1e' : (msplit ((h - (j + 1)) + 1) (mres h k μ j)).1 = [] := by
          rw [← hn1]
          exact hs1e
        have ho'' : mopp h k μ j =
            (msplit ((h - (j + 1)) + 1) (mres h k μ j)).2 := by
          rw [← hn1]
          exact ho'
        have hs2ne : (msplit ((h - (j + 1)) + 1) (mres h k μ j)).2 ≠ [] := by
          rw [← ho'']
          exact hopp
        have hcpvj : cpv P (h - j) (mres h k μ j) =
            (d0 + 1, 2 ^ d0 + b0, bot0) := by
          rw [hn1, cpv_one1 hs2ne hs1e', ← ho'', hdbb']
        have hcnj : canNode P (h - j) (mres h k μ j) =
            ⟨⟨d0 + 1, 2 ^ d0 + b0⟩, bot0⟩ := by
          unfold canNode
          rw [hcpvj]
        have hcnj2 : canNode P ((h - (j + 1)) + 1) (mres h k μ j) =
            ⟨⟨d0 + 1, 2 ^ d0 + b0⟩, bot0⟩ := by
          rw [← hn1]
          exact hcnj
        have hset : (NewPath (d0 + 1) b0).set 0 = ⟨d0 + 1, 2 ^ d0 + b0⟩ := by
          rw [hnp]
          unfold Path.set
          dsimp only
          rw [show d0 + 1 - 1 - 0 = d0 by omega, lor_two_pow_of_lt hb0]
        have hgetk : ¬ ((pathOf h k).get j = true) := by
          rw [hβ]
          simp [hbit]
        have heq : delBuild P (pathOf h k) sib (j + 1) none s =
            delBuild P (pathOf h k) sib j
              (some (⟨⟨d0 + 1, 2 ^ d0 + b0⟩, bot0⟩ : TrieNode))
              (storeByH s
                (nodeHash P (⟨⟨d0 + 1, 2 ^ d0 + b0⟩, bot0⟩ : TrieNode))
                (⟨⟨d0 + 1, 2 ^ d0 + b0⟩, bot0⟩ : TrieNode)) := by
          simp only [delBuild, computeH]
          rw [hsj]
          try dsimp only
          rw [hret]
          try dsimp only
          rw [if_neg hgetk]
          try dsimp only
          rw [hset]
        have hle1 : s.le (storeByH s
            (nodeHash P (⟨⟨d0 + 1, 2 ^ d0 + b0⟩, bot0⟩ : TrieNode))
            (⟨⟨d0 + 1, 2 ^ d0 + b0⟩, bot0⟩ : TrieNode)) :=
          storeByH_le _ _ _
        have hcovj : Covers P (storeByH s
            (nodeHash P (⟨⟨d0 + 1, 2 ^ d0 + b0⟩, bot0⟩ : TrieNode))
            (⟨⟨d0 + 1, 2 ^ d0 + b0⟩, bot0⟩ : TrieNode))
            ((h - (j + 1)) + 1) (mres h k μ j) := by
          intro hne2
          refine ⟨?_, ?_⟩
          · rw [hcnj2]
            exact List.mem_cons_self _ _
          · rw [if_neg (by simp [hs2ne]), if_pos (by simp [hs1e'])]
            rw [← ho'']
            exact Covers_mono hle1 _ _ hcovopp
        have hcovj' : Covers P (storeByH s
            (nodeHash P (⟨⟨d0 + 1, 2 ^ d0 + b0⟩, bot0⟩ : TrieNode))
            (⟨⟨d0 + 1, 2 ^ d0 + b0⟩, bot0⟩ : TrieNode)) (h - j)
            (mres h k μ j) := by
          have h9 := hcovj
          rwa [← hn1] at h9
        obtain ⟨s', he2, hle2, hcend⟩ := delBuild_spec_some (m := μ) hk j
          (storeByH s
            (nodeHash P (⟨⟨d0 + 1, 2 ^ d0 + b0⟩, bot0⟩ : TrieNode))
            (⟨⟨d0 + 1, 2 ^ d0 + b0⟩, bot0⟩ : TrieNode)) sib
          (by omega) hrjne hcovj'
          (fun i hi => hsib i (by omega))
          (fun i hi hne3 => Covers_mono hle1 _ _ (hmop i (by omega) hne3))
        rw [hcnj] at he2
        refine ⟨some (canNode P h μ), s', ?_, ?_,
          Store.le_trans hle1 hle2, hcend⟩
        · rw [heq]
          exact he2
        · rw [if_neg (by simp [hμne])]

/-- `Trie.Delete` refines `merase` on a key present in the canonical map. -/
theorem delete_rep {P : Nat → Nat → Nat} {S : Store} {t : Trie}
    {m : List (Nat × Nat)} {k v : Nat}
    (hk : k < 2 ^ t.height) (hwf : MapWF t.height m)
    (hlk : m.lookup k = some v)
    (hfS : S.hfun) (hpS : S.pfun) (hnz : S.pnz) (hsub : t.store.le S)
    (hrep : Rep P t m) :
    ∃ t', t.delete P k = .ok t' ∧ t'.height = t.height ∧
      t.store.le t'.store ∧ Rep P t' (merase k m) := by
  have hmne : m ≠ [] := by
    intro hc
    rw [hc] at hlk
    cases hlk
  have hroot : t.root = some (canNode P t.height m) := by
    rw [hrep.1, if_neg (by simp [hmne])]
  obtain ⟨sibR, hdeq, hprops⟩ := delGo_spec (S := S) hk hwf.2 hwf.1 hlk
    hfS hpS hnz hsub (t.height + 1) 0 Sib.empty (by omega) (by omega)
    hrep.2 (fun _ _ => rfl)
  have hdeq' : delGo P t.store (pathOf t.height k) t.height
      (t.height + 1) 0 (some (canNode P t.height m)) Sib.empty =
      .ok (some (canNode P (t.height - t.height)
        (mres t.height k m t.height)), sibR) := hdeq
  have hsibR : ∀ i, i < t.height → sibR i = sibSpec P t.height k m i := by
    intro i hi
    rw [hprops i hi, if_neg (by omega)]
  have hfull : mres t.height k m t.height = [(0, v)] :=
    mres_full_of_some hk hwf.2 hwf.1 hlk
  have hememp : mres t.height k (merase k m) t.height = [] := by
    rw [mres_merase hk hwf.2 t.height (Nat.le_refl _), hfull,
      Nat.sub_self, pow_zero, Nat.mod_one]
    rfl
  obtain ⟨out, s', hbeq, hout, hle2, hcend⟩ :=
    delBuild_spec_none (μ := merase k m) (S := S) hk hfS t.height t.store
    sibR (Nat.le_refl _) hememp
    (fun i hi => by
      rw [hsibR i hi]
      exact (sibSpec_merase hk hwf.2 i).symm)
    (fun i hi hne3 => by
      rw [mopp_merase hk hwf.2 i hi]
      rw [mopp_merase hk hwf.2 i hi] at hne3
      exact Covers_mopp hrep.2 i hi) hsub
  refine ⟨⟨out, s', t.height⟩, ?_, rfl, hle2, ?_, ?_⟩
  · simp only [Trie.delete]
    rw [hroot, hdeq']
    try dsimp only
    rw [hbeq]
  · exact hout
  · exact hcend

theorem buildLoop_store_le (P : Nat → Nat → Nat) (path : Path) (sib : Sib) :
    ∀ (j : Nat) (curr : TrieNode) (s : Store),
      s.le (buildLoop P path sib j curr s).2 := by
  intro j
  induction j with
  | zero => intro curr s; exact Store.le_refl s
  | succ j ih =>
    intro curr s
    rcases hsj : sib j with _ | x
    · simp only [buildLoop, computeH]
      rw [hsj]
      try dsimp only
      exact Store.le_trans (storeByH_le _ _ _) (ih _ _)
    · by_cases hbit : path.get j = true
      · simp only [buildLoop, computeP, computeH]
        rw [hsj]
        try dsimp only
        rw [if_pos hbit]
        try dsimp only
        exact Store.le_trans
          (Store.le_trans (storeByP_le _ _ _ _) (storeByH_le _ _ _)) (ih _ _)
      · simp only [buildLoop, computeP, computeH]
        rw [hsj]
        try dsimp only
        rw [if_neg hbit]
        try dsimp only
        exact Store.le_trans
          (Store.le_trans (storeByP_le _ _ _ _) (storeByH_le _ _ _)) (ih _ _)

/-- A successful `Put` only ever adds store entries. -/
theorem put_store_le {P : Nat → Nat → Nat} {t t' : Trie} {k v : Nat}
    (h : t.put P k v = .ok t') : t.store.le t'.store := by
  unfold Trie.put at h
  dsimp only at h
  rcases hpg : putGo P t.store (pathOf t.height k) t.height (t.height + 1) 0
      t.root Sib.empty with e | sib
  · rw [hpg] at h
    cases h
  · rw [hpg] at h
    rcases hbl : buildLoop P (pathOf t.height k) sib t.height
        ⟨EmptyPath, v⟩ (computeH P t.store ⟨EmptyPath, v⟩).2 with ⟨root', s2⟩
    simp only at h
    rw [hbl] at h
    simp only at h
    cases h
    have h1 := buildLoop_store_le P (pathOf t.height k) sib t.height
      ⟨EmptyPath, v⟩ (computeH P t.store ⟨EmptyPath, v⟩).2
    rw [hbl] at h1
    exact Store.le_trans (storeByH_le _ _ _) h1

theorem putList_store_le {P : Nat → Nat → Nat} :
    ∀ (l : List (Nat × Nat)) (t t' : Trie),
      putList P l t = .ok t' → t.store.le t'.store := by
  intro l
  induction l with
  | nil =>
    intro t t' h
    cases h
    exact Store.le_refl _
  | cons e rest ih =>
    intro t t' h
    obtain ⟨a, b⟩ := e
    simp only [putList] at h
    rcases hput : t.put P a b with er | t1
    · rw [hput] at h
      cases h
    · rw [hput] at h
      exact Store.le_trans (put_store_le hput) (ih t1 t' h)

/-- Folding a list of puts through a represented trie represents the fold
of `minsert`. -/
theorem putList_rep {P : Nat → Nat → Nat} {S : Store}
    (hfS : S.hfun) (hpS : S.pfun) (hnz : S.pnz) :
    ∀ (l : List (Nat × Nat)) (t t' : Trie) (m : List (Nat × Nat)),
      (∀ e ∈ l, e.1 < 2 ^ t.height) → MapWF t.height m →
      Rep P t m → putList P l t = .ok t' → t'.store.le S →
      Rep P t' (l.foldl (fun acc e => minsert e.1 e.2 acc) m) ∧
        t'.height = t.height := by
  intro l
  induction l with
  | nil =>
    intro t t' m _ _ hrep h _
    cases h
    exact ⟨hrep, rfl⟩
  | cons e rest ih =>
    intro t t' m hbl hwf hrep h hleS
    obtain ⟨a, b⟩ := e
    simp only [putList] at h
    rcases hput : t.put P a b with er | t1
    · rw [hput] at h
      cases h
    · rw [hput] at h
      have hsub : t.store.le S :=
        Store.le_trans (put_store_le hput)
          (Store.le_trans (putList_store_le rest t1 t' h) hleS)
      have hka : a < 2 ^ t.height := hbl (a, b) (List.mem_cons_self _ _)
      obtain ⟨t1', he, hh, _, hrep1⟩ := put_rep (S := S) hka hwf hfS hpS hnz
        hsub hrep
      rw [hput] at he
      injection he with he2
      subst he2
      have hwf1 : MapWF t1.height (minsert a b m) := by
        rw [hh]
        exact ⟨minsert_keys_nodup hwf.1, minsert_bound hwf.2 hka⟩
      have hbl1 : ∀ e ∈ rest, e.1 < 2 ^ t1.height := by
        intro e he3
        rw [hh]
        exact hbl e (List.mem_cons_of_mem _ he3)
      obtain ⟨hrepf, hhf⟩ := ih t1 t' (minsert a b m) hbl1 hwf1 hrep1 h hleS
      exact ⟨hrepf, by rw [hhf, hh]⟩

/-- Inserting a fresh key appends it at the end of the association list. -/
theorem minsert_append {k v : Nat} {m : List (Nat × Nat)}
    (hlk : m.lookup k = none) : minsert k v m = m ++ [(k, v)] := by
  induction m with
  | nil => rfl
  | cons e tl ih =>
    obtain ⟨a, b⟩ := e
    simp only [List.lookup] at hlk
    rcases hbeq : (k == a) with _ | _
    · rw [hbeq] at hlk
      simp only at hlk
      have hne : a ≠ k := by
        intro hc
        rw [hc] at hbeq
        simp at hbeq
      unfold minsert
      rw [if_neg hne, ih hlk]
      rfl
    · rw [hbeq] at hlk
      simp at hlk

/-- Deleting a freshly inserted key restores the original map. -/
theorem merase_minsert {k v : Nat} {m : List (Nat × Nat)}
    (hlk : m.lookup k = none) : merase k (minsert k v m) = m := by
  induction m with
  | nil => simp [minsert, merase]
  | cons e tl ih =>
    obtain ⟨a, b⟩ := e
    simp only [List.lookup] at hlk
    rcases hbeq : (k == a) with _ | _
    · rw [hbeq] at hlk
      simp only at hlk
      have hne : a ≠ k := by
        intro hc
        rw [hc] at hbeq
        simp at hbeq
      unfold minsert
      rw [if_neg hne]
      unfold merase
      rw [if_neg hne, ih hlk]
    · rw [hbeq] at hlk
      simp at hlk

/-- The root hash of a represented trie is the canonical root of its map. -/
theorem rootHash_rep {P : Nat → Nat → Nat} {t : Trie}
    {m : List (Nat × Nat)} (hrep : Rep P t m) :
    t.rootHash P = canRoot P t.height m := by
  unfold Trie.rootHash canRoot
  rw [hrep.1]
  by_cases hm : m.isEmpty
  · rw [if_pos hm, if_pos hm]
  · rw [if_neg hm, if_neg hm]
    rfl

/-- The loop of `Get` hands the store through unchanged and computes the
same answer as the store-less loop. -/
theorem getGoSt_frame (path : Path) (height : Nat) :
    ∀ (fuel w : Nat) (curr : TrieNode) (s : Store),
      getGoSt path height fuel w curr s =
        (getGo s path height fuel w curr, s) := by
  intro fuel
  induction fuel with
  | zero => intro w curr s; rfl
  | succ fuel ih =>
    intro w curr s
    simp only [getGoSt, getGo]
    by_cases hw : w < height
    · rw [if_pos hw, if_pos hw]
      by_cases hlen : curr.path.len = 0
      · rw [if_pos hlen, if_pos hlen]
        by_cases hbot : curr.bottom = 0
        · rw [if_pos hbot, if_pos hbot]
        · rw [if_neg hbot, if_neg hbot]
          rcases hrp : retrieveByP s curr.bottom with e | ⟨leftH, rightH⟩
          · rfl
          · try dsimp only
            rcases hrh : retrieveByH s
                (if path.get w then rightH else leftH) with e | n
            · rfl
            · exact ih (w + 1) n s
      · rw [if_neg hlen, if_neg hlen]
        by_cases hlcp : curr.path.longestCommonPrefix (path.walked w) =
            curr.path.len
        · rw [if_pos hlcp, if_pos hlcp]
          exact ih (w + curr.path.len) ⟨EmptyPath, curr.bottom⟩ s
        · rw [if_neg hlcp, if_neg hlcp]
    · rw [if_neg hw, if_neg hw]

theorem msplit_eq_filter (n : Nat) :
    ∀ m : List (Nat × Nat),
      msplit n m =
        (m.filter (fun e => decide (e.1 < 2 ^ (n - 1))),
         (m.filter (fun e => !decide (e.1 < 2 ^ (n - 1)))).map
           (fun e => (e.1 - 2 ^ (n - 1), e.2))) := by
  intro m
  induction m with
  | nil => rfl
  | cons e tl ih =>
    obtain ⟨a, b⟩ := e
    rw [msplit_cons, ih]
    by_cases hk : a < 2 ^ (n - 1)
    · rw [if_pos hk]
      simp [List.filter_cons, hk]
    · rw [if_neg hk]
      simp [List.filter_cons, hk]

/-- `msplit` sends permutations to permutations of both halves. -/
theorem msplit_perm {n : Nat} {m m' : List (Nat × Nat)} (hp : m.Perm m') :
    (msplit n m).1.Perm (msplit n m').1 ∧
      (msplit n m).2.Perm (msplit n m').2 := by
  rw [msplit_eq_filter, msplit_eq_filter]
  exact ⟨hp.filter _, (hp.filter _).map _⟩

/-- The canonical node of a well-formed map is permutation-invariant: the
root depends only on the key/value function. -/
theorem cpv_perm {P : Nat → Nat → Nat} :
    ∀ (n : Nat) {m m' : List (Nat × Nat)}, m.Perm m' →
      (∀ e ∈ m, e.1 < 2 ^ n) → (mkeys m).Nodup →
      cpv P n m = cpv P n m' := by
  intro n
  induction n with
  | zero =>
    intro m m' hp hb hn
    match m, hp, hb, hn with
    | [], hp, _, _ =>
      have h0 : m' = [] := by
        have hl := hp.length_eq
        simpa using (List.length_eq_zero.mp hl.symm)
      rw [h0]
    | [e], hp, _, _ =>
      have h0 : m' = [e] := List.perm_singleton.mp hp.symm
      rw [h0]
    | e :: f :: tl, hp, hb, hn =>
      have he : e.1 = 0 := by
        have := hb e (List.mem_cons_self _ _)
        simpa using this
      have hf : f.1 = 0 := by
        have := hb f (List.mem_cons_of_mem _ (List.mem_cons_self _ _))
        simpa using this
      simp only [mkeys, List.map_cons, List.nodup_cons, List.mem_cons] at hn
      exact absurd (Or.inl (he.trans hf.symm)) hn.1
  | succ g ihg =>
    intro m m' hp hb hn
    obtain ⟨hp1, hp2⟩ := msplit_perm (n := g + 1) hp
    have hb1 : ∀ e ∈ (msplit (g + 1) m).1, e.1 < 2 ^ g := by
      intro e he
      have := msplit_fst_bound e he
      simpa using this
    have hb2 : ∀ e ∈ (msplit (g + 1) m).2, e.1 < 2 ^ g := by
      intro e he
      have := msplit_snd_bound hb (by omega) e he
      simpa using this
    have hn1 := msplit_fst_keys_nodup (h := g + 1) hn
    have hn2 := msplit_snd_keys_nodup (h := g + 1) hn
    have he1 := ihg hp1 hb1 hn1
    have he2 := ihg hp2 hb2 hn2
    by_cases h2 : (msplit (g + 1) m).2 = []
    · have h2' : (msplit (g + 1) m').2 = [] := by
        have hl := hp2.length_eq
        rw [h2] at hl
        simpa using (List.length_eq_zero.mp hl.symm)
      rw [cpv_one0 h2, cpv_one0 h2', he1]
    · have h2' : (msplit (g + 1) m').2 ≠ [] := by
        intro hc
        have hl := hp2.length_eq
        rw [hc] at hl
        exact h2 (List.length_eq_zero.mp hl)
      by_cases h1 : (msplit (g + 1) m).1 = []
      · have h1' : (msplit (g + 1) m').1 = [] := by
          have hl := hp1.length_eq
          rw [h1] at hl
          simpa using (List.length_eq_zero.mp hl.symm)
        rw [cpv_one1 h2 h1, cpv_one1 h2' h1', he2]
      · have h1' : (msplit (g + 1) m').1 ≠ [] := by
          intro hc
          have hl := hp1.length_eq
          rw [hc] at hl
          exact h1 (List.length_eq_zero.mp hl)
        rw [cpv_bin h1 h2, cpv_bin h1' h2']
        unfold canH canNode
        rw [he1, he2]

/-- The canonical root hash is permutation-invariant on well-formed maps. -/
theorem canRoot_perm {P : Nat → Nat → Nat} {n : Nat}
    {m m' : List (Nat × Nat)} (hp : m.Perm m')
    (hb : ∀ e ∈ m, e.1 < 2 ^ n) (hn : (mkeys m).Nodup) :
    canRoot P n m = canRoot P n m' := by
  unfold canRoot
  by_cases hm : m = []
  · have h0 : m' = [] := by
      have hl := hp.length_eq
      rw [hm] at hl
      simpa using (List.length_eq_zero.mp hl.symm)
    rw [hm, h0]
  · have h0 : m' ≠ [] := by
      intro hc
      have hl := hp.length_eq
      rw [hc] at hl
      exact hm (List.length_eq_zero.mp hl)
    rw [if_neg (by simp [hm]), if_neg (by simp [h0])]
    unfold canH canNode
    rw [cpv_perm _ hp hb hn]

/-- Folding distinct fresh keys through `minsert` appends them in order. -/
theorem foldl_minsert_append :
    ∀ (l acc : List (Nat × Nat)), (mkeys (acc ++ l)).Nodup →
      l.foldl (fun acc2 e => minsert e.1 e.2 acc2) acc = acc ++ l := by
  intro l
  induction l with
  | nil =>
    intro acc _
    simp
  | cons e rest ih =>
    intro acc hn
    obtain ⟨a, b⟩ := e
    have hmem : a ∉ mkeys acc := by
      intro hc
      have : (mkeys (acc ++ (a, b) :: rest)).Nodup := hn
      rw [show mkeys (acc ++ (a, b) :: rest) =
          mkeys acc ++ a :: mkeys rest by simp [mkeys]] at this
      have hd := List.disjoint_of_nodup_append this
      exact hd hc (List.mem_cons_self _ _)
    have hstep : minsert a b acc = acc ++ [(a, b)] :=
      minsert_append (lookup_eq_none_of_not_mem_keys hmem)
    have hn2 : (mkeys ((acc ++ [(a, b)]) ++ rest)).Nodup := by
      have : acc ++ (a, b) :: rest = (acc ++ [(a, b)]) ++ rest := by simp
      rwa [this] at hn
    calc ((a, b) :: rest).foldl (fun acc2 e => minsert e.1 e.2 acc2) acc
        = rest.foldl (fun acc2 e => minsert e.1 e.2 acc2) (minsert a b acc) :=
          rfl
      _ = rest.foldl (fun acc2 e => minsert e.1 e.2 acc2) (acc ++ [(a, b)]) :=
          by rw [hstep]
      _ = (acc ++ [(a, b)]) ++ rest := ih _ hn2
      _ = acc ++ (a, b) :: rest := by simp

theorem foldl_minsert_self {l : List (Nat × Nat)}
    (hn : (mkeys l).Nodup) :
    l.foldl (fun acc e => minsert e.1 e.2 acc) [] = l := by
  have := foldl_minsert_append l [] (by simpa using hn)
  simpa using this

/-! ## The synchronizer's state update (`pkg/db/kvStorer.go` lines 416-503)

`Synchronizer.updateState` opens a transaction on the key-value store,
applies the diff by a sequence of `stateTrie.Put` calls (one per deployed
contract and one per storage-diff entry, each with a precomputed
contract-state value), computes the state commitment, and on a mismatch
with the provided root calls `Rollback()` and panics; otherwise it
commits. The model reduces the two loops to the list of `(address,
contractStateValue)` puts they issue and keeps the transaction semantics:
the trie writes go to a copy of the committed store, which replaces the
committed store only on commit. The `SetString`-failure panics of the
source (malformed hex input) cannot arise over `Nat` inputs and are not
modelled. -/

inductive SyncErr where
  | rootMismatch
  | trieError
  deriving Repr, DecidableEq

/-- The synchronizer's durable state: the committed node store, the
in-memory state-trie root, and the trie height. -/
structure Sync where
  db : Store
  stateRoot : Option TrieNode
  height : Nat
  deriving Repr, DecidableEq

/-- `Synchronizer.updateState` (`kvStorer.go` line 416): `Begin`; apply the
diff's puts to the state trie through the transaction; compare the
commitment with the provided root; `Rollback` and fail on mismatch, else
`Commit`. The returned `Sync` is the post-call durable state. -/
def syncUpdateState (P : Nat → Nat → Nat) (s : Sync)
    (update : List (Nat × Nat)) (stateRoot : Option Nat) :
    Option SyncErr × Sync :=
  match putList P update ⟨s.stateRoot, s.db, s.height⟩ with
  | .error _ => (some .trieError, s)
  | .ok t1 =>
    match stateRoot with
    | some r =>
      if t1.rootHash P = r then (none, ⟨t1.store, t1.root, s.height⟩)
      else (some .rootMismatch, s)
    | none => (none, ⟨t1.store, t1.root, s.height⟩)

/-! ## `updateNumericValueFromDB` (`pkg/starknet/utils.go` lines 153-164)

The database value is the 8-byte big-endian encoding produced by
`binary.BigEndian.PutUint64(b, value+1)`; the `uint64` sum wraps. The
key-value database is an association list of string keys to byte lists,
written cons-front. -/

/-- The 8 bytes of `binary.BigEndian.PutUint64` for a value `< 2^64`. -/
def be8 (v : Nat) : List Nat :=
  [v / 2 ^ 56 % 256, v / 2 ^ 48 % 256, v / 2 ^ 40 % 256, v / 2 ^ 32 % 256,
   v / 2 ^ 24 % 256, v / 2 ^ 16 % 256, v / 2 ^ 8 % 256, v % 256]

/-- The well-known key of `kvStorer.go` line 70. -/
def latestBlockSyncedKey : String := "latestBlockSynced"

/-- `updateNumericValueFromDB` (`utils.go` line 154): store, under `key`,
the big-endian encoding of `value+1` (the `uint64` increment wraps). -/
def updateNumericValueFromDB (database : List (String × List Nat))
    (key : String) (value : Nat) : List (String × List Nat) :=
  (key, be8 ((value + 1) % 2 ^ 64)) :: database

/-! ## Reachability of nodes through the store

A node is reachable when some `Get` traversal can visit it: start at the
root with the full height; at a binary node follow either child hash
through the Pedersen pair and the node table; at an edge node consume the
whole edge. -/

inductive Reach (s : Store) (h0 : Nat) (root : TrieNode) :
    Nat → TrieNode → Prop where
  | base : Reach s h0 root h0 root
  | left {hgt : Nat} {n : TrieNode} {leftH rightH : Nat} {nl : TrieNode} :
      Reach s h0 root hgt n → 0 < hgt → n.path.len = 0 →
      s.pmap.lookup n.bottom = some (leftH, rightH) →
      s.hmap.lookup leftH = some nl → Reach s h0 root (hgt - 1) nl
  | right {hgt : Nat} {n : TrieNode} {leftH rightH : Nat} {nr : TrieNode} :
      Reach s h0 root hgt n → 0 < hgt → n.path.len = 0 →
      s.pmap.lookup n.bottom = some (leftH, rightH) →
      s.hmap.lookup rightH = some nr → Reach s h0 root (hgt - 1) nr
  | edge {hgt : Nat} {n : TrieNode} :
      Reach s h0 root hgt n → n.path.len ≠ 0 →
      Reach s h0 root (hgt - n.path.len) ⟨EmptyPath, n.bottom⟩

/-- Walking a whole canonical edge of length `j` lands on the canonical
node of a deeper submap. -/
theorem edge_collapse {P : Nat → Nat → Nat} {s : Store} :
    ∀ (j n : Nat) (r : List (Nat × Nat)),
      r ≠ [] → Covers P s n r → j ≤ (cpv P n r).1 →
      ∃ r', r' ≠ [] ∧ Covers P s (n - j) r' ∧
        cpv P (n - j) r' =
          ((cpv P n r).1 - j,
           (cpv P n r).2.1 % 2 ^ ((cpv P n r).1 - j),
           (cpv P n r).2.2) := by
  intro j
  induction j with
  | zero =>
    intro n r hne hcov _
    refine ⟨r, hne, hcov, ?_⟩
    rw [Nat.sub_zero, Nat.sub_zero,
      Nat.mod_eq_of_lt (cpv_bounds P n r).2]
  | succ j ih =>
    intro n r hne hcov hdle
    have hn : 0 < n := by
      have := (cpv_bounds P n r).1
      omega
    have hstep := cpv_edge_step (P := P) hn hne (by omega)
    have hsucc : n = (n - 1) + 1 := by omega
    rcases hstep with ⟨hs2, hs1, _, hcpv1⟩ | ⟨hs1, hs2, _, hcpv1⟩
    · have hcov1 : Covers P s (n - 1) (msplit n r).1 := by
        rw [hsucc] at hcov
        have hcf := Covers_fst hcov
        rwa [← hsucc] at hcf
      obtain ⟨r', hr1, hr2, hr3⟩ := ih (n - 1) (msplit n r).1 hs1 hcov1
        (by rw [hcpv1]; simp only; omega)
      refine ⟨r', hr1, by rwa [show n - 1 - j = n - (j + 1) by omega] at hr2,
        ?_⟩
      rw [show n - 1 - j = n - (j + 1) by omega] at hr3
      rw [hr3, hcpv1]
      simp only
      rw [show (cpv P n r).1 - 1 - j = (cpv P n r).1 - (j + 1) by omega,
        mod_mod_pow (show (cpv P n r).1 - (j + 1) ≤ (cpv P n r).1 - 1 by
          omega)]
    · have hcov1 : Covers P s (n - 1) (msplit n r).2 := by
        rw [hsucc] at hcov
        have hcf := Covers_snd hcov
        rwa [← hsucc] at hcf
      obtain ⟨r', hr1, hr2, hr3⟩ := ih (n - 1) (msplit n r).2 hs2 hcov1
        (by rw [hcpv1]; simp only; omega)
      refine ⟨r', hr1, by rwa [show n - 1 - j = n - (j + 1) by omega] at hr2,
        ?_⟩
      rw [show n - 1 - j = n - (j + 1) by omega] at hr3
      rw [hr3, hcpv1]
      simp only
      rw [show (cpv P n r).1 - 1 - j = (cpv P n r).1 - (j + 1) by omega,
        mod_mod_pow (show (cpv P n r).1 - (j + 1) ≤ (cpv P n r).1 - 1 by
          omega)]

/-- Every node reachable from the canonical root of a covered map is the
canonical node of a covered nonempty submap at its height. -/
theorem Reach_canonical {P : Nat → Nat → Nat} {s S : Store} {h : Nat}
    {m : List (Nat × Nat)}
    (hfS : S.hfun) (hpS : S.pfun) (hnz : S.pnz) (hsub : s.le S)
    (hm : m ≠ []) (hcov : Covers P s h m) :
    ∀ {hgt : Nat} {n : TrieNode}, Reach s h (canNode P h m) hgt n →
      ∃ r, r ≠ [] ∧ Covers P s hgt r ∧ n = canNode P hgt r := by
  intro hgt n hre
  induction hre with
  | base => exact ⟨m, hm, hcov, rfl⟩
  | left hre hpos hlen hlkp hlkh ih =>
    rename_i hg nn leftH rightH nl0
    obtain ⟨r, hrne, hrcov, hn⟩ := ih
    rcases hdbb : cpv P hg r with ⟨d, b, bot⟩
    have hd0 : d = 0 := by
      have h1 : (canNode P hg r).path.len = (cpv P hg r).1 := rfl
      rw [hn, h1, hdbb] at hlen
      exact hlen
    subst hd0
    obtain ⟨h0, h1, hbotnz, hretP, hcov0, hcov1, hretH0, hretH1⟩ :=
      binary_node_facts (P := P) (h := hg) (k := 0) (w := 0) (m := r)
        hfS hpS hnz hsub hpos hrne hrcov hdbb
    simp only [Nat.sub_zero, Nat.zero_add, mres_zero] at h0 h1 hretP hcov0 hcov1 hretH0 hretH1
    have hnb : nn.bottom = bot := by
      rw [hn]
      show (cpv P hg r).2.2 = bot
      rw [hdbb]
    have hlkp2 : s.pmap.lookup bot =
        some (canH P (hg - 1) (msplit hg r).1,
              canH P (hg - 1) (msplit hg r).2) := by
      unfold retrieveByP at hretP
      rcases hl2 : s.pmap.lookup bot with _ | ab
      · rw [hl2] at hretP
        cases hretP
      · rw [hl2] at hretP
        injection hretP with hretP2
        rw [hretP2]
    rw [hnb, hlkp2] at hlkp
    injection hlkp with hlkp3
    have hlH : leftH = canH P (hg - 1) (msplit hg r).1 :=
      congrArg Prod.fst hlkp3.symm
    have hlk4 : s.hmap.lookup leftH =
        some (canNode P (hg - 1) (msplit hg r).1) := by
      rw [hlH]
      unfold retrieveByH at hretH0
      rcases hl2 : s.hmap.lookup (canH P (hg - 1) (msplit hg r).1)
          with _ | nn2
      · rw [hl2] at hretH0
        cases hretH0
      · rw [hl2] at hretH0
        injection hretH0 with hretH2
        rw [hretH2]
    rw [hlk4] at hlkh
    injection hlkh with hlkh2
    exact ⟨(msplit hg r).1, h0, hcov0, hlkh2.symm⟩
  | right hre hpos hlen hlkp hlkh ih =>
    rename_i hg nn leftH rightH nr0
    obtain ⟨r, hrne, hrcov, hn⟩ := ih
    rcases hdbb : cpv P hg r with ⟨d, b, bot⟩
    have hd0 : d = 0 := by
      have h1 : (canNode P hg r).path.len = (cpv P hg r).1 := rfl
      rw [hn, h1, hdbb] at hlen
      exact hlen
    subst hd0
    obtain ⟨h0, h1, hbotnz, hretP, hcov0, hcov1, hretH0, hretH1⟩ :=
      binary_node_facts (P := P) (h := hg) (k := 0) (w := 0) (m := r)
        hfS hpS hnz hsub hpos hrne hrcov hdbb
    simp only [Nat.sub_zero, Nat.zero_add, mres_zero] at h0 h1 hretP hcov0 hcov1 hretH0 hretH1
    have hnb : nn.bottom = bot := by
      rw [hn]
      show (cpv P hg r).2.2 = bot
      rw [hdbb]
    have hlkp2 : s.pmap.lookup bot =
        some (canH P (hg - 1) (msplit hg r).1,
              canH P (hg - 1) (msplit hg r).2) := by
      unfold retrieveByP at hretP
      rcases hl2 : s.pmap.lookup bot with _ | ab
      · rw [hl2] at hretP
        cases hretP
      · rw [hl2] at hretP
        injection hretP with hretP2
        rw [hretP2]
    rw [hnb, hlkp2] at hlkp
    injection hlkp with hlkp3
    have hlH : rightH = canH P (hg - 1) (msplit hg r).2 := by
      have := congrArg Prod.snd hlkp3.symm
      simpa using this
    have hlk4 : s.hmap.lookup rightH =
        some (canNode P (hg - 1) (msplit hg r).2) := by
      rw [hlH]
      unfold retrieveByH at hretH1
      rcases hl2 : s.hmap.lookup (canH P (hg - 1) (msplit hg r).2)
          with _ | nn2
      · rw [hl2] at hretH1
        cases hretH1
      · rw [hl2] at hretH1
        injection hretH1 with hretH2
        rw [hretH2]
    rw [hlk4] at hlkh
    injection hlkh with hlkh2
    exact ⟨(msplit hg r).2, h1, hcov1, hlkh2.symm⟩
  | edge hre hlen ih =>
    rename_i hg nn
    obtain ⟨r, hrne, hrcov, hn⟩ := ih
    rcases hdbb : cpv P hg r with ⟨d, b, bot⟩
    have hdlen : nn.path.len = d := by
      have h1 : (canNode P hg r).path.len = (cpv P hg r).1 := rfl
      rw [hn, h1, hdbb]
    obtain ⟨r', hr1, hr2, hr3⟩ := edge_collapse d hg r hrne hrcov
      (by rw [hdbb])
    rw [hdbb] at hr3
    simp only at hr3
    refine ⟨r', hr1, by rwa [← hdlen] at hr2, ?_⟩
    have hnb : nn.bottom = bot := by
      rw [hn]
      show (cpv P hg r).2.2 = bot
      rw [hdbb]
    rw [hnb, hdlen]
    unfold canNode
    rw [hr3, Nat.sub_self]
    show TrieNode.mk EmptyPath bot = TrieNode.mk ⟨0, b % 2 ^ 0⟩ bot
    rw [pow_zero, Nat.mod_one]
    rfl

theorem mkeys_minsert_subset {k v : Nat} {m : List (Nat × Nat)} :
    mkeys (minsert k v m) ⊆ k :: mkeys m := by
  intro a ha
  rcases List.mem_map.mp ha with ⟨e, he, hke⟩
  rcases mem_minsert he with h1 | h1
  · rw [h1] at hke
    exact hke ▸ List.mem_cons_self _ _
  · exact List.mem_cons_of_mem _ (List.mem_map.mpr ⟨e, h1, hke⟩)

theorem mkeys_foldl_subset :
    ∀ (l m : List (Nat × Nat)),
      mkeys (l.foldl (fun acc e => minsert e.1 e.2 acc) m) ⊆
        l.map Prod.fst ++ mkeys m := by
  intro l
  induction l with
  | nil =>
    intro m a ha
    simpa using ha
  | cons e rest ih =>
    intro m a ha
    have h1 := ih (minsert e.1 e.2 m) ha
    rcases List.mem_append.mp h1 with h2 | h2
    · exact List.mem_append.mpr (Or.inl (List.mem_cons_of_mem _ h2))
    · rcases List.mem_cons.mp (mkeys_minsert_subset h2) with h3 | h3
      · exact List.mem_append.mpr (Or.inl (h3 ▸ List.mem_cons_self _ _))
      · exact List.mem_append.mpr (Or.inr h3)

theorem MapWF_foldl {h : Nat} :
    ∀ (l m : List (Nat × Nat)), (∀ e ∈ l, e.1 < 2 ^ h) → MapWF h m →
      MapWF h (l.foldl (fun acc e => minsert e.1 e.2 acc) m) := by
  intro l
  induction l with
  | nil => intro m _ hwf; exact hwf
  | cons e rest ih =>
    intro m hb hwf
    exact ih (minsert e.1 e.2 m)
      (fun f hf => hb f (List.mem_cons_of_mem _ hf))
      ⟨minsert_keys_nodup hwf.1,
       minsert_bound hwf.2 (hb e (List.mem_cons_self _ _))⟩

/-- A concrete stand-in for the Pedersen digest, used to evaluate the
embedding on closed inputs: injective on the felt pairs any small run
produces, and never `0 mod p` there. -/
def Pc : Nat → Nat → Nat := fun a b => (a * 2 ^ 126 + b + 1) % stp

set_option maxRecDepth 100000

/-! ## The claims -/

/-- C1: when the state-update entry point of the synchronizer
(`kvStorer.go` line 416) is given a non-empty expected root and the root
computed after applying the diff differs from it, the call fails with the
root-mismatch error and the committed key-value store is byte-identical to
its pre-call state: the transaction is rolled back and no write of the
diff is visible. -/
theorem juno_claim_C1 {P : Nat → Nat → Nat} {s : Sync}
    {update : List (Nat × Nat)} {r : Nat} {t1 : Trie}
    (hap : putList P update ⟨s.stateRoot, s.db, s.height⟩ = .ok t1)
    (hne : t1.rootHash P ≠ r) :
    syncUpdateState P s update (some r) = (some SyncErr.rootMismatch, s) := by
  unfold syncUpdateState
  rw [hap]
  try dsimp only
  rw [if_neg hne]

theorem juno_claim_C1_witness :
    syncUpdateState Pc ⟨emptyStore, none, 251⟩ [(1, 2)] (some 7) =
      (some SyncErr.rootMismatch, ⟨emptyStore, none, 251⟩) :=
  @juno_claim_C1 Pc ⟨emptyStore, none, 251⟩ [(1, 2)] 7
    ((putList Pc [(1, 2)] ⟨none, emptyStore, 251⟩).toOption.getD
      (emptyTrie 251))
    (by rfl) (by decide)

/-- C2: the source diverges from the claim that `put(k, 0)` is equivalent
to `delete(k)`: `Put` stores a leaf with bottom `0` (the root hash becomes
`P(0, path) + len mod p`), while `Delete` removes the key (here emptying
the trie, root hash `0`), so the root hashes differ. -/
theorem juno_claim_C2 :
    ∃ t1 ta tb : Trie,
      (emptyTrie 251).put Pc 1 2 = .ok t1 ∧
      t1.put Pc 1 0 = .ok ta ∧
      t1.delete Pc 1 = .ok tb ∧
      ta.rootHash Pc ≠ tb.rootHash Pc :=
  ⟨((emptyTrie 251).put Pc 1 2).toOption.getD (emptyTrie 251),
   ((((emptyTrie 251).put Pc 1 2).toOption.getD (emptyTrie 251)).put
     Pc 1 0).toOption.getD (emptyTrie 251),
   ((((emptyTrie 251).put Pc 1 2).toOption.getD (emptyTrie 251)).delete
     Pc 1).toOption.getD (emptyTrie 251),
   rfl, rfl, rfl, by decide⟩

/-- C3 (amended): `put(k, v)` followed by `delete(k)` restores the prior
root hash provided `k` was absent before the put; the collision-freedom of
the digest on the run's final store is assumed. -/
theorem juno_claim_C3 {P : Nat → Nat → Nat} {S : Store} {t t2 : Trie}
    {m : List (Nat × Nat)} {k v : Nat}
    (hk : k < 2 ^ t.height) (hwf : MapWF t.height m) (hrep : Rep P t m)
    (hlk : m.lookup k = none)
    (hfS : S.hfun) (hpS : S.pfun) (hnz : S.pnz) (hsub : t.store.le S)
    (hput : t.put P k v = .ok t2) (hle2 : t2.store.le S) :
    ∃ t3, t2.delete P k = .ok t3 ∧ t3.rootHash P = t.rootHash P := by
  obtain ⟨t2', he, hh, _, hrep2⟩ := put_rep (S := S) (v := v) hk hwf hfS hpS
    hnz hsub hrep
  rw [hput] at he
  injection he with he2
  subst he2
  have hk2 : k < 2 ^ t2.height := by
    rw [hh]
    exact hk
  have hwf2 : MapWF t2.height (minsert k v m) := by
    rw [hh]
    exact ⟨minsert_keys_nodup hwf.1, minsert_bound hwf.2 hk⟩
  obtain ⟨t3, hd, hh3, _, hrep3⟩ := delete_rep (S := S) hk2 hwf2
    (minsert_lookup_self k v m) hfS hpS hnz hle2 hrep2
  refine ⟨t3, hd, ?_⟩
  rw [rootHash_rep hrep3, rootHash_rep hrep, merase_minsert hlk, hh3, hh]

theorem juno_claim_C3_counterexample :
    ∃ t1 t2 t3 : Trie,
      (emptyTrie 251).put Pc 1 5 = .ok t1 ∧
      t1.put Pc 1 2 = .ok t2 ∧
      t2.delete Pc 1 = .ok t3 ∧
      t3.rootHash Pc ≠ t1.rootHash Pc :=
  ⟨((emptyTrie 251).put Pc 1 5).toOption.getD (emptyTrie 251),
   ((((emptyTrie 251).put Pc 1 5).toOption.getD (emptyTrie 251)).put
     Pc 1 2).toOption.getD (emptyTrie 251),
   ((((((emptyTrie 251).put Pc 1 5).toOption.getD (emptyTrie 251)).put
     Pc 1 2).toOption.getD (emptyTrie 251)).delete
     Pc 1).toOption.getD (emptyTrie 251),
   rfl, rfl, rfl, by decide⟩

theorem juno_claim_C3_witness :
    ∃ t3, (((emptyTrie 6).put Pc 1 2).toOption.getD
        (emptyTrie 6)).delete Pc 1 = .ok t3 ∧
      t3.rootHash Pc = (emptyTrie 6).rootHash Pc :=
  juno_claim_C3 (m := []) (v := 2)
    (S := (((emptyTrie 6).put Pc 1 2).toOption.getD (emptyTrie 6)).store)
    (by decide) (by decide) ⟨rfl, Covers_nil Pc emptyStore 6⟩ rfl
    (by decide) (by decide) (by decide) (by decide) (by rfl) (by decide)

/-- C4 (amended): inserting pairwise-distinct keys all below `2^h` into an
empty height-`h` trie yields the same root hash in any order; keys at or
above `2^h` alias a lower key's `h`-bit path, and then the order decides
which value survives. -/
theorem juno_claim_C4 {P : Nat → Nat → Nat} {S1 S2 : Store} {h : Nat}
    {l1 l2 : List (Nat × Nat)} {t1 t2 : Trie}
    (hperm : l1.Perm l2) (hb : ∀ e ∈ l1, e.1 < 2 ^ h)
    (hnd : (l1.map Prod.fst).Nodup)
    (hS1f : S1.hfun) (hS1p : S1.pfun) (hS1z : S1.pnz)
    (hS2f : S2.hfun) (hS2p : S2.pfun) (hS2z : S2.pnz)
    (h1 : putList P l1 (emptyTrie h) = .ok t1) (hle1 : t1.store.le S1)
    (h2 : putList P l2 (emptyTrie h) = .ok t2) (hle2 : t2.store.le S2) :
    t1.rootHash P = t2.rootHash P := by
  have hwf0 : MapWF h [] :=
    ⟨List.nodup_nil, fun e he => absurd he (List.not_mem_nil e)⟩
  have hrep0 : Rep P (emptyTrie h) [] := ⟨rfl, Covers_nil _ _ _⟩
  obtain ⟨hrep1, hh1⟩ := putList_rep hS1f hS1p hS1z l1 (emptyTrie h) t1 []
    hb hwf0 hrep0 h1 hle1
  obtain ⟨hrep2, hh2⟩ := putList_rep hS2f hS2p hS2z l2 (emptyTrie h) t2 []
    (fun e he => hb e (hperm.mem_iff.mpr he)) hwf0 hrep0 h2 hle2
  have hnd2 : (l2.map Prod.fst).Nodup :=
    ((hperm.map Prod.fst).nodup_iff).mp hnd
  rw [rootHash_rep hrep1, rootHash_rep hrep2, hh1, hh2,
    foldl_minsert_self hnd, foldl_minsert_self hnd2]
  exact canRoot_perm hperm hb hnd

theorem juno_claim_C4_counterexample :
    ∃ k, k = 2 ^ 251 ∧ ∃ ta tb : Trie,
      putList Pc [(0, 1), (k, 2)] (emptyTrie 251) = .ok ta ∧
      putList Pc [(k, 2), (0, 1)] (emptyTrie 251) = .ok tb ∧
      ta.rootHash Pc ≠ tb.rootHash Pc :=
  ⟨3618502788666131106986593281521497120414687020801267626233049500247285301248,
   rfl,
   (putList Pc
     [(0, 1),
      (3618502788666131106986593281521497120414687020801267626233049500247285301248,
       2)] (emptyTrie 251)).toOption.getD (emptyTrie 251),
   (putList Pc
     [(3618502788666131106986593281521497120414687020801267626233049500247285301248,
       2), (0, 1)] (emptyTrie 251)).toOption.getD (emptyTrie 251),
   rfl, rfl, by decide⟩

theorem juno_claim_C4_witness :
    ((putList Pc [(1, 5), (2, 6)] (emptyTrie 3)).toOption.getD
      (emptyTrie 3)).rootHash Pc =
    ((putList Pc [(2, 6), (1, 5)] (emptyTrie 3)).toOption.getD
      (emptyTrie 3)).rootHash Pc :=
  @juno_claim_C4 Pc
    ((putList Pc [(1, 5), (2, 6)] (emptyTrie 3)).toOption.getD
      (emptyTrie 3)).store
    ((putList Pc [(2, 6), (1, 5)] (emptyTrie 3)).toOption.getD
      (emptyTrie 3)).store
    3 [(1, 5), (2, 6)] [(2, 6), (1, 5)]
    ((putList Pc [(1, 5), (2, 6)] (emptyTrie 3)).toOption.getD (emptyTrie 3))
    ((putList Pc [(2, 6), (1, 5)] (emptyTrie 3)).toOption.getD (emptyTrie 3))
    (by decide) (by decide) (by decide) (by decide) (by decide) (by decide)
    (by decide) (by decide) (by decide) (by rfl) (by decide) (by rfl)
    (by decide)

/-- C5: on an empty height-251 trie, a single `put(key=1, value=2)` makes
`root_hash()` the hash of the single edge node with the 251-bit path of
key 1 and bottom 2, that is `P(2, 1) + 251 mod p`, for any digest `P`. -/
theorem juno_claim_C5 (P : Nat → Nat → Nat) :
    ((emptyTrie 251).put P 1 2).map (Trie.rootHash P) =
      .ok ((P 2 1 + 251) % stp) := rfl

/-- C6: the source diverges from the claim that a `Felt0` root-hash
argument yields an empty trie: `NewTrie` only checks for a nil root hash,
so `some 0` is looked up in the store and fails `ErrNotFound` on a fresh
store, while a nil root hash does give the empty trie. -/
theorem juno_claim_C6 :
    NewTrie emptyStore (some 0) 251 = .error TrieErr.notFound ∧
    NewTrie emptyStore none 251 = .ok (emptyTrie 251) :=
  ⟨rfl, rfl⟩

/-- C7 (amended): on a trie built by a sequence of puts with keys below
`2^h`, `get` of a key below `2^h` that was never inserted answers `None`
without error and without reaching the empty-node panic; a never-inserted
key at or above `2^h` can instead alias an inserted key's path and return
its value. -/
theorem juno_claim_C7 {P : Nat → Nat → Nat} {S : Store} {h : Nat}
    {l : List (Nat × Nat)} {t : Trie} {k : Nat}
    (hb : ∀ e ∈ l, e.1 < 2 ^ h) (hk : k < 2 ^ h)
    (hkn : k ∉ l.map Prod.fst)
    (hfS : S.hfun) (hpS : S.pfun) (hnz : S.pnz)
    (hput : putList P l (emptyTrie h) = .ok t) (hsub : t.store.le S) :
    t.get k = .ok none := by
  have hwf0 : MapWF h [] :=
    ⟨List.nodup_nil, fun e he => absurd he (List.not_mem_nil e)⟩
  have hrep0 : Rep P (emptyTrie h) [] := ⟨rfl, Covers_nil _ _ _⟩
  obtain ⟨hrep, hh⟩ := putList_rep hfS hpS hnz l (emptyTrie h) t []
    hb hwf0 hrep0 hput hsub
  have hwf : MapWF t.height
      (l.foldl (fun acc e => minsert e.1 e.2 acc) []) := by
    rw [hh]
    exact MapWF_foldl l [] hb hwf0
  have hlk : (l.foldl (fun acc e => minsert e.1 e.2 acc) []).lookup k
      = none := by
    refine lookup_eq_none_of_not_mem_keys ?_
    intro hc
    have h1 := mkeys_foldl_subset l [] hc
    rcases List.mem_append.mp h1 with h2 | h2
    · exact hkn h2
    · simp [mkeys] at h2
  have hres := get_rep (S := S) (k := k) (by rw [hh]; exact hk) hwf
    hfS hpS hnz hsub hrep
  rw [hres, hlk]

theorem juno_claim_C7_counterexample :
    ∃ k, k = 2 ^ 251 ∧ ∃ t : Trie,
      (emptyTrie 251).put Pc 0 5 = .ok t ∧ t.get k = .ok (some 5) :=
  ⟨3618502788666131106986593281521497120414687020801267626233049500247285301248,
   rfl,
   ((emptyTrie 251).put Pc 0 5).toOption.getD (emptyTrie 251),
   rfl, rfl⟩

theorem juno_claim_C7_witness :
    ((putList Pc [(1, 5)] (emptyTrie 3)).toOption.getD
      (emptyTrie 3)).get 2 = .ok none :=
  juno_claim_C7 (h := 3) (l := [(1, 5)]) (k := 2)
    (t := (putList Pc [(1, 5)] (emptyTrie 3)).toOption.getD (emptyTrie 3))
    (S := ((putList Pc [(1, 5)] (emptyTrie 3)).toOption.getD
      (emptyTrie 3)).store)
    (by decide) (by decide) (by decide) (by decide) (by decide) (by decide)
    (by rfl) (by decide)

/-- C8: in a trie built by puts, every binary node reachable from the root
has its Pedersen pair in the `0x00` keyspace under its bottom: the stored
pair is the two child hashes, both children resolve in the node table
under exactly those hashes, and the digest of the pair is the bottom
(assuming the digest collision-free on the run's final store). -/
theorem juno_claim_C8 {P : Nat → Nat → Nat} {S : Store} {h : Nat}
    {l : List (Nat × Nat)} {t : Trie} {rt : TrieNode}
    {hgt : Nat} {n : TrieNode}
    (hb : ∀ e ∈ l, e.1 < 2 ^ h)
    (hfS : S.hfun) (hpS : S.pfun) (hnz : S.pnz)
    (hput : putList P l (emptyTrie h) = .ok t) (hsub : t.store.le S)
    (hroot : t.root = some rt)
    (hre : Reach t.store t.height rt hgt n)
    (hbin : n.path.len = 0) (hpos : 0 < hgt) :
    ∃ a b, retrieveByP t.store n.bottom = .ok (a, b) ∧
      P a b % stp = n.bottom ∧
      ∃ nl nr, retrieveByH t.store a = .ok nl ∧
        retrieveByH t.store b = .ok nr ∧
        nodeHash P nl = a ∧ nodeHash P nr = b := by
  have hwf0 : MapWF h [] :=
    ⟨List.nodup_nil, fun e he => absurd he (List.not_mem_nil e)⟩
  have hrep0 : Rep P (emptyTrie h) [] := ⟨rfl, Covers_nil _ _ _⟩
  obtain ⟨hrep, hh⟩ := putList_rep hfS hpS hnz l (emptyTrie h) t []
    hb hwf0 hrep0 hput hsub
  by_cases hμ : (l.foldl (fun acc e => minsert e.1 e.2 acc) []).isEmpty
  · have hcontra := hrep.1
    rw [hroot, if_pos hμ] at hcontra
    cases hcontra
  · have hμne : l.foldl (fun acc e => minsert e.1 e.2 acc) [] ≠ [] := by
      simpa using hμ
    have hrt : rt = canNode P t.height
        (l.foldl (fun acc e => minsert e.1 e.2 acc) []) := by
      have h1 := hrep.1
      rw [hroot, if_neg hμ] at h1
      injection h1
    rw [hrt] at hre
    obtain ⟨r, hrne, hrcov, hn⟩ := Reach_canonical hfS hpS hnz hsub hμne
      hrep.2 hre
    rcases hdbb : cpv P hgt r with ⟨d, b, bot⟩
    have hd0 : d = 0 := by
      have h1 : (canNode P hgt r).path.len = (cpv P hgt r).1 := rfl
      rw [hn, h1, hdbb] at hbin
      exact hbin
    subst hd0
    obtain ⟨h0, h1, hbotnz, hretP, hcov0, hcov1, hretH0, hretH1⟩ :=
      binary_node_facts (P := P) (h := hgt) (k := 0) (w := 0) (m := r)
        hfS hpS hnz hsub hpos hrne hrcov hdbb
    simp only [Nat.sub_zero, Nat.zero_add, mres_zero] at h0 h1 hretP hcov0 hcov1 hretH0 hretH1
    have hnb : n.bottom = bot := by
      rw [hn]
      show (cpv P hgt r).2.2 = bot
      rw [hdbb]
    have hg1 : hgt = (hgt - 1) + 1 := by omega
    have hbin2 := cpv_bin (P := P) (h := hgt - 1) (m := r)
      (by rw [← hg1]; exact h0) (by rw [← hg1]; exact h1)
    rw [← hg1, hdbb] at hbin2
    have hbot : bot =
        P (canH P (hgt - 1) (msplit hgt r).1)
          (canH P (hgt - 1) (msplit hgt r).2) % stp := by
      have h9 := congrArg (fun x => x.2.2) hbin2
      simpa using h9
    refine ⟨canH P (hgt - 1) (msplit hgt r).1,
      canH P (hgt - 1) (msplit hgt r).2, by rw [hnb]; exact hretP, ?_,
      canNode P (hgt - 1) (msplit hgt r).1,
      canNode P (hgt - 1) (msplit hgt r).2, hretH0, hretH1, rfl, rfl⟩
    rw [hnb, hbot]

theorem juno_claim_C8_witness :
    ∃ a b, retrieveByP ((putList Pc [(0, 5), (1, 7)]
        (emptyTrie 3)).toOption.getD (emptyTrie 3)).store
      ((⟨EmptyPath, (((putList Pc [(0, 5), (1, 7)]
        (emptyTrie 3)).toOption.getD (emptyTrie 3)).root.getD
        ⟨EmptyPath, 0⟩).bottom⟩ : TrieNode)).bottom = .ok (a, b) ∧
      Pc a b % stp = ((⟨EmptyPath, (((putList Pc [(0, 5), (1, 7)]
        (emptyTrie 3)).toOption.getD (emptyTrie 3)).root.getD
        ⟨EmptyPath, 0⟩).bottom⟩ : TrieNode)).bottom ∧
      ∃ nl nr, retrieveByH ((putList Pc [(0, 5), (1, 7)]
          (emptyTrie 3)).toOption.getD (emptyTrie 3)).store a = .ok nl ∧
        retrieveByH ((putList Pc [(0, 5), (1, 7)]
          (emptyTrie 3)).toOption.getD (emptyTrie 3)).store b = .ok nr ∧
        nodeHash Pc nl = a ∧ nodeHash Pc nr = b :=
  @juno_claim_C8 Pc
    ((putList Pc [(0, 5), (1, 7)] (emptyTrie 3)).toOption.getD
      (emptyTrie 3)).store
    3 [(0, 5), (1, 7)]
    ((putList Pc [(0, 5), (1, 7)] (emptyTrie 3)).toOption.getD (emptyTrie 3))
    (((putList Pc [(0, 5), (1, 7)] (emptyTrie 3)).toOption.getD
      (emptyTrie 3)).root.getD ⟨EmptyPath, 0⟩)
    1
    ⟨EmptyPath, (((putList Pc [(0, 5), (1, 7)] (emptyTrie 3)).toOption.getD
      (emptyTrie 3)).root.getD ⟨EmptyPath, 0⟩).bottom⟩
    (by decide) (by decide) (by decide) (by decide) (by rfl) (by decide)
    (by rfl)
    (Reach.edge Reach.base (by decide))
    (by decide) (by decide)

/-- C9 (amended): after a state update commits, the value persisted under
`"latestBlockSynced"` is the 8-byte big-endian encoding of `n + 1` (the
`uint64` sum wrapping), not of the sequence number `n` itself: the helper
increments the value by one before storing it. -/
theorem juno_claim_C9 (db : List (String × List Nat)) (n : Nat) :
    (updateNumericValueFromDB db latestBlockSyncedKey n).lookup
      latestBlockSyncedKey = some (be8 ((n + 1) % 2 ^ 64)) := by
  simp [updateNumericValueFromDB, List.lookup]

theorem juno_claim_C9_counterexample :
    (updateNumericValueFromDB [] latestBlockSyncedKey 5).lookup
      latestBlockSyncedKey ≠ some (be8 5) := by decide

/-- C10: `Get` is read-only: with the receiver's store threaded through
the call, the returned trie state is exactly the input trie and the
answer is `Get`'s, for every trie and key (hence the root, the root hash,
and every later `get` are unchanged). -/
theorem juno_claim_C10 (t : Trie) (k : Nat) :
    t.getSt k = (t.get k, t) := by
  unfold Trie.getSt Trie.get
  rcases hr : t.root with _ | root
  · rfl
  · simp only [getGoSt_frame]
    try rw [← hr]
    try rfl

end Juno
